import Mathlib

/-!
CDCL solver of `sat_solver.cpp` and DIMACS reader of `cnf_parser.cpp`: shallow
embedding.

The C++ class `SATSolver` is embedded as a record of its data members and one
Lean function per member function, with the names of the source;
`CNFParser::parse` is embedded on the characters of the file.

* `int` values are `Int` (clause indices and variables, which are never
  negative, are `Nat`).  The 32-bit arithmetic of the constructor is modelled:
  `std::abs` is `abs32`, and `num_vars + 1` is `vector_size`, which has no value
  beyond `2147483647`.  Elsewhere `std::abs(l)` is `l.natAbs`, which is exact
  for every literal but `-2147483648`; `Int32Literals` bounds the literals so
  that both are exact.
* Vectors indexed by a variable (`assign`, `level`, `reason`, `activity`) are
  total functions on `Nat`: the code only indexes them with `std::abs` of a
  literal of the clause store, which is at most `num_vars` under
  `Int32Literals`.
* The `unordered_map` `watches` is a total function on literals: an absent key
  is the empty list, which `propagate` treats the same way.
* `trail`, `trail_lim` and the clause store are lists in vector order.
* `while` loops take a fuel argument and return `none` when the fuel is used up;
  more fuel never changes a result (`propagate_loop_mono`, `mark_loop_mono`), so
  "returns `r`" is `∃ fuel, ... = some r` and "never returns" is
  `∀ fuel, ... = none`.
-/

set_option linter.unusedVariables false

/-- A clause: `using Clause = std::vector<int>`. -/
abbrev Clause := List Int

/-- A formula: `using CNFFormula = std::vector<Clause>`. -/
abbrev CNFFormula := List Clause

/-- Data members of `class SATSolver` (`sat_solver.h`).  `var_inc` is not a
field: it only changes in the rescale branch of `bump_activity`, which is dead
(see `SATSolver.bump_activity`). -/
structure SATSolver where
  formula : CNFFormula
  num_vars : Nat
  assign : Nat → Int
  level : Nat → Int
  reason : Nat → Int
  trail : List Int
  trail_lim : List Nat
  watches : Int → List Nat
  activity : Nat → Int

namespace SATSolver

/-- `std::abs` on a 32-bit `int`: the absolute value, except at `-2147483648`,
whose negation does not fit an `int` and comes back as `-2147483648`. -/
def abs32 (lit : Int) : Int :=
  if lit = -2147483648 then -2147483648 else (lit.natAbs : Int)

/-- The loop of the constructor that computes `num_vars`, which starts at `0`:
`int v = std::abs(lit); if (v > num_vars) num_vars = v;` over all literals of
all clauses.  The result is never negative. -/
def count_vars (f : CNFFormula) : Nat :=
  f.foldl (fun n cl => cl.foldl
    (fun (m : Nat) (lit : Int) => if abs32 lit > (m : Int) then (abs32 lit).toNat else m) n) 0

/-- The `int` value `num_vars + 1` that sizes `assign`, `level`, `reason` and
`activity` in the constructor: there is none when the sum exceeds `2147483647`. -/
def vector_size (f : CNFFormula) : Option Nat :=
  if count_vars f + 1 ≤ 2147483647 then some (count_vars f + 1) else none

/-- `watch_literal`: `watches[lit].push_back(clause_idx)`. -/
def watch_literal (w : Int → List Nat) (lit : Int) (clause_idx : Nat) : Int → List Nat :=
  fun l => if l = lit then w l ++ [clause_idx] else w l

/-- Body of the `for` loop of `init_watches`, from clause index `i` on: an empty
clause is skipped, otherwise `cl[0]` and `cl[1]` (or `cl[0]` twice) are watched. -/
def init_watches_from (w : Int → List Nat) : Nat → CNFFormula → (Int → List Nat)
  | _, [] => w
  | i, [] :: rest => init_watches_from w (i + 1) rest
  | i, [a] :: rest => init_watches_from (watch_literal (watch_literal w a i) a i) (i + 1) rest
  | i, (a :: b :: _) :: rest =>
    init_watches_from (watch_literal (watch_literal w a i) b i) (i + 1) rest

/-- `init_watches`. -/
def init_watches (f : CNFFormula) : Int → List Nat :=
  init_watches_from (fun _ => []) 0 f

/-- The data members as the constructor `SATSolver::SATSolver(const CNFFormula&)`
leaves them, when the vectors could be sized (see `construct`). -/
def mk_solver (f : CNFFormula) : SATSolver :=
  { formula := f
    num_vars := count_vars f
    assign := fun _ => 0
    level := fun _ => -1
    reason := fun _ => -1
    trail := []
    trail_lim := []
    watches := init_watches f
    activity := fun _ => 0 }

/-- The constructor `SATSolver::SATSolver(const CNFFormula&)`: no object when
`num_vars + 1` has no value to size the vectors with. -/
def construct (f : CNFFormula) : Option SATSolver :=
  match vector_size f with
  | none => none
  | some _ => some (mk_solver f)

/-- `assign_lit(lit, clause_idx)`. -/
def assign_lit (s : SATSolver) (lit : Int) (clause_idx : Int) : SATSolver :=
  { s with
    assign := Function.update s.assign lit.natAbs (if lit > 0 then 1 else -1)
    level := Function.update s.level lit.natAbs (s.trail_lim.length : Int)
    reason := Function.update s.reason lit.natAbs clause_idx
    trail := s.trail ++ [lit] }

/-- Result of the scan `for (int l : cl)` inside `propagate`. -/
structure Scan where
  satisfied : Bool
  unassigned_count : Nat
  last_unassigned : Int

/-- The scan `for (int l : cl)` of `propagate`, with its `break` on the first
true literal. -/
def scan_clause (assign : Nat → Int) : Clause → Nat → Int → Scan
  | [], cnt, last => ⟨false, cnt, last⟩
  | l :: rest, cnt, last =>
    if assign l.natAbs = 0 then scan_clause assign rest (cnt + 1) l
    else if (assign l.natAbs = 1 ∧ l > 0) ∨ (assign l.natAbs = -1 ∧ l < 0) then
      ⟨true, cnt, last⟩
    else scan_clause assign rest cnt last

/-- The loop `for (int ci : watch_copy)` of `propagate`; the second component
is the conflict clause when the loop leaves through `return ci`. -/
def propagate_watchers : SATSolver → List Nat → SATSolver × Option Nat
  | s, [] => (s, none)
  | s, ci :: rest =>
    let r := scan_clause s.assign (s.formula.getD ci []) 0 0
    if r.satisfied then propagate_watchers s rest
    else if r.unassigned_count = 0 then (s, some ci)
    else if r.unassigned_count = 1 then
      if s.assign r.last_unassigned.natAbs = 0 then
        propagate_watchers (assign_lit s r.last_unassigned ci) rest
      else propagate_watchers s rest
    else propagate_watchers s rest

/-- The loop `while (propagate_idx < trail.size())` of `propagate`. -/
def propagate_loop : Nat → SATSolver → Nat → Option (SATSolver × Option Nat)
  | 0, _, _ => none
  | fuel + 1, s, propagate_idx =>
    if propagate_idx < s.trail.length then
      let lit := s.trail.getD propagate_idx 0
      let blocking := -lit
      match propagate_watchers s (s.watches blocking) with
      | (s1, some ci) => some (s1, some ci)
      | (s1, none) => propagate_loop fuel s1 (propagate_idx + 1)
    else some (s, none)

/-- `propagate()`: the new state and the conflicting clause index, if any. -/
def propagate (fuel : Nat) (s : SATSolver) : Option (SATSolver × Option Nat) :=
  propagate_loop fuel s 0

/-- First loop of `pick_branch_var` over `v = 1 .. num_vars`, carrying `best`
and `best_score`. -/
def pick_best (assign : Nat → Int) (activity : Nat → Int) : List Nat → Nat → Int → Nat
  | [], best, _ => best
  | v :: rest, best, best_score =>
    if assign v = 0 ∧ activity v > best_score then pick_best assign activity rest v (activity v)
    else pick_best assign activity rest best best_score

/-- `pick_branch_var()`; `best_score` starts at `-1.0`. -/
def pick_branch_var (s : SATSolver) : Nat :=
  let vars := (List.range s.num_vars).map (· + 1)
  let best := pick_best s.assign s.activity vars 0 (-1)
  if best ≠ 0 then best
  else (vars.find? (fun v => s.assign v = 0)).getD 0

/-- `bump_activity(var)`.  The activities are `double`s that start at `0.0` and
only ever grow by `var_inc = 1.0`, so they are integers; `x + 1.0` is exact
below `2^53` and rounds back to `x` at `2^53`, so no activity exceeds `2^53`,
the test `activity[var] > 1e100` never succeeds and `var_inc` stays `1.0`. -/
def bump_activity (s : SATSolver) (var : Nat) : SATSolver :=
  { s with
    activity := Function.update s.activity var
      (if s.activity var < 2 ^ 53 then s.activity var + 1 else s.activity var) }

/-- Local variables of `analyze_conflict`.  `stack` has its top (`back()`) at
the head of the list. -/
structure Analysis where
  seen : Nat → Bool
  learned : List Int
  stack : List Int
  num_levels_in_clause : Nat

/-- The loop `while (!stack.empty())` of `analyze_conflict` (marking phase). -/
def mark_loop (s : SATSolver) (curr_level : Int) : Nat → Analysis → Option Analysis
  | 0, _ => none
  | fuel + 1, a =>
    match a.stack with
    | [] => some a
    | l :: stk =>
      let v := l.natAbs
      if a.seen v then mark_loop s curr_level fuel { a with stack := stk }
      else
        let seen1 := Function.update a.seen v true
        let num1 := if s.level v = curr_level then a.num_levels_in_clause + 1
          else a.num_levels_in_clause
        let learned1 := if s.level v = curr_level then a.learned else a.learned ++ [-l]
        let stk1 :=
          if s.reason v ≠ -1 then
            (s.formula.getD (s.reason v).toNat []).foldl
              (fun st rl => if rl.natAbs = v then st
                else if !seen1 rl.natAbs then rl :: st else st) stk
          else stk
        mark_loop s curr_level fuel
          { seen := seen1, learned := learned1, stack := stk1, num_levels_in_clause := num1 }

/-- The loop `for (int rl : formula[rci])` inside the resolution loop. -/
def resolve_reason (s : SATSolver) (curr_level : Int) : Clause → Analysis → Analysis
  | [], a => a
  | rl :: rest, a =>
    let v := rl.natAbs
    if a.seen v then resolve_reason s curr_level rest a
    else
      resolve_reason s curr_level rest
        { a with
          seen := Function.update a.seen v true
          num_levels_in_clause :=
            if s.level v = curr_level then a.num_levels_in_clause + 1
            else a.num_levels_in_clause
          learned := if s.level v = curr_level then a.learned else a.learned ++ [-rl] }

/-- The search `for (auto it = trail.rbegin(); ...)` for the pivot: the variable
of the last trail literal that is seen and at the current level, `0` if none. -/
def find_pivot (s : SATSolver) (curr_level : Int) (seen : Nat → Bool) : Nat :=
  match s.trail.reverse.find? (fun lit => seen lit.natAbs && decide (s.level lit.natAbs = curr_level)) with
  | some lit => lit.natAbs
  | none => 0

/-- One pass through the body of `while (num_levels_in_clause > 1)`, for a
pivot that is not `0`. -/
def resolve_step (s : SATSolver) (curr_level : Int) (a : Analysis) (pivot_var : Nat) : Analysis :=
  let rci := s.reason pivot_var
  let a1 : Analysis :=
    { a with
      seen := Function.update a.seen pivot_var false
      num_levels_in_clause := a.num_levels_in_clause - 1 }
  if rci = -1 then
    { a1 with
      learned := a1.learned ++ [-(if s.assign pivot_var = 1 then (pivot_var : Int) else -(pivot_var : Int))] }
  else resolve_reason s curr_level (s.formula.getD rci.toNat []) a1

/-- The loop `while (num_levels_in_clause > 1)` of `analyze_conflict`. -/
def resolve_loop (s : SATSolver) (curr_level : Int) : Nat → Analysis → Option Analysis
  | 0, _ => none
  | fuel + 1, a =>
    if a.num_levels_in_clause > 1 then
      let pivot_var := find_pivot s curr_level a.seen
      if pivot_var = 0 then some a
      else resolve_loop s curr_level fuel (resolve_step s curr_level a pivot_var)
    else some a

/-- The local variables of `analyze_conflict` when the marking loop starts: the
literals of the conflict clause pushed on `stack` in order. -/
def analysis_init (s : SATSolver) (conflict_clause_idx : Nat) : Analysis :=
  { seen := fun _ => false, learned := [],
    stack := (s.formula.getD conflict_clause_idx []).reverse,
    num_levels_in_clause := 0 }

/-- The clause `analyze_conflict` returns, before the activity bumps: both
loops, then the fallback for an empty `learned`. -/
def analyze_clause (fuel : Nat) (s : SATSolver) (conflict_clause_idx : Nat) : Option (List Int) :=
  let curr_level : Int := (s.trail_lim.length : Int)
  match mark_loop s curr_level fuel (analysis_init s conflict_clause_idx) with
  | none => none
  | some a1 =>
    match resolve_loop s curr_level fuel a1 with
    | none => none
    | some a2 =>
      if a2.learned.isEmpty then
        some ((s.formula.getD conflict_clause_idx []).map (fun l => -l))
      else some a2.learned

/-- `analyze_conflict(conflict_clause_idx)`: the state with the bumped
activities and the learned clause. -/
def analyze_conflict (fuel : Nat) (s : SATSolver) (conflict_clause_idx : Nat) :
    Option (SATSolver × List Int) :=
  match analyze_clause fuel s conflict_clause_idx with
  | none => none
  | some learned => some (learned.foldl (fun t l => bump_activity t l.natAbs) s, learned)

/-- `add_learned_clause(cl)`. -/
def add_learned_clause (s : SATSolver) (cl : List Int) : SATSolver :=
  let idx := s.formula.length
  { s with
    formula := s.formula ++ [cl]
    watches :=
      match cl with
      | [] => s.watches
      | [a] => watch_literal (watch_literal s.watches a idx) a idx
      | a :: b :: _ => watch_literal (watch_literal s.watches a idx) b idx }

/-- First loop of `backjump` on the reversed trail (head = `trail.back()`):
returns the new `assign`, `level`, `reason` and what is left of the reversed
trail. -/
def backjump_pop (target_level : Int) :
    List Int → (Nat → Int) → (Nat → Int) → (Nat → Int) →
      (Nat → Int) × (Nat → Int) × (Nat → Int) × List Int
  | [], asg, lev, rea => (asg, lev, rea, [])
  | lit :: rest, asg, lev, rea =>
    if lev lit.natAbs ≤ target_level then (asg, lev, rea, lit :: rest)
    else
      backjump_pop target_level rest (Function.update asg lit.natAbs 0)
        (Function.update lev lit.natAbs (-1)) (Function.update rea lit.natAbs (-1))

/-- `backjump(target_level)`, for `target_level ≥ 0` as `solve` calls it. -/
def backjump (s : SATSolver) (target_level : Int) : SATSolver :=
  let r := backjump_pop target_level s.trail.reverse s.assign s.level s.reason
  { s with
    assign := r.1
    level := r.2.1
    reason := r.2.2.1
    trail := r.2.2.2.reverse
    trail_lim := s.trail_lim.take target_level.toNat }

/-- The bootstrap loop of `solve` over the clauses from index `ci` on: a clause
of size 1 assigns its literal when the variable is still unassigned. -/
def solve_units : SATSolver → Nat → CNFFormula → SATSolver
  | s, _, [] => s
  | s, ci, [lit] :: rest =>
    if s.assign lit.natAbs = 0 then solve_units (assign_lit s lit ci) (ci + 1) rest
    else solve_units s (ci + 1) rest
  | s, ci, _ :: rest => solve_units s (ci + 1) rest

/-- The pair `(highest, second_highest)` computed by `solve` over `learned`. -/
def top_two_levels (level : Nat → Int) : List Int → Int → Int → Int × Int
  | [], highest, second_highest => (highest, second_highest)
  | l :: rest, highest, second_highest =>
    let lev := if level l.natAbs ≥ 0 then level l.natAbs else 0
    if lev > highest then top_two_levels level rest lev highest
    else if lev > second_highest then top_two_levels level rest highest lev
    else top_two_levels level rest highest second_highest

/-- `target = std::max(0, second_highest)`. -/
def backjump_target (s : SATSolver) (learned : List Int) : Int :=
  max 0 (top_two_levels s.level learned (-1) (-1)).2

/-- Outcome of one pass through the body of `while (true)` in `solve`. -/
inductive Step where
  | done (verdict : Bool) (s : SATSolver)
  | next (s : SATSolver)

/-- One pass through the body of `while (true)` in `solve`. -/
def solve_iter (fuel : Nat) (s : SATSolver) : Option Step :=
  match propagate fuel s with
  | none => none
  | some (s1, some conflict) =>
    if s1.trail_lim.isEmpty then some (Step.done false s1)
    else
      match analyze_conflict fuel s1 conflict with
      | none => none
      | some (s2, learned) =>
        let s3 := add_learned_clause s2 learned
        some (Step.next (backjump s3 (backjump_target s3 learned)))
  | some (s1, none) =>
    let var := pick_branch_var s1
    if var = 0 then some (Step.done true s1)
    else
      some (Step.next
        (assign_lit { s1 with trail_lim := s1.trail_lim ++ [s1.trail.length] } (var : Int) (-1)))

/-- The loop `while (true)` of `solve`: at most `iters` passes, each inner loop
with `fuel`. -/
def solve_loop : Nat → Nat → SATSolver → Option (Bool × SATSolver)
  | 0, _, _ => none
  | iters + 1, fuel, s =>
    match solve_iter fuel s with
    | none => none
    | some (Step.done verdict s1) => some (verdict, s1)
    | some (Step.next s1) => solve_loop iters fuel s1

/-- The state at the first test of `while (true)`: constructor, then the loop
over the unit clauses. -/
def solve_start (f : CNFFormula) : SATSolver :=
  solve_units (mk_solver f) 0 f

/-- `solve()` on the object with the data members `mk_solver f`: the verdict and
the final state, `none` when `fuel` does not suffice. -/
def solve (fuel : Nat) (f : CNFFormula) : Option (Bool × SATSolver) :=
  solve_loop fuel fuel (solve_start f)

/-- `SATSolver(f).solve()`, constructor included: `none` when the constructor
yields no object or when `fuel` does not suffice. -/
def construct_solve (fuel : Nat) (f : CNFFormula) : Option (Bool × SATSolver) :=
  match construct f with
  | none => none
  | some s => solve_loop fuel fuel (solve_units s 0 f)

/-- `get_assignment()`: the vector `assign`, of size `num_vars + 1` (index 0 is
not a variable). -/
def get_assignment (s : SATSolver) : List Int :=
  (List.range (s.num_vars + 1)).map s.assign

end SATSolver

/-! ## Vocabulary of the specification -/

/-- A literal is true under `assign`: the test `(a == 1 && l > 0) || (a == -1 && l < 0)`. -/
def lit_true (assign : Nat → Int) (l : Int) : Prop :=
  (assign l.natAbs = 1 ∧ l > 0) ∨ (assign l.natAbs = -1 ∧ l < 0)

/-- A literal is false under `assign`: its variable is assigned the other way. -/
def lit_false (assign : Nat → Int) (l : Int) : Prop :=
  (assign l.natAbs = 1 ∧ l < 0) ∨ (assign l.natAbs = -1 ∧ l > 0)

/-- A literal is unassigned under `assign`. -/
def lit_unassigned (assign : Nat → Int) (l : Int) : Prop :=
  assign l.natAbs = 0

instance (assign : Nat → Int) (l : Int) : Decidable (lit_true assign l) := by
  unfold lit_true; infer_instance

instance (assign : Nat → Int) (l : Int) : Decidable (lit_false assign l) := by
  unfold lit_false; infer_instance

instance (assign : Nat → Int) (l : Int) : Decidable (lit_unassigned assign l) := by
  unfold lit_unassigned; infer_instance

/-- A clause contains a literal that is true under `assign`. -/
def clause_sat (assign : Nat → Int) (cl : Clause) : Prop :=
  ∃ l ∈ cl, lit_true assign l

instance (assign : Nat → Int) (cl : Clause) : Decidable (clause_sat assign cl) := by
  unfold clause_sat; infer_instance

/-- A truth assignment `m` of the variables makes the clause true. -/
def models_clause (m : Nat → Bool) (cl : Clause) : Prop :=
  ∃ l ∈ cl, (l > 0 ∧ m l.natAbs = true) ∨ (l < 0 ∧ m l.natAbs = false)

instance (m : Nat → Bool) (cl : Clause) : Decidable (models_clause m cl) := by
  unfold models_clause; infer_instance

/-- A truth assignment `m` makes every clause of the formula true. -/
def models_formula (m : Nat → Bool) (f : CNFFormula) : Prop :=
  ∀ cl ∈ f, models_clause m cl

instance (m : Nat → Bool) (f : CNFFormula) : Decidable (models_formula m f) := by
  unfold models_formula; infer_instance

/-- The states at which `solve` tests `while (true)`: the state after the
bootstrap, and every state that one pass of the loop body hands to the next. -/
inductive Reachable (f : CNFFormula) : SATSolver → Prop where
  | start : Reachable f (SATSolver.solve_start f)
  | step (fuel : Nat) (s t : SATSolver) :
      Reachable f s → SATSolver.solve_iter fuel s = some (SATSolver.Step.next t) → Reachable f t

/-! ## Reading off the components of a run -/

/-- The state a pass hands to the next one (`d` if there is none). -/
def next_state (o : Option SATSolver.Step) (d : SATSolver) : SATSolver :=
  match o with
  | some (SATSolver.Step.next s) => s
  | _ => d

/-- The pass hands a state to a next pass. -/
def is_next (o : Option SATSolver.Step) : Bool :=
  match o with
  | some (SATSolver.Step.next _) => true
  | _ => false

/-- First component of an optional pair (`d` if there is none). -/
def state_of {α : Type} (o : Option (SATSolver × α)) (d : SATSolver) : SATSolver :=
  match o with
  | some (s, _) => s
  | none => d

/-- Second component of an optional pair. -/
def value_of {α : Type} (o : Option (SATSolver × α)) : Option α :=
  match o with
  | some (_, a) => some a
  | none => none

/-- State and verdict of a finished run (`d` if it has not finished). -/
def final_state (o : Option (Bool × SATSolver)) (d : SATSolver) : SATSolver :=
  match o with
  | some (_, s) => s
  | none => d

/-- Verdict of a finished run. -/
def final_verdict (o : Option (Bool × SATSolver)) : Option Bool :=
  match o with
  | some (b, _) => some b
  | none => none

/-! ## Inputs used below -/

/-- The formula `(-1), (-2), (3), (-3 4), (-3 5), (1 2 -4 -5)`. -/
def unit_chain : CNFFormula := [[-1], [-2], [3], [-3, 4], [-3, 5], [1, 2, -4, -5]]

/-- Scenario b of the specification: `(1), (-1)`. -/
def scenario_b : CNFFormula := [[1], [-1]]

/-- Scenario c of the specification: `(1 2), (-1 2), (1 -2), (-1 -2)`. -/
def scenario_c : CNFFormula := [[1, 2], [-1, 2], [1, -2], [-1, -2]]

/-- Scenario e of the specification: `(1 2), (-1 3), (-2 -3)`. -/
def scenario_e : CNFFormula := [[1, 2], [-1, 3], [-2, -3]]

/-- The formula `(-1 2), (-1 -2 -3 -4), (-2 3)`. -/
def late_conflict : CNFFormula := [[-1, 2], [-1, -2, -3, -4], [-2, 3]]

/-- The formula whose only clause is the empty clause. -/
def empty_clause_formula : CNFFormula := [[]]

/-- State of `solve` on `late_conflict` at the first test of `while (true)`. -/
def lc_s0 : SATSolver := SATSolver.solve_start late_conflict

/-- State after the first pass on `late_conflict` (variable 1 decided). -/
def lc_s1 : SATSolver := next_state (SATSolver.solve_iter 10 lc_s0) lc_s0

/-- State after the second pass on `late_conflict` (variable 4 decided). -/
def lc_s2 : SATSolver := next_state (SATSolver.solve_iter 10 lc_s1) lc_s1

/-- State in which the third call of `propagate` on `late_conflict` returns. -/
def lc_s3 : SATSolver := state_of (SATSolver.propagate 10 lc_s2) lc_s2

/-- State after `analyze_conflict` in the third pass on `late_conflict`. -/
def lc_s4 : SATSolver := state_of (SATSolver.analyze_conflict 10 lc_s3 1) lc_s3

/-- State after the third pass on `late_conflict` (learned clause added, trail
undone to the backjump level). -/
def lc_s5 : SATSolver := next_state (SATSolver.solve_iter 10 lc_s2) lc_s2

/-- State of `solve` on `scenario_c` at the first test of `while (true)`. -/
def sc_s0 : SATSolver := SATSolver.solve_start scenario_c

/-- State after the first pass on `scenario_c` (variable 1 decided). -/
def sc_s1 : SATSolver := next_state (SATSolver.solve_iter 10 sc_s0) sc_s0

/-- State in which the second call of `propagate` on `scenario_c` returns. -/
def sc_s2 : SATSolver := state_of (SATSolver.propagate 10 sc_s1) sc_s1

/-- Local variables of `analyze_conflict` on `scenario_c` after the marking
loop. -/
def sc_a1 : SATSolver.Analysis :=
  (SATSolver.mark_loop sc_s2 1 10 (SATSolver.analysis_init sc_s2 3)).getD
    (SATSolver.analysis_init sc_s2 3)

/-! ## Invariants -/

/-- The assignment vector holds only `0`, `1` and `-1`. -/
def AssignRange (assign : Nat → Int) : Prop :=
  ∀ v, assign v = 0 ∨ assign v = 1 ∨ assign v = -1

/-- How `propagate` may change the state: it only appends to the trail and
assigns variables that were unassigned. -/
structure Grows (s t : SATSolver) : Prop where
  formula : t.formula = s.formula
  num_vars : t.num_vars = s.num_vars
  watches : t.watches = s.watches
  trail_lim : t.trail_lim = s.trail_lim
  activity : t.activity = s.activity
  trail : ∃ ext, t.trail = s.trail ++ ext
  keep : ∀ v, s.assign v ≠ 0 → t.assign v = s.assign v
  range : AssignRange s.assign → AssignRange t.assign

/-- No clause of the formula contains the literal `0`. -/
def NonzeroLits (f : CNFFormula) : Prop :=
  ∀ cl ∈ f, ∀ l ∈ cl, l ≠ 0

instance (f : CNFFormula) : Decidable (NonzeroLits f) := by
  unfold NonzeroLits; infer_instance

/-- Every literal of the formula is over a variable in `0 .. n`. -/
def LitsBounded (f : CNFFormula) (n : Nat) : Prop :=
  ∀ cl ∈ f, ∀ l ∈ cl, l.natAbs ≤ n

instance (f : CNFFormula) (n : Nat) : Decidable (LitsBounded f n) := by
  unfold LitsBounded; infer_instance

/-- Every literal has an absolute value of at most `2147483646`: `std::abs` of
the literal is its absolute value, and `num_vars + 1` fits a 32-bit `int`. -/
def Int32Literals (f : CNFFormula) : Prop :=
  LitsBounded f 2147483646

instance (f : CNFFormula) : Decidable (Int32Literals f) := by
  unfold Int32Literals; infer_instance

/-- The `n` of the specification: the maximum absolute literal value in the
input, `0` when the input has no literal. -/
def max_abs_literal (f : CNFFormula) : Nat :=
  f.foldl (fun n cl => cl.foldl (fun m lit => if lit.natAbs > m then lit.natAbs else m) n) 0

/-- The formula `(-2147483648 1)`. -/
def int_min_clause : CNFFormula := [[-2147483648, 1]]

/-- The formula `(2147483647), (-2147483647)`. -/
def int_max_units : CNFFormula := [[2147483647], [-2147483647]]

/-- Number of indices `0 .. num_vars` of `assign` that hold `0`. -/
def unassigned_count (s : SATSolver) : Nat :=
  (List.range (s.num_vars + 1)).countP (fun v => decide (s.assign v = 0))

/-- What holds of the state at every test of `while (true)` in `solve`, for the
input `f`: watch lists hold valid clause indices, `assign` holds only `0`, `1`
and `-1`, `num_vars` is the value the constructor computed, and the clause store
is `f` followed by learned clauses. -/
structure SolverInv (f : CNFFormula) (s : SATSolver) : Prop where
  watches_valid : ∀ lit ci, ci ∈ s.watches lit → ci < s.formula.length
  range : AssignRange s.assign
  num_vars : s.num_vars = SATSolver.count_vars f
  store : ∃ learned, s.formula = f ++ learned

/-- Every trail literal is true, and every assigned variable is on the trail. -/
structure TrailSound (s : SATSolver) : Prop where
  trail_true : ∀ t ∈ s.trail, s.assign t.natAbs = if t > 0 then 1 else -1
  on_trail : ∀ v, s.assign v ≠ 0 → ∃ t ∈ s.trail, t.natAbs = v

/-- Clause `k` of the store is the unit clause `(-t)`, it is in the watch list
of `-t`, and `t` is true: `propagate` finds clause `k` falsified when it
processes the trail literal `t`. -/
structure Trigger (s : SATSolver) (t : Int) (k : Nat) : Prop where
  clause : s.formula.getD k [] = [-t]
  watched : k ∈ s.watches (-t)
  value : s.assign t.natAbs = if t > 0 then 1 else -1

/-- The levels of the trail entries do not decrease from head to tail. -/
def LevelsMonotone (s : SATSolver) : Prop :=
  s.trail.Pairwise (fun a b => s.level a.natAbs ≤ s.level b.natAbs)

instance (s : SATSolver) : Decidable (LevelsMonotone s) := by
  unfold LevelsMonotone; infer_instance

/-- No variable occurs twice on the trail. -/
def TrailDistinct (s : SATSolver) : Prop :=
  (s.trail.map Int.natAbs).Nodup

instance (s : SATSolver) : Decidable (TrailDistinct s) := by
  unfold TrailDistinct; infer_instance

/-- The states of the solver object of the input `f`, between the calls of its
member functions: as the constructor leaves it, at a test of `while (true)` in
`solve()`, when `propagate` has returned, when `analyze_conflict` has returned,
and when `add_learned_clause` has returned, which is the state `backjump` is
called on. -/
inductive SolveState (f : CNFFormula) : SATSolver → Prop where
  | constructed : SolveState f (SATSolver.mk_solver f)
  | loop_head (s : SATSolver) : Reachable f s → SolveState f s
  | propagated (fuel : Nat) (s s1 : SATSolver) (c : Option Nat) :
      Reachable f s → SATSolver.propagate fuel s = some (s1, c) → SolveState f s1
  | analyzed (fuel fuel2 : Nat) (s s1 s2 : SATSolver) (ci : Nat) (learned : List Int) :
      Reachable f s → SATSolver.propagate fuel s = some (s1, some ci) →
      s1.trail_lim.isEmpty = false →
      SATSolver.analyze_conflict fuel2 s1 ci = some (s2, learned) → SolveState f s2
  | learned (fuel fuel2 : Nat) (s s1 s2 : SATSolver) (ci : Nat) (learned : List Int) :
      Reachable f s → SATSolver.propagate fuel s = some (s1, some ci) →
      s1.trail_lim.isEmpty = false →
      SATSolver.analyze_conflict fuel2 s1 ci = some (s2, learned) →
      SolveState f (SATSolver.add_learned_clause s2 learned)

/-! ## The DIMACS reader of `cnf_parser.cpp`

`CNFParser::parse` is embedded on the contents of the file, a list of characters:
`std::getline` cuts it at the line breaks and `operator>>` reads the integers of
a line. -/

namespace CNFParser

/-- `std::isspace` in the "C" locale, which `operator>>` uses to skip blanks. -/
def is_space (c : Char) : Bool :=
  c = ' ' || c = '\t' || c = '\n' || c = '\x0b' || c = '\x0c' || c = '\r'

/-- The digits at the head of `cs`: their decimal value on top of `acc`, how many
there are on top of `n`, and the characters after them. -/
def read_digits : List Char → Nat → Nat → Nat × Nat × List Char
  | [], acc, n => (acc, n, [])
  | c :: cs, acc, n =>
    if c.isDigit then read_digits cs (10 * acc + (c.toNat - 48)) (n + 1)
    else (acc, n, c :: cs)

/-- The optional sign in front of the digits: whether it is `-`, and the
characters after it. -/
def read_sign : List Char → Bool × List Char
  | '-' :: r => (true, r)
  | '+' :: r => (false, r)
  | cs => (false, cs)

/-- One extraction `iss >> lit` for `int lit`: blanks are skipped, then an
optional sign and at least one decimal digit are read.  `none` is a failed
extraction (end of the line, no digit, or a value outside the range of a 32-bit
`int`), after which the stream tests `false`. -/
def read_int (cs : List Char) : Option (Int × List Char) :=
  let signed := read_sign (cs.dropWhile is_space)
  let d := read_digits signed.2 0 0
  if d.2.1 = 0 then none
  else
    let v : Int := if signed.1 then -(d.1 : Int) else (d.1 : Int)
    if v < -2147483648 ∨ 2147483647 < v then none else some (v, d.2.2)

/-- The loop `while (iss >> lit && lit != 0) clause.push_back(lit)` on what is
left of the line. -/
def read_clause : Nat → List Char → Clause → Option Clause
  | 0, _, _ => none
  | fuel + 1, cs, clause =>
    match read_int cs with
    | none => some clause
    | some (lit, rest) =>
      if lit ≠ 0 then read_clause fuel rest (clause ++ [lit]) else some clause

/-- The successive lines `std::getline(file, line)` delivers from the text still
to be read; `cur` holds the characters of the line being read. -/
def get_lines : List Char → List Char → List (List Char)
  | cur, [] => if cur.isEmpty then [] else [cur]
  | cur, c :: cs => if c = '\n' then cur :: get_lines [] cs else get_lines (cur ++ [c]) cs

/-- The loop `while (std::getline(file, line))` over the lines still to come. -/
def parse_lines (fuel : Nat) : List (List Char) → CNFFormula → Option CNFFormula
  | [], formula => some formula
  | line :: rest, formula =>
    if line.isEmpty || line.head? = some 'c' || line.head? = some 'p' then
      parse_lines fuel rest formula
    else
      match read_clause fuel line [] with
      | none => none
      | some clause =>
        if !clause.isEmpty then parse_lines fuel rest (formula ++ [clause])
        else parse_lines fuel rest formula

/-- `CNFParser::parse` on the contents of the file. -/
def parse (fuel : Nat) (text : List Char) : Option CNFFormula :=
  parse_lines fuel (get_lines [] text) []

end CNFParser

/-- The two lines `1 2` and `3 0`. -/
def two_line_clause : List Char := "1 2\n3 0\n".toList

/-- A header, a comment and two clauses, the first one without its `0`. -/
def small_dimacs : List Char := "p cnf 3 2\nc example\n1 -2\n-3 2 0 1\n".toList

/-- The literals whose watch lists receive a clause, in the order of the calls
of `watch_literal` in `init_watches` and `add_learned_clause`: the first two
literals, or the only literal twice; none for an empty clause. -/
def watched_lits : Clause → List Int
  | [] => []
  | [a] => [a, a]
  | a :: b :: _ => [a, b]

/-- Every clause index is in the watch list of a literal as often as the
literal is among the watched literals of the clause (an index that is not in
the store is in no list). -/
def WatchExact (s : SATSolver) : Prop :=
  ∀ (lit : Int) (k : Nat),
    (s.watches lit).count k = (watched_lits (s.formula.getD k [])).count lit

/-- The formula whose only clause repeats a literal: `(1 1)`. -/
def repeated_literal : CNFFormula := [[1, 1]]

/-- The trail and the vectors indexed by a variable fit together: no variable is
twice on the trail, the trail literals are true and the assigned variables are
the trail variables, the level of the entry at position `i` is the number of
markers in `trail_lim` that are `≤ i`, the markers increase and point into the
trail, an entry without a reason clause sits at a marker, and an unassigned
variable has level `-1` and reason `-1`. -/
structure TrailInv (s : SATSolver) : Prop where
  distinct : (s.trail.map Int.natAbs).Nodup
  trail_true : ∀ l ∈ s.trail, s.assign l.natAbs = if l > 0 then 1 else -1
  on_trail : ∀ v, s.assign v ≠ 0 → ∃ l ∈ s.trail, l.natAbs = v
  levels : ∀ i, i < s.trail.length →
    s.level (s.trail.getD i 0).natAbs = ((s.trail_lim.filter (fun m => decide (m ≤ i))).length : Int)
  lim_sorted : s.trail_lim.Pairwise (· < ·)
  lim_lt : ∀ m ∈ s.trail_lim, m < s.trail.length
  decisions : ∀ i, i < s.trail.length → s.reason (s.trail.getD i 0).natAbs = -1 → i ∈ s.trail_lim
  cleared : ∀ v, s.assign v = 0 → s.level v = -1 ∧ s.reason v = -1

/-- Variable `u` is at an earlier position of the trail than variable `v`. -/
def Before (trail : List Int) (u v : Nat) : Prop :=
  ∃ i j, i < j ∧ j < trail.length ∧ (trail.getD i 0).natAbs = u ∧ (trail.getD j 0).natAbs = v

/-- The reason of an assigned variable `v`, when it is not `-1`, is the index of
a clause made of one true literal over `v` and of literals that are false and
whose variables are earlier on the trail than `v`. -/
def ReasonInv (s : SATSolver) : Prop :=
  ∀ v, s.assign v ≠ 0 → s.reason v ≠ -1 →
    0 ≤ s.reason v ∧
    ∃ pre l post, s.formula.getD (s.reason v).toNat [] = pre ++ l :: post ∧
      l.natAbs = v ∧ lit_true s.assign l ∧
      ∀ m ∈ pre ++ post, lit_false s.assign m ∧ Before s.trail m.natAbs v

/-- The invariants of the implication graph together: the trail invariant, the
reason invariant, values in `0`, `1`, `-1` and no literal `0` in the store or on
the trail. -/
structure GraphInv (s : SATSolver) : Prop where
  trail : TrailInv s
  reason : ReasonInv s
  range : AssignRange s.assign
  nonzero : NonzeroLits s.formula
  trail_nonzero : ∀ l ∈ s.trail, l ≠ 0

/-- What holds of the local variables of `analyze_conflict` during the marking
loop, in state `s` at level `d`: the literals on `stack` are false, the literals
of `learned` are true and not at level `d`, the literals of the reason clause of
a marked variable are marked or on the stack, marked variables are assigned, and
`num_levels_in_clause` tells whether no, one or several marked variables are at
level `d`. -/
structure MarkInv (s : SATSolver) (d : Int) (a : SATSolver.Analysis) : Prop where
  stack_false : ∀ l ∈ a.stack, lit_false s.assign l
  learned_true : ∀ l ∈ a.learned, lit_true s.assign l ∧ s.level l.natAbs ≠ d
  closure : ∀ v, a.seen v = true → s.reason v ≠ -1 →
    ∀ rl ∈ s.formula.getD (s.reason v).toNat [], a.seen rl.natAbs = true ∨ rl ∈ a.stack
  seen_assigned : ∀ v, a.seen v = true → s.assign v ≠ 0
  count_one : 1 ≤ a.num_levels_in_clause → ∃ u, a.seen u = true ∧ s.level u = d
  count_two : 2 ≤ a.num_levels_in_clause →
    ∃ u w, u ≠ w ∧ a.seen u = true ∧ a.seen w = true ∧ s.level u = d ∧ s.level w = d
  seen_one : ∀ u, a.seen u = true → s.level u = d → 1 ≤ a.num_levels_in_clause
  seen_two : ∀ u w, u ≠ w → a.seen u = true → a.seen w = true → s.level u = d →
    s.level w = d → 2 ≤ a.num_levels_in_clause

/-- The integers that successive extractions `iss >> lit` deliver from `cs`, up
to the first extraction that fails; `n` bounds their number. -/
def extractions : Nat → List Char → List Int
  | 0, _ => []
  | n + 1, cs =>
    match CNFParser.read_int cs with
    | none => []
    | some (v, rest) => v :: extractions n rest

/-- The integers on a line, in the order in which they are written: an
extraction consumes at least one character, so the length of the line bounds
their number. -/
def line_ints (line : List Char) : List Int :=
  extractions line.length line

/-- What one line contributes, read line by line: nothing when the line is
empty or starts with `c` or `p`; otherwise the one clause made of the integers
of the line before its first `0` (all of them when the line has no `0`), and
nothing when there is no such integer. -/
def line_clauses (line : List Char) : List Clause :=
  if line = [] ∨ line.head? = some 'c' ∨ line.head? = some 'p' then []
  else if (line_ints line).takeWhile (fun v => decide (v ≠ 0)) = [] then []
  else [(line_ints line).takeWhile (fun v => decide (v ≠ 0))]

/-- The text that consists of the lines `ls`, each ended by a line break,
followed by the characters `last` that no line break ends. -/
def join_lines (ls : List (List Char)) (last : List Char) : List Char :=
  (ls.map (fun l => l ++ ['\n'])).flatten ++ last

/-- The character of the decimal digit `d`. -/
def digit_char : Nat → Char
  | 0 => '0'
  | 1 => '1'
  | 2 => '2'
  | 3 => '3'
  | 4 => '4'
  | 5 => '5'
  | 6 => '6'
  | 7 => '7'
  | 8 => '8'
  | _ => '9'

/-- The decimal digits of `n`, most significant first; `k` bounds their number. -/
def decimal : Nat → Nat → List Nat
  | 0, _ => []
  | k + 1, n => if n < 10 then [n] else decimal k (n / 10) ++ [n % 10]

/-- The decimal numeral of `n`, without leading zeros. -/
def numeral (n : Nat) : List Char :=
  (decimal (n + 1) n).map digit_char

/-- An integer as a DIMACS file writes it: `-` in front of a negative one, then
the numeral of its absolute value. -/
def int_text (v : Int) : List Char :=
  if v < 0 then '-' :: numeral v.natAbs else numeral v.natAbs

/-- The line that holds the integers `vs`, each followed by a blank. -/
def ints_line (vs : List Int) : List Char :=
  (vs.map (fun v => int_text v ++ [' '])).flatten

open SATSolver

/-! ## Reading off the components of a run: lemmas -/

theorem step_of_is_next (o : Option Step) (d : SATSolver) (h : is_next o = true) :
    o = some (Step.next (next_state o d)) := by
  cases o with
  | none => simp [is_next] at h
  | some st => cases st <;> simp_all [is_next, next_state]

theorem pair_of_value {α : Type} (o : Option (SATSolver × α)) (d : SATSolver) (a : α)
    (h : value_of o = some a) : o = some (state_of o d, a) := by
  cases o with
  | none => simp [value_of] at h
  | some p => cases p; simp_all [value_of, state_of]

theorem run_of_verdict (o : Option (Bool × SATSolver)) (d : SATSolver) (b : Bool)
    (h : final_verdict o = some b) : o = some (b, final_state o d) := by
  cases o with
  | none => simp [final_verdict] at h
  | some p => cases p; simp_all [final_verdict, final_state]

/-! ## Runs on concrete inputs -/

/-- C1 (code at the failing input): on `(-1), (-2), (3), (-3 4), (-3 5),
(1 2 -4 -5)` `solve` returns `true`, and the clause `(1 2 -4 -5)` of the input
has no literal that is true under the returned assignment. -/
theorem solve_sat_leaves_clause_false :
    ∃ s, solve 10 unit_chain = some (true, s) ∧
      [1, 2, -4, -5] ∈ unit_chain ∧ ¬ clause_sat s.assign [1, 2, -4, -5] := by
  refine ⟨final_state (solve 10 unit_chain) (mk_solver []),
    run_of_verdict _ _ _ (by decide!), by decide, by decide!⟩

/-- C5 (code at the failing input): on the formula whose only clause is empty,
`solve` returns `true`. -/
theorem solve_empty_clause_sat :
    [] ∈ empty_clause_formula ∧ ∃ s, solve 1 empty_clause_formula = some (true, s) := by
  refine ⟨by decide, final_state (solve 1 empty_clause_formula) (mk_solver []),
    run_of_verdict _ _ _ (by decide!)⟩

/-- C7 (code at the failing input): the first call of `propagate` on `(-1), (-2),
(3), (-3 4), (-3 5), (1 2 -4 -5)` returns no conflict, and leaves the clause
`(1 2 -4 -5)` of the store with every literal false. -/
theorem propagate_none_leaves_clause_false :
    ∃ s, propagate 10 (solve_start unit_chain) = some (s, none) ∧
      [1, 2, -4, -5] ∈ s.formula ∧ ∀ l ∈ [1, 2, -4, -5], lit_false s.assign l := by
  refine ⟨state_of (propagate 10 (solve_start unit_chain)) (mk_solver []),
    pair_of_value _ _ _ (by decide!), by decide!, by decide!⟩

theorem lc_reach_s2 : Reachable late_conflict lc_s2 :=
  Reachable.step 10 lc_s1 lc_s2
    (Reachable.step 10 lc_s0 lc_s1 Reachable.start (step_of_is_next _ _ (by decide!)))
    (step_of_is_next _ _ (by decide!))

/-- C9 (code at the failing input): on `(-1 2), (-1 -2 -3 -4), (-2 3)` the third
call of `propagate` returns clause 1 as conflict at decision level 2;
`analyze_conflict` returns `(3 2 1)`, none of whose literals is at level 2, and
after the backjump every literal of `(3 2 1)` is true. -/
theorem learned_clause_not_asserting :
    ∃ s2 s3 s4 s5, Reachable late_conflict s2 ∧
      propagate 10 s2 = some (s3, some 1) ∧ s3.trail_lim.length = 2 ∧
      analyze_conflict 10 s3 1 = some (s4, [3, 2, 1]) ∧
      (∀ l ∈ ([3, 2, 1] : Clause), s3.level l.natAbs ≠ 2) ∧
      solve_iter 10 s2 = some (Step.next s5) ∧
      ∀ l ∈ ([3, 2, 1] : Clause), lit_true s5.assign l := by
  refine ⟨lc_s2, lc_s3, lc_s4, lc_s5, lc_reach_s2, pair_of_value _ _ _ (by decide!),
    by decide!, pair_of_value _ _ _ (by decide!), by decide!,
    step_of_is_next _ _ (by decide!), by decide!⟩

/-- C10 (code at the failing input): on `(-1 2), (-1 -2 -3 -4), (-2 3)` the
clause `(3 2 1)` returned by `analyze_conflict` is false under the assignment
that makes every variable false, which satisfies every clause of the store. -/
theorem learned_clause_not_implied :
    ∃ s2 s3 s4, Reachable late_conflict s2 ∧
      propagate 10 s2 = some (s3, some 1) ∧ s3.trail_lim.length = 2 ∧
      analyze_conflict 10 s3 1 = some (s4, [3, 2, 1]) ∧
      ∃ m : Nat → Bool, models_formula m s3.formula ∧ ¬ models_clause m [3, 2, 1] := by
  refine ⟨lc_s2, lc_s3, lc_s4, lc_reach_s2, pair_of_value _ _ _ (by decide!),
    by decide!, pair_of_value _ _ _ (by decide!), fun _ => false, by decide!, by decide!⟩

/-! ## Fuel: more fuel does not change a result -/

theorem propagate_loop_mono (n : Nat) :
    ∀ (s : SATSolver) (idx : Nat) (r : SATSolver × Option Nat),
      propagate_loop n s idx = some r → ∀ m, n ≤ m → propagate_loop m s idx = some r := by
  induction n with
  | zero => intro s idx r h; simp [propagate_loop] at h
  | succ n ih =>
    intro s idx r h m hm
    obtain ⟨m, rfl⟩ : ∃ k, m = k + 1 := ⟨m - 1, by omega⟩
    unfold propagate_loop at h ⊢
    by_cases hlt : idx < s.trail.length
    · simp only [hlt, if_true] at h ⊢
      rcases hw : propagate_watchers s (s.watches (-s.trail.getD idx 0)) with ⟨s1, c⟩
      rw [hw] at h
      cases c with
      | some ci => simpa using h
      | none => exact ih s1 (idx + 1) r h m (by omega)
    · simpa only [hlt, if_false] using h

theorem propagate_mono (n m : Nat) (s : SATSolver) (r : SATSolver × Option Nat)
    (h : propagate n s = some r) (hm : n ≤ m) : propagate m s = some r :=
  propagate_loop_mono n s 0 r h m hm

/-- Two runs of `propagate` that both return, return the same. -/
theorem propagate_agree (n m : Nat) (s : SATSolver) (r r1 : SATSolver × Option Nat)
    (h : propagate n s = some r) (h1 : propagate m s = some r1) : r1 = r := by
  rcases Nat.le_total n m with hle | hle
  · have := propagate_mono n m s r h hle
    rw [h1] at this; exact Option.some.inj this
  · have := propagate_mono m n s r1 h1 hle
    rw [h] at this; exact (Option.some.inj this).symm

theorem mark_loop_mono (s : SATSolver) (cl : Int) (n : Nat) :
    ∀ (a r : Analysis), mark_loop s cl n a = some r →
      ∀ m, n ≤ m → mark_loop s cl m a = some r := by
  induction n with
  | zero => intro a r h; simp [mark_loop] at h
  | succ n ih =>
    intro a r h m hm
    obtain ⟨m, rfl⟩ : ∃ k, m = k + 1 := ⟨m - 1, by omega⟩
    unfold mark_loop at h ⊢
    cases hs : a.stack with
    | nil => simpa only [hs] using h
    | cons l stk =>
      simp only [hs] at h ⊢
      by_cases hseen : a.seen l.natAbs = true
      · simp only [hseen, if_true] at h ⊢
        exact ih _ r h m (by omega)
      · simp only [hseen] at h ⊢
        exact ih _ r h m (by omega)

theorem mark_loop_agree (s : SATSolver) (cl : Int) (n m : Nat) (a r r1 : Analysis)
    (h : mark_loop s cl n a = some r) (h1 : mark_loop s cl m a = some r1) : r1 = r := by
  rcases Nat.le_total n m with hle | hle
  · have := mark_loop_mono s cl n a r h m hle
    rw [h1] at this; exact Option.some.inj this
  · have := mark_loop_mono s cl m a r1 h1 n hle
    rw [h] at this; exact (Option.some.inj this).symm

/-! ## The resolution loop of `analyze_conflict` -/

/-- Scanning a reason clause all of whose variables are seen changes nothing. -/
theorem resolve_reason_all_seen (s : SATSolver) (cl : Int) (c : Clause) (a : Analysis)
    (h : ∀ rl ∈ c, a.seen rl.natAbs = true) : resolve_reason s cl c a = a := by
  induction c with
  | nil => rfl
  | cons rl rest ih =>
    have h1 : a.seen rl.natAbs = true := h rl (List.mem_cons_self _ _)
    unfold resolve_reason
    simp only [h1, if_true]
    exact ih (fun x hx => h x (List.mem_cons_of_mem _ hx))

/-- Scanning the reason clause of the pivot right after the pivot was unmarked
marks the pivot again and restores the counter. -/
theorem resolve_reason_remark (s : SATSolver) (cl : Int) (p : Nat) (a : Analysis)
    (hp : a.seen p = true) (hlev : s.level p = cl) (hnum : 1 ≤ a.num_levels_in_clause)
    (c : Clause) (hall : ∀ rl ∈ c, a.seen rl.natAbs = true) (hmem : ∃ rl ∈ c, rl.natAbs = p) :
    resolve_reason s cl c
      { a with seen := Function.update a.seen p false
               num_levels_in_clause := a.num_levels_in_clause - 1 } = a := by
  induction c with
  | nil => obtain ⟨rl, hrl, _⟩ := hmem; cases hrl
  | cons rl rest ih =>
    unfold resolve_reason
    by_cases hv : rl.natAbs = p
    · have hrest : ∀ x ∈ rest, a.seen x.natAbs = true :=
        fun x hx => hall x (List.mem_cons_of_mem _ hx)
      subst hv
      have hseen : Function.update a.seen rl.natAbs true = a.seen := by
        rw [← hp]; exact Function.update_eq_self rl.natAbs a.seen
      have hn : a.num_levels_in_clause - 1 + 1 = a.num_levels_in_clause := by omega
      simp only [Function.update_same, hlev, if_true, Function.update_idem,
        Bool.false_eq_true, if_false, hseen, hn]
      exact resolve_reason_all_seen s cl rest a hrest
    · have h1 : a.seen rl.natAbs = true := hall rl (List.mem_cons_self _ _)
      simp only [Function.update_noteq hv, h1, if_true]
      apply ih (fun x hx => hall x (List.mem_cons_of_mem _ hx))
      obtain ⟨x, hx, hxp⟩ := hmem
      rcases List.mem_cons.mp hx with rfl | hx1
      · exact absurd hxp hv
      · exact ⟨x, hx1, hxp⟩

/-- A pass through the body of the resolution loop whose pivot has a reason
clause with all variables seen leaves the local variables as they were. -/
theorem resolve_step_fix (s : SATSolver) (cl : Int) (a : Analysis) (p : Nat)
    (hr : s.reason p ≠ -1) (hlev : s.level p = cl) (hnum : 1 ≤ a.num_levels_in_clause)
    (hall : ∀ rl ∈ s.formula.getD (s.reason p).toNat [], a.seen rl.natAbs = true)
    (hmem : ∃ rl ∈ s.formula.getD (s.reason p).toNat [], rl.natAbs = p) :
    resolve_step s cl a p = a := by
  have hp : a.seen p = true := by
    obtain ⟨rl, hrl, hrp⟩ := hmem
    rw [← hrp]; exact hall rl hrl
  unfold resolve_step
  simp only [hr, if_false]
  exact resolve_reason_remark s cl p a hp hlev hnum _ hall hmem

/-- The resolution loop never ends from local variables that a pass leaves as
they were. -/
theorem resolve_loop_stuck (s : SATSolver) (cl : Int) (a : Analysis)
    (hnum : 1 < a.num_levels_in_clause) (hpiv : find_pivot s cl a.seen ≠ 0)
    (hfix : resolve_step s cl a (find_pivot s cl a.seen) = a) :
    ∀ fuel, resolve_loop s cl fuel a = none := by
  intro fuel
  induction fuel with
  | zero => rfl
  | succ n ih =>
    unfold resolve_loop
    simp only [gt_iff_lt, hnum, if_true, hpiv, if_false, hfix]
    exact ih

/-- When the marking loop ends in local variables from which the resolution
loop is stuck, `analyze_conflict` does not return, whatever the fuel. -/
theorem analyze_conflict_stuck (s : SATSolver) (ci k : Nat) (a : Analysis)
    (hmark : mark_loop s (s.trail_lim.length : Int) k (analysis_init s ci) = some a)
    (hstuck : ∀ fuel, resolve_loop s (s.trail_lim.length : Int) fuel a = none) :
    ∀ fuel, analyze_conflict fuel s ci = none := by
  intro fuel
  have hc : analyze_clause fuel s ci = none := by
    cases hm : mark_loop s (s.trail_lim.length : Int) fuel (analysis_init s ci) with
    | none => simp only [analyze_clause, hm]
    | some a1 =>
      have : a1 = a := mark_loop_agree s _ k fuel _ a a1 hmark hm
      subst this
      simp only [analyze_clause, hm, hstuck fuel]
  simp only [analyze_conflict, hc]

/-- A pass whose `propagate` reports a conflict above level 0 and whose
`analyze_conflict` does not return, does not return. -/
theorem solve_iter_stuck (s s1 : SATSolver) (k ci : Nat)
    (hp : propagate k s = some (s1, some ci)) (hlim : s1.trail_lim.isEmpty = false)
    (hdiv : ∀ fuel, analyze_conflict fuel s1 ci = none) :
    ∀ fuel, solve_iter fuel s = none := by
  intro fuel
  unfold solve_iter
  cases h : propagate fuel s with
  | none => rfl
  | some r =>
    have : r = (s1, some ci) := propagate_agree k fuel s _ r hp h
    subst this
    simp only [hlim, hdiv fuel, Bool.false_eq_true, if_false]

/-- A pass that takes a decision with some fuel takes the same decision with
any fuel that lets `propagate` return. -/
theorem solve_iter_decision (s s1 : SATSolver) (k : Nat)
    (hp : propagate k s = some (s1, none)) :
    ∀ fuel, solve_iter fuel s = none ∨ solve_iter fuel s = solve_iter k s := by
  intro fuel
  cases h : propagate fuel s with
  | none => left; unfold solve_iter; rw [h]
  | some r =>
    have : r = (s1, none) := propagate_agree k fuel s _ r hp h
    subst this
    right; unfold solve_iter; rw [h, hp]

/-- The loop of `solve` does not return from a state whose pass does not
return. -/
theorem solve_loop_stuck (s : SATSolver) (h : ∀ fuel, solve_iter fuel s = none) :
    ∀ iters fuel, solve_loop iters fuel s = none := by
  intro iters fuel
  cases iters with
  | zero => rfl
  | succ n => unfold solve_loop; rw [h fuel]

/-- The loop of `solve` does not return from a state whose pass, when it
returns, hands over to a state from which the loop does not return. -/
theorem solve_loop_stuck_step (s t : SATSolver)
    (h : ∀ fuel, solve_iter fuel s = none ∨ solve_iter fuel s = some (Step.next t))
    (ht : ∀ iters fuel, solve_loop iters fuel t = none) :
    ∀ iters fuel, solve_loop iters fuel s = none := by
  intro iters fuel
  cases iters with
  | zero => rfl
  | succ n =>
    unfold solve_loop
    rcases h fuel with h1 | h1
    · rw [h1]
    · rw [h1]; exact ht n fuel

theorem sc_first_pass : ∀ fuel, solve_iter fuel sc_s0 = none ∨
    solve_iter fuel sc_s0 = some (Step.next sc_s1) := by
  intro fuel
  have hp : propagate 10 sc_s0 = some (state_of (propagate 10 sc_s0) sc_s0, none) :=
    pair_of_value _ _ _ (by decide!)
  have hk : solve_iter 10 sc_s0 = some (Step.next sc_s1) :=
    step_of_is_next _ _ (by decide!)
  rcases solve_iter_decision sc_s0 _ 10 hp fuel with h | h
  · exact Or.inl h
  · exact Or.inr (h.trans hk)

theorem sc_analysis_stuck : ∀ fuel, analyze_conflict fuel sc_s2 3 = none := by
  have hmark : mark_loop sc_s2 (sc_s2.trail_lim.length : Int) 10 (analysis_init sc_s2 3)
      = some sc_a1 := by
    have h1 : (sc_s2.trail_lim.length : Int) = 1 := by decide!
    rw [h1]
    have h2 : (mark_loop sc_s2 1 10 (analysis_init sc_s2 3)).isSome = true := by decide!
    unfold sc_a1
    cases h : mark_loop sc_s2 1 10 (analysis_init sc_s2 3) with
    | none => rw [h] at h2; cases h2
    | some a => rfl
  apply analyze_conflict_stuck sc_s2 3 10 sc_a1 hmark
  have hpiv : find_pivot sc_s2 (sc_s2.trail_lim.length : Int) sc_a1.seen = 2 := by decide!
  apply resolve_loop_stuck sc_s2 _ sc_a1 (by decide!) (by rw [hpiv]; decide)
  rw [hpiv]
  exact resolve_step_fix sc_s2 _ sc_a1 2 (by decide!) (by decide!) (by decide!)
    (by decide!) (by decide!)

/-- C3 (code at the failing input): on scenario c, `(1 2), (-1 2), (1 -2),
(-1 -2)`, `solve` returns no verdict, whatever the fuel: after the decision of
variable 1 `propagate` reports clause 3 as conflict and the resolution loop of
`analyze_conflict` repeats the same pass for ever. -/
theorem solve_scenario_c_never_returns : ∀ fuel, solve fuel scenario_c = none := by
  intro fuel
  have hp : propagate 10 sc_s1 = some (sc_s2, some 3) := pair_of_value _ _ _ (by decide!)
  have h1 : ∀ iters fuel, solve_loop iters fuel sc_s1 = none :=
    solve_loop_stuck sc_s1 (solve_iter_stuck sc_s1 sc_s2 10 3 hp (by decide!) sc_analysis_stuck)
  exact solve_loop_stuck_step sc_s0 sc_s1 sc_first_pass h1 fuel fuel

/-! ## What the operations leave unchanged -/

theorem Grows.refl (s : SATSolver) : Grows s s :=
  ⟨rfl, rfl, rfl, rfl, rfl, ⟨[], by simp⟩, fun _ _ => rfl, fun h => h⟩

theorem Grows.trans {s t u : SATSolver} (h1 : Grows s t) (h2 : Grows t u) : Grows s u := by
  refine ⟨h2.formula.trans h1.formula, h2.num_vars.trans h1.num_vars,
    h2.watches.trans h1.watches, h2.trail_lim.trans h1.trail_lim,
    h2.activity.trans h1.activity, ?_, ?_, fun h => h2.range (h1.range h)⟩
  · obtain ⟨e1, he1⟩ := h1.trail
    obtain ⟨e2, he2⟩ := h2.trail
    exact ⟨e1 ++ e2, by rw [he2, he1, List.append_assoc]⟩
  · intro v hv
    have h := h1.keep v hv
    rw [h2.keep v (by rw [h]; exact hv), h]

theorem assign_lit_value (lit : Int) :
    (if lit > 0 then (1 : Int) else -1) ≠ 0 := by
  split <;> decide

theorem assign_lit_grows (s : SATSolver) (lit : Int) (ci : Int)
    (h : s.assign lit.natAbs = 0) : Grows s (assign_lit s lit ci) := by
  refine ⟨rfl, rfl, rfl, rfl, rfl, ⟨[lit], rfl⟩, ?_, ?_⟩
  · intro v hv
    have : v ≠ lit.natAbs := fun e => hv (e ▸ h)
    simp [assign_lit, Function.update_noteq this]
  · intro hr v
    by_cases e : v = lit.natAbs
    · subst e
      simp only [assign_lit, Function.update_same]
      split <;> simp
    · simp only [assign_lit, Function.update_noteq e]
      exact hr v

theorem propagate_watchers_grows (ws : List Nat) :
    ∀ s : SATSolver, Grows s (propagate_watchers s ws).1 := by
  induction ws with
  | nil => intro s; exact Grows.refl s
  | cons ci rest ih =>
    intro s
    unfold propagate_watchers
    simp only
    split
    · exact ih s
    · split
      · exact Grows.refl s
      · split
        · split
          · rename_i h0
            exact (assign_lit_grows s _ _ h0).trans (ih _)
          · exact ih s
        · exact ih s

theorem propagate_loop_grows (n : Nat) :
    ∀ (s : SATSolver) (idx : Nat) (r : SATSolver × Option Nat),
      propagate_loop n s idx = some r → Grows s r.1 := by
  induction n with
  | zero => intro s idx r h; simp [propagate_loop] at h
  | succ n ih =>
    intro s idx r h
    unfold propagate_loop at h
    by_cases hlt : idx < s.trail.length
    · simp only [hlt, if_true] at h
      have hg := propagate_watchers_grows (s.watches (-s.trail.getD idx 0)) s
      rcases hw : propagate_watchers s (s.watches (-s.trail.getD idx 0)) with ⟨s1, c⟩
      rw [hw] at h hg
      cases c with
      | some ci =>
        simp only [Option.some.injEq] at h
        subst h; exact hg
      | none => exact hg.trans (ih s1 (idx + 1) r h)
    · simp only [hlt, if_false, Option.some.injEq] at h
      subst h; exact Grows.refl s

theorem propagate_grows (n : Nat) (s : SATSolver) (r : SATSolver × Option Nat)
    (h : propagate n s = some r) : Grows s r.1 :=
  propagate_loop_grows n s 0 r h

/-! ## The invariant holds at every test of the loop -/

theorem watch_literal_mem (w : Int → List Nat) (lit : Int) (ci : Nat) (l : Int) (k : Nat)
    (h : k ∈ watch_literal w lit ci l) : k ∈ w l ∨ k = ci := by
  unfold watch_literal at h
  split at h
  · rcases List.mem_append.mp h with h1 | h1
    · exact Or.inl h1
    · exact Or.inr (List.mem_singleton.mp h1)
  · exact Or.inl h

theorem init_watches_from_valid (rest : CNFFormula) :
    ∀ (w : Int → List Nat) (i : Nat), (∀ l k, k ∈ w l → k < i + rest.length) →
      ∀ l k, k ∈ init_watches_from w i rest l → k < i + rest.length := by
  induction rest with
  | nil => intro w i hw l k hk; exact hw l k (by simpa [init_watches_from] using hk)
  | cons cl rest ih =>
    intro w i hw l k hk
    have hlen : i + (cl :: rest).length = (i + 1) + rest.length := by
      simp only [List.length_cons]; omega
    rw [hlen] at hw ⊢
    match cl, hk with
    | [], hk => exact ih w (i + 1) hw l k (by simpa [init_watches_from] using hk)
    | [a], hk =>
      refine ih _ (i + 1) ?_ l k (by simpa [init_watches_from] using hk)
      intro l1 k1 hk1
      rcases watch_literal_mem _ _ _ _ _ hk1 with h1 | h1
      · rcases watch_literal_mem _ _ _ _ _ h1 with h2 | h2
        · exact hw l1 k1 h2
        · omega
      · omega
    | a :: b :: tl, hk =>
      refine ih _ (i + 1) ?_ l k (by simpa [init_watches_from] using hk)
      intro l1 k1 hk1
      rcases watch_literal_mem _ _ _ _ _ hk1 with h1 | h1
      · rcases watch_literal_mem _ _ _ _ _ h1 with h2 | h2
        · exact hw l1 k1 h2
        · omega
      · omega

theorem init_watches_valid (f : CNFFormula) (l : Int) (k : Nat)
    (h : k ∈ init_watches f l) : k < f.length := by
  have := init_watches_from_valid f (fun _ => []) 0 (by intro l k hk; cases hk) l k h
  omega

theorem solve_units_grows (rest : CNFFormula) :
    ∀ (s : SATSolver) (ci : Nat), Grows s (solve_units s ci rest) := by
  induction rest with
  | nil => intro s ci; exact Grows.refl s
  | cons cl rest ih =>
    intro s ci
    match cl with
    | [] => simpa [solve_units] using ih s (ci + 1)
    | [lit] =>
      unfold solve_units
      split
      · rename_i h0
        exact (assign_lit_grows s lit ci h0).trans (ih _ _)
      · exact ih s (ci + 1)
    | a :: b :: tl => simpa [solve_units] using ih s (ci + 1)

theorem solve_start_grows (f : CNFFormula) : Grows (mk_solver f) (solve_start f) :=
  solve_units_grows f (mk_solver f) 0

theorem solver_inv_start (f : CNFFormula) : SolverInv f (solve_start f) := by
  have hg := solve_start_grows f
  refine ⟨?_, hg.range (fun v => Or.inl rfl), hg.num_vars, ⟨[], by rw [hg.formula]; simp [mk_solver]⟩⟩
  intro lit ci hci
  rw [hg.watches] at hci
  rw [hg.formula]
  exact init_watches_valid f lit ci hci

theorem solver_inv_grows {f : CNFFormula} {s t : SATSolver} (h : SolverInv f s)
    (hg : Grows s t) : SolverInv f t := by
  refine ⟨?_, hg.range h.range, hg.num_vars.trans h.num_vars, ?_⟩
  · intro lit ci hci
    rw [hg.watches] at hci
    rw [hg.formula]
    exact h.watches_valid lit ci hci
  · rw [hg.formula]; exact h.store

theorem bump_fold_fields (learned : List Int) :
    ∀ s : SATSolver,
      let t := learned.foldl (fun t l => bump_activity t l.natAbs) s
      t.formula = s.formula ∧ t.num_vars = s.num_vars ∧ t.assign = s.assign ∧
        t.level = s.level ∧ t.reason = s.reason ∧ t.trail = s.trail ∧
        t.trail_lim = s.trail_lim ∧ t.watches = s.watches := by
  induction learned with
  | nil => intro s; simp
  | cons l rest ih =>
    intro s
    have := ih (bump_activity s l.natAbs)
    simpa [bump_activity] using this

theorem analyze_conflict_fields (fuel : Nat) (s t : SATSolver) (ci : Nat) (learned : List Int)
    (h : analyze_conflict fuel s ci = some (t, learned)) :
    analyze_clause fuel s ci = some learned ∧
      t.formula = s.formula ∧ t.num_vars = s.num_vars ∧ t.assign = s.assign ∧
        t.level = s.level ∧ t.reason = s.reason ∧ t.trail = s.trail ∧
        t.trail_lim = s.trail_lim ∧ t.watches = s.watches := by
  unfold analyze_conflict at h
  cases hc : analyze_clause fuel s ci with
  | none => rw [hc] at h; cases h
  | some l1 =>
    rw [hc] at h
    simp only [Option.some.injEq, Prod.mk.injEq] at h
    obtain ⟨h1, h2⟩ := h
    subst h2
    refine ⟨rfl, ?_⟩
    rw [← h1]
    exact bump_fold_fields l1 s

theorem backjump_pop_range (target : Int) (rev : List Int) :
    ∀ (asg lev rea : Nat → Int), AssignRange asg →
      AssignRange (backjump_pop target rev asg lev rea).1 := by
  induction rev with
  | nil => intro asg lev rea h; simpa [backjump_pop] using h
  | cons lit rest ih =>
    intro asg lev rea h
    unfold backjump_pop
    split
    · exact h
    · apply ih
      intro v
      by_cases e : v = lit.natAbs
      · subst e; left; simp
      · simp only [Function.update_noteq e]; exact h v

theorem add_learned_watches_valid (s : SATSolver) (cl : List Int)
    (h : ∀ lit ci, ci ∈ s.watches lit → ci < s.formula.length) :
    ∀ lit ci, ci ∈ (add_learned_clause s cl).watches lit →
      ci < (add_learned_clause s cl).formula.length := by
  intro lit ci hci
  have hlen : (add_learned_clause s cl).formula.length = s.formula.length + 1 := by
    simp [add_learned_clause]
  rw [hlen]
  unfold add_learned_clause at hci
  match cl, hci with
  | [], hci => exact Nat.lt_succ_of_lt (h lit ci hci)
  | [a], hci =>
    rcases watch_literal_mem _ _ _ _ _ hci with h1 | h1
    · rcases watch_literal_mem _ _ _ _ _ h1 with h2 | h2
      · exact Nat.lt_succ_of_lt (h lit ci h2)
      · omega
    · omega
  | a :: b :: tl, hci =>
    rcases watch_literal_mem _ _ _ _ _ hci with h1 | h1
    · rcases watch_literal_mem _ _ _ _ _ h1 with h2 | h2
      · exact Nat.lt_succ_of_lt (h lit ci h2)
      · omega
    · omega

/-- One pass of the loop body keeps the invariant. -/
theorem solver_inv_step {f : CNFFormula} {s t : SATSolver} (fuel : Nat) (h : SolverInv f s)
    (hstep : solve_iter fuel s = some (Step.next t)) : SolverInv f t := by
  unfold solve_iter at hstep
  cases hp : propagate fuel s with
  | none => rw [hp] at hstep; cases hstep
  | some r =>
    obtain ⟨s1, c⟩ := r
    have h1 : SolverInv f s1 := solver_inv_grows h (propagate_grows fuel s _ hp)
    rw [hp] at hstep
    cases c with
    | some ci =>
      simp only at hstep
      split at hstep
      · cases hstep
      · cases ha : analyze_conflict fuel s1 ci with
        | none => rw [ha] at hstep; cases hstep
        | some r2 =>
          obtain ⟨s2, learned⟩ := r2
          rw [ha] at hstep
          simp only [Option.some.injEq, Step.next.injEq] at hstep
          obtain ⟨_, hf, hn, hasg, _, _, _, _, hw⟩ := analyze_conflict_fields fuel s1 s2 ci learned ha
          subst hstep
          refine ⟨?_, ?_, ?_, ?_⟩
          · have := add_learned_watches_valid s2 learned (by
              intro lit k hk; rw [hw] at hk; rw [hf]; exact h1.watches_valid lit k hk)
            simpa [backjump] using this
          · simp only [backjump]
            apply backjump_pop_range
            show AssignRange s2.assign
            rw [hasg]; exact h1.range
          · simp only [backjump, add_learned_clause]
            rw [hn]; exact h1.num_vars
          · obtain ⟨l0, hl0⟩ := h1.store
            exact ⟨l0 ++ [learned], by simp [backjump, add_learned_clause, hf, hl0]⟩
    | none =>
      simp only at hstep
      split at hstep
      · cases hstep
      · simp only [Option.some.injEq, Step.next.injEq] at hstep
        subst hstep
        rename_i hv
        refine ⟨?_, ?_, h1.num_vars, h1.store⟩
        · exact h1.watches_valid
        · intro v
          by_cases e : v = ((pick_branch_var s1 : Nat) : Int).natAbs
          · right; left
            simp only [assign_lit, e, Function.update_same]
            have : (0 : Int) < (pick_branch_var s1 : Int) := by
              have := Nat.pos_of_ne_zero hv
              exact_mod_cast this
            simp [this]
          · simp only [assign_lit, Function.update_noteq e]
            exact h1.range v

theorem solver_inv_reachable {f : CNFFormula} {s : SATSolver} (h : Reachable f s) :
    SolverInv f s := by
  induction h with
  | start => exact solver_inv_start f
  | step fuel s t _ hstep ih => exact solver_inv_step fuel ih hstep

/-! ## From a finished run to the pass that returned -/

theorem solve_loop_reaches (f : CNFFormula) (fuel : Nat) (iters : Nat) :
    ∀ (s : SATSolver) (b : Bool) (t : SATSolver), Reachable f s →
      solve_loop iters fuel s = some (b, t) →
      ∃ u, Reachable f u ∧ solve_iter fuel u = some (Step.done b t) := by
  induction iters with
  | zero => intro s b t _ h; simp [solve_loop] at h
  | succ n ih =>
    intro s b t hs h
    unfold solve_loop at h
    cases hi : solve_iter fuel s with
    | none => rw [hi] at h; cases h
    | some st =>
      rw [hi] at h
      cases st with
      | done v s1 =>
        simp only [Option.some.injEq, Prod.mk.injEq] at h
        obtain ⟨rfl, rfl⟩ := h
        exact ⟨s, hs, hi⟩
      | next s1 => exact ih s1 b t (Reachable.step fuel s s1 hs hi) h

theorem solve_reaches (f : CNFFormula) (fuel : Nat) (b : Bool) (t : SATSolver)
    (h : solve fuel f = some (b, t)) :
    ∃ u, Reachable f u ∧ solve_iter fuel u = some (Step.done b t) :=
  solve_loop_reaches f fuel fuel _ b t Reachable.start h

/-- A pass returns `true` only when `propagate` reports no conflict and
`pick_branch_var` returns `0`. -/
theorem solve_iter_done_true (fuel : Nat) (s t : SATSolver)
    (h : solve_iter fuel s = some (Step.done true t)) :
    propagate fuel s = some (t, none) ∧ pick_branch_var t = 0 := by
  unfold solve_iter at h
  cases hp : propagate fuel s with
  | none => rw [hp] at h; cases h
  | some r =>
    obtain ⟨s1, c⟩ := r
    rw [hp] at h
    cases c with
    | some ci =>
      simp only at h
      split at h
      · simp at h
      · cases ha : analyze_conflict fuel s1 ci with
        | none => rw [ha] at h; cases h
        | some r2 => rw [ha] at h; simp at h
    | none =>
      simp only at h
      split at h
      · rename_i hv
        simp only [Option.some.injEq, Step.done.injEq, true_and] at h
        subst h
        exact ⟨rfl, hv⟩
      · simp at h

/-- A pass returns `false` only when `propagate` reports a conflict while
`trail_lim` is empty. -/
theorem solve_iter_done_false (fuel : Nat) (s t : SATSolver)
    (h : solve_iter fuel s = some (Step.done false t)) :
    ∃ ci, propagate fuel s = some (t, some ci) ∧ t.trail_lim = [] := by
  unfold solve_iter at h
  cases hp : propagate fuel s with
  | none => rw [hp] at h; cases h
  | some r =>
    obtain ⟨s1, c⟩ := r
    rw [hp] at h
    cases c with
    | some ci =>
      simp only at h
      split at h
      · rename_i he
        simp only [Option.some.injEq, Step.done.injEq, true_and] at h
        subst h
        exact ⟨ci, rfl, List.isEmpty_iff.mp he⟩
      · cases ha : analyze_conflict fuel s1 ci with
        | none => rw [ha] at h; cases h
        | some r2 => rw [ha] at h; simp at h
    | none =>
      simp only at h
      split at h
      · simp at h
      · simp at h

theorem pick_branch_var_zero (s : SATSolver) (h : pick_branch_var s = 0) :
    ∀ v, 1 ≤ v → v ≤ s.num_vars → s.assign v ≠ 0 := by
  intro v hv1 hv2
  unfold pick_branch_var at h
  simp only at h
  split at h
  · rename_i hb; exact absurd h hb
  · have hmem : v ∈ (List.range s.num_vars).map (· + 1) :=
      List.mem_map.mpr ⟨v - 1, List.mem_range.mpr (by omega), by omega⟩
    cases hf : List.find? (fun v => decide (s.assign v = 0))
        ((List.range s.num_vars).map (· + 1)) with
    | none =>
      have := List.find?_eq_none.mp hf v hmem
      simpa using this
    | some x =>
      rw [hf] at h
      simp only [Option.getD_some] at h
      have hx := List.mem_of_find?_eq_some hf
      obtain ⟨y, _, hy⟩ := List.mem_map.mp hx
      omega

theorem get_assignment_getD (s : SATSolver) (v : Nat) (hv : v ≤ s.num_vars) :
    (get_assignment s).getD v 0 = s.assign v := by
  unfold get_assignment
  rw [List.getD_eq_getElem _ _ (by simp; omega)]
  simp

/-! ## `num_vars` is the largest absolute value of a literal -/

theorem fold_max_clause (cl : Clause) :
    ∀ n : Nat,
      let r := cl.foldl (fun m lit => if lit.natAbs > m then lit.natAbs else m) n
      n ≤ r ∧ (∀ l ∈ cl, l.natAbs ≤ r) ∧ (r = n ∨ ∃ l ∈ cl, l.natAbs = r) := by
  induction cl with
  | nil => intro n; simp
  | cons a rest ih =>
    intro n
    simp only [List.foldl_cons]
    obtain ⟨h1, h2, h3⟩ := ih (if a.natAbs > n then a.natAbs else n)
    have hle : n ≤ (if a.natAbs > n then a.natAbs else n) := by split <;> omega
    have hale : a.natAbs ≤ (if a.natAbs > n then a.natAbs else n) := by split <;> omega
    refine ⟨le_trans hle h1, ?_, ?_⟩
    · intro l hl
      rcases List.mem_cons.mp hl with rfl | hl
      · exact le_trans hale h1
      · exact h2 l hl
    · rcases h3 with h3 | ⟨l, hl, hr⟩
      · by_cases hgt : a.natAbs > n
        · right
          refine ⟨a, List.mem_cons_self _ _, ?_⟩
          rw [h3]; simp [hgt]
        · left; rw [h3]; simp [hgt]
      · exact Or.inr ⟨l, List.mem_cons_of_mem _ hl, hr⟩

theorem fold_max_formula (f : CNFFormula) :
    ∀ n : Nat,
      let r := f.foldl
        (fun n cl => cl.foldl (fun m lit => if lit.natAbs > m then lit.natAbs else m) n) n
      n ≤ r ∧ (∀ cl ∈ f, ∀ l ∈ cl, l.natAbs ≤ r) ∧
        (r = n ∨ ∃ cl ∈ f, ∃ l ∈ cl, l.natAbs = r) := by
  induction f with
  | nil => intro n; simp
  | cons c rest ih =>
    intro n
    simp only [List.foldl_cons]
    obtain ⟨c1, c2, c3⟩ := fold_max_clause c n
    obtain ⟨h1, h2, h3⟩ := ih (c.foldl (fun m lit => if lit.natAbs > m then lit.natAbs else m) n)
    refine ⟨le_trans c1 h1, ?_, ?_⟩
    · intro cl hcl l hl
      rcases List.mem_cons.mp hcl with rfl | hcl
      · exact le_trans (c2 l hl) h1
      · exact h2 cl hcl l hl
    · rcases h3 with h3 | ⟨cl, hcl, l, hl, hr⟩
      · rcases c3 with c3 | ⟨l, hl, hr⟩
        · left; rw [h3, c3]
        · right; exact ⟨c, List.mem_cons_self _ _, l, hl, by rw [h3, hr]⟩
      · exact Or.inr ⟨cl, List.mem_cons_of_mem _ hcl, l, hl, hr⟩

/-- The maximum absolute literal value bounds every literal of the input. -/
theorem max_abs_literal_bound (f : CNFFormula) : LitsBounded f (max_abs_literal f) :=
  (fold_max_formula f 0).2.1

/-- The maximum absolute literal value is `0` or the absolute value of a literal
of the input. -/
theorem max_abs_literal_attained (f : CNFFormula) :
    max_abs_literal f = 0 ∨ ∃ cl ∈ f, ∃ l ∈ cl, l.natAbs = max_abs_literal f :=
  (fold_max_formula f 0).2.2

/-- On a literal other than `-2147483648`, `std::abs` is the absolute value. -/
theorem abs32_exact (l : Int) (h : l.natAbs ≤ 2147483646) : abs32 l = (l.natAbs : Int) := by
  unfold abs32
  have : l ≠ -2147483648 := by
    intro e
    rw [e] at h
    revert h
    decide
  rw [if_neg this]

theorem count_vars_clause (cl : Clause) :
    (∀ l ∈ cl, l.natAbs ≤ 2147483646) → ∀ n : Nat,
      cl.foldl (fun (m : Nat) (lit : Int) => if abs32 lit > (m : Int) then (abs32 lit).toNat else m) n =
      cl.foldl (fun m lit => if lit.natAbs > m then lit.natAbs else m) n := by
  induction cl with
  | nil => intro _ n; rfl
  | cons a rest ih =>
    intro h n
    have hstep : (if abs32 a > (n : Int) then (abs32 a).toNat else n) =
        (if a.natAbs > n then a.natAbs else n) := by
      rw [abs32_exact a (h a (List.mem_cons_self _ _))]
      by_cases hgt : a.natAbs > n
      · have : ((a.natAbs : Nat) : Int) > (n : Int) := by exact_mod_cast hgt
        rw [if_pos hgt, if_pos this, Int.toNat_ofNat]
      · have : ¬ ((a.natAbs : Nat) : Int) > (n : Int) := by
          intro h1
          exact hgt (by exact_mod_cast h1)
        rw [if_neg hgt, if_neg this]
    show rest.foldl _ (if abs32 a > (n : Int) then (abs32 a).toNat else n) =
      rest.foldl _ (if a.natAbs > n then a.natAbs else n)
    rw [hstep]
    exact ih (fun l hl => h l (List.mem_cons_of_mem _ hl)) _

theorem count_vars_formula (f : CNFFormula) :
    Int32Literals f → ∀ n : Nat,
      f.foldl (fun n cl => cl.foldl
        (fun (m : Nat) (lit : Int) => if abs32 lit > (m : Int) then (abs32 lit).toNat else m) n) n =
      f.foldl (fun n cl => cl.foldl
        (fun m lit => if lit.natAbs > m then lit.natAbs else m) n) n := by
  induction f with
  | nil => intro _ n; rfl
  | cons c rest ih =>
    intro h n
    show rest.foldl _ (c.foldl
        (fun (m : Nat) (lit : Int) => if abs32 lit > (m : Int) then (abs32 lit).toNat else m) n) =
      rest.foldl _ (c.foldl (fun m lit => if lit.natAbs > m then lit.natAbs else m) n)
    rw [count_vars_clause c (h c (List.mem_cons_self _ _))]
    exact ih (fun cl hcl => h cl (List.mem_cons_of_mem _ hcl)) _

/-- When `std::abs` is exact on every literal, the constructor's `num_vars` is
the maximum absolute literal value. -/
theorem count_vars_exact (f : CNFFormula) (h : Int32Literals f) :
    count_vars f = max_abs_literal f :=
  count_vars_formula f h 0

/-- The constructor's `num_vars` bounds every literal of the input. -/
theorem count_vars_bound (f : CNFFormula) (h : Int32Literals f) :
    LitsBounded f (count_vars f) := by
  rw [count_vars_exact f h]; exact max_abs_literal_bound f

/-- With literals of absolute value at most `2147483646`, `num_vars + 1` fits an
`int` and the constructor yields its object. -/
theorem construct_some (f : CNFFormula) (h : Int32Literals f) :
    vector_size f = some (count_vars f + 1) ∧ construct f = some (mk_solver f) := by
  have hle : count_vars f ≤ 2147483646 := by
    rw [count_vars_exact f h]
    rcases max_abs_literal_attained f with h0 | ⟨cl, hcl, l, hl, hr⟩
    · rw [h0]; decide
    · rw [← hr]; exact h cl hcl l hl
  have hv : vector_size f = some (count_vars f + 1) := by
    unfold vector_size
    rw [if_pos (by omega)]
  refine ⟨hv, ?_⟩
  unfold construct
  rw [hv]

/-- When the constructor yields its object, `SATSolver(f).solve()` is `solve()`
on that object. -/
theorem construct_solve_eq (fuel : Nat) (f : CNFFormula) (h : Int32Literals f) :
    construct_solve fuel f = solve fuel f := by
  unfold construct_solve
  rw [(construct_some f h).2]
  rfl

/-! ## C4 -/

/-- C4 (amended claim): on an input whose literals have an absolute value of at
most `2147483646`, when `SATSolver(f).solve()` returns `true`, the vector of
`get_assignment()` has `n + 1` entries and holds `1` or `-1` at every index `v`
in `1 .. n`, where `n` is the maximum absolute literal value of the input (`0`
if there is none), which is what the constructor has put in `num_vars`. -/
theorem solve_sat_total_model (f : CNFFormula) (hb : Int32Literals f) (fuel : Nat)
    (s : SATSolver) (h : construct_solve fuel f = some (true, s)) :
    (s.num_vars = max_abs_literal f ∧ LitsBounded f (max_abs_literal f) ∧
      (max_abs_literal f = 0 ∨ ∃ cl ∈ f, ∃ l ∈ cl, l.natAbs = max_abs_literal f)) ∧
    (get_assignment s).length = max_abs_literal f + 1 ∧
    ∀ v, 1 ≤ v → v ≤ max_abs_literal f →
      (get_assignment s).getD v 0 = 1 ∨ (get_assignment s).getD v 0 = -1 := by
  rw [construct_solve_eq fuel f hb] at h
  obtain ⟨u, hu, hdone⟩ := solve_reaches f fuel true s h
  obtain ⟨hp, hpick⟩ := solve_iter_done_true fuel u s hdone
  have hinv : SolverInv f s := solver_inv_grows (solver_inv_reachable hu) (propagate_grows fuel u _ hp)
  have hn : s.num_vars = max_abs_literal f := by
    rw [hinv.num_vars]; exact count_vars_exact f hb
  refine ⟨⟨hn, max_abs_literal_bound f, max_abs_literal_attained f⟩, ?_, ?_⟩
  · unfold get_assignment
    rw [List.length_map, List.length_range, hn]
  · intro v hv1 hv2
    rw [← hn] at hv2
    rw [get_assignment_getD s v hv2]
    have hne := pick_branch_var_zero s hpick v hv1 hv2
    rcases hinv.range v with h0 | h1 | h1
    · exact absurd h0 hne
    · exact Or.inl h1
    · exact Or.inr h1

/-- Witness for C4: scenario e of the specification, `(1 2), (-1 3), (-2 -3)`. -/
theorem solve_sat_total_model_witness :
    Int32Literals scenario_e ∧
    construct_solve 10 scenario_e =
      some (true, final_state (construct_solve 10 scenario_e) (mk_solver [])) ∧
    max_abs_literal scenario_e = 3 ∧
    get_assignment (final_state (construct_solve 10 scenario_e) (mk_solver [])) = [0, 1, -1, 1] ∧
    ∀ v, 1 ≤ v → v ≤ max_abs_literal scenario_e →
      (get_assignment (final_state (construct_solve 10 scenario_e) (mk_solver []))).getD v 0 = 1 ∨
      (get_assignment (final_state (construct_solve 10 scenario_e) (mk_solver []))).getD v 0 = -1 :=
  ⟨by decide, run_of_verdict _ _ _ (by decide!), by decide!, by decide!,
    (solve_sat_total_model scenario_e (by decide) 10 _
      (run_of_verdict _ _ _ (by decide!))).2.2⟩

/-- C4 (counterexample to the claim as stated): on the input
`(-2147483648 1)` the constructor sees `std::abs(-2147483648) = -2147483648`,
so `num_vars` is `1` and the vectors have two entries.  `solve()` decides
variable 1, finds nothing to propagate and returns `true`; the vector of
`get_assignment()` is `0, 1`.  The maximum absolute literal value of the input
is `2147483648`, and the index `2` is not in the vector. -/
theorem solve_sat_misses_variable :
    max_abs_literal int_min_clause = 2147483648 ∧
    vector_size int_min_clause = some 2 ∧
    construct_solve 10 int_min_clause =
      some (true, final_state (construct_solve 10 int_min_clause) (mk_solver [])) ∧
    (final_state (construct_solve 10 int_min_clause) (mk_solver [])).num_vars = 1 ∧
    get_assignment (final_state (construct_solve 10 int_min_clause) (mk_solver [])) = [0, 1] ∧
    ¬ (∀ v, 1 ≤ v → v ≤ max_abs_literal int_min_clause →
      (get_assignment (final_state (construct_solve 10 int_min_clause) (mk_solver []))).getD v 0 = 1 ∨
      (get_assignment (final_state (construct_solve 10 int_min_clause) (mk_solver []))).getD v 0
        = -1) := by
  refine ⟨by decide!, by decide!, run_of_verdict _ _ _ (by decide!), by decide!, by decide!, ?_⟩
  intro h
  have h2 := h 2 (by decide) (by decide!)
  revert h2
  decide!

/-! ## Learned clauses contain no literal `0` -/

theorem getD_lits_nonzero (f : CNFFormula) (h : NonzeroLits f) (k : Nat) :
    ∀ l ∈ f.getD k [], l ≠ 0 := by
  intro l hl
  by_cases hk : k < f.length
  · rw [List.getD_eq_getElem _ _ hk] at hl
    exact h _ (List.getElem_mem hk) l hl
  · rw [List.getD_eq_default _ _ (by omega)] at hl
    cases hl

theorem push_reason_mem (v : Nat) (seen : Nat → Bool) (cl : Clause) :
    ∀ (stk : List Int) (x : Int),
      x ∈ cl.foldl (fun st rl => if rl.natAbs = v then st
        else if !seen rl.natAbs then rl :: st else st) stk → x ∈ stk ∨ x ∈ cl := by
  induction cl with
  | nil => intro stk x hx; exact Or.inl hx
  | cons rl rest ih =>
    intro stk x hx
    simp only [List.foldl_cons] at hx
    rcases ih _ x hx with h | h
    · split at h
      · exact Or.inl h
      · split at h
        · rcases List.mem_cons.mp h with rfl | h
          · exact Or.inr (List.mem_cons_self _ _)
          · exact Or.inl h
        · exact Or.inl h
    · exact Or.inr (List.mem_cons_of_mem _ h)

theorem mark_loop_nonzero (s : SATSolver) (cl : Int) (hf : NonzeroLits s.formula) (n : Nat) :
    ∀ (a r : Analysis), mark_loop s cl n a = some r →
      (∀ l ∈ a.stack, l ≠ 0) → (∀ l ∈ a.learned, l ≠ 0) → ∀ l ∈ r.learned, l ≠ 0 := by
  induction n with
  | zero => intro a r h; simp [mark_loop] at h
  | succ n ih =>
    intro a r h hst hle
    unfold mark_loop at h
    cases hs : a.stack with
    | nil =>
      simp only [hs, Option.some.injEq] at h
      subst h; exact hle
    | cons l stk =>
      rw [hs] at hst
      have hl0 : l ≠ 0 := hst l (List.mem_cons_self _ _)
      have hstk : ∀ x ∈ stk, x ≠ 0 := fun x hx => hst x (List.mem_cons_of_mem _ hx)
      simp only [hs] at h
      by_cases hseen : a.seen l.natAbs = true
      · simp only [hseen, if_true] at h
        exact ih _ r h hstk hle
      · simp only [hseen] at h
        refine ih _ r h ?_ ?_
        · intro x hx
          simp only at hx
          split at hx
          · rcases push_reason_mem _ _ _ _ _ hx with h1 | h1
            · exact hstk x h1
            · exact getD_lits_nonzero _ hf _ x h1
          · exact hstk x hx
        · intro x hx
          simp only at hx
          split at hx
          · exact hle x hx
          · rcases List.mem_append.mp hx with h1 | h1
            · exact hle x h1
            · rw [List.mem_singleton.mp h1]; exact neg_ne_zero.mpr hl0

theorem resolve_reason_nonzero (s : SATSolver) (cl : Int) (c : Clause) (hc : ∀ l ∈ c, l ≠ 0) :
    ∀ a : Analysis, (∀ l ∈ a.learned, l ≠ 0) →
      ∀ l ∈ (resolve_reason s cl c a).learned, l ≠ 0 := by
  induction c with
  | nil => intro a ha; exact ha
  | cons rl rest ih =>
    intro a ha
    have hrest : ∀ l ∈ rest, l ≠ 0 := fun l hl => hc l (List.mem_cons_of_mem _ hl)
    unfold resolve_reason
    simp only
    split
    · exact ih hrest a ha
    · apply ih hrest
      intro x hx
      simp only at hx
      split at hx
      · exact ha x hx
      · rcases List.mem_append.mp hx with h1 | h1
        · exact ha x h1
        · rw [List.mem_singleton.mp h1]
          exact neg_ne_zero.mpr (hc rl (List.mem_cons_self _ _))

theorem resolve_step_nonzero (s : SATSolver) (cl : Int) (hf : NonzeroLits s.formula)
    (a : Analysis) (p : Nat) (hp : p ≠ 0) (ha : ∀ l ∈ a.learned, l ≠ 0) :
    ∀ l ∈ (resolve_step s cl a p).learned, l ≠ 0 := by
  unfold resolve_step
  simp only
  split
  · intro x hx
    rcases List.mem_append.mp hx with h1 | h1
    · exact ha x h1
    · rw [List.mem_singleton.mp h1]
      have : (p : Int) ≠ 0 := by exact_mod_cast hp
      split <;> simp [this]
  · exact resolve_reason_nonzero s cl _ (getD_lits_nonzero _ hf _) _ ha

theorem resolve_loop_nonzero (s : SATSolver) (cl : Int) (hf : NonzeroLits s.formula) (n : Nat) :
    ∀ (a r : Analysis), resolve_loop s cl n a = some r →
      (∀ l ∈ a.learned, l ≠ 0) → ∀ l ∈ r.learned, l ≠ 0 := by
  induction n with
  | zero => intro a r h; simp [resolve_loop] at h
  | succ n ih =>
    intro a r h ha
    unfold resolve_loop at h
    split at h
    · simp only at h
      split at h
      · simp only [Option.some.injEq] at h
        subst h; exact ha
      · rename_i hp
        exact ih _ r h (resolve_step_nonzero s cl hf a _ hp ha)
    · simp only [Option.some.injEq] at h
      subst h; exact ha

theorem analyze_clause_nonzero (fuel : Nat) (s : SATSolver) (ci : Nat) (learned : List Int)
    (hf : NonzeroLits s.formula) (h : analyze_clause fuel s ci = some learned) :
    ∀ l ∈ learned, l ≠ 0 := by
  unfold analyze_clause at h
  simp only at h
  cases hm : mark_loop s (s.trail_lim.length : Int) fuel (analysis_init s ci) with
  | none => rw [hm] at h; cases h
  | some a1 =>
    rw [hm] at h
    simp only at h
    cases hr : resolve_loop s (s.trail_lim.length : Int) fuel a1 with
    | none => rw [hr] at h; cases h
    | some a2 =>
      rw [hr] at h
      simp only at h
      have hc := getD_lits_nonzero _ hf ci
      have h1 : ∀ l ∈ a1.learned, l ≠ 0 :=
        mark_loop_nonzero s _ hf fuel _ a1 hm
          (by intro l hl; exact hc l (by simpa [analysis_init] using hl))
          (by intro l hl; simp [analysis_init] at hl)
      have h2 := resolve_loop_nonzero s _ hf fuel a1 a2 hr h1
      split at h
      · simp only [Option.some.injEq] at h
        subst h
        intro l hl
        obtain ⟨x, hx, rfl⟩ := List.mem_map.mp hl
        exact neg_ne_zero.mpr (hc x hx)
      · simp only [Option.some.injEq] at h
        subst h; exact h2

theorem nonzero_step {s t : SATSolver} (fuel : Nat) (h : NonzeroLits s.formula)
    (hstep : solve_iter fuel s = some (Step.next t)) : NonzeroLits t.formula := by
  unfold solve_iter at hstep
  cases hp : propagate fuel s with
  | none => rw [hp] at hstep; cases hstep
  | some r =>
    obtain ⟨s1, c⟩ := r
    have hg := propagate_grows fuel s _ hp
    have h1 : NonzeroLits s1.formula := by rw [hg.formula]; exact h
    rw [hp] at hstep
    cases c with
    | some ci =>
      simp only at hstep
      split at hstep
      · cases hstep
      · cases ha : analyze_conflict fuel s1 ci with
        | none => rw [ha] at hstep; cases hstep
        | some r2 =>
          obtain ⟨s2, learned⟩ := r2
          rw [ha] at hstep
          simp only [Option.some.injEq, Step.next.injEq] at hstep
          obtain ⟨hc, hf, _⟩ := analyze_conflict_fields fuel s1 s2 ci learned ha
          subst hstep
          have hl := analyze_clause_nonzero fuel s1 ci learned h1 hc
          intro cl hcl
          simp only [backjump, add_learned_clause, hf, List.mem_append,
            List.mem_singleton] at hcl
          rcases hcl with hcl | rfl
          · exact h1 cl hcl
          · exact hl
    | none =>
      simp only at hstep
      split at hstep
      · cases hstep
      · simp only [Option.some.injEq, Step.next.injEq] at hstep
        subst hstep
        exact h1

theorem nonzero_reachable {f : CNFFormula} {s : SATSolver} (hf : NonzeroLits f)
    (h : Reachable f s) : NonzeroLits s.formula := by
  induction h with
  | start => rw [(solve_start_grows f).formula]; exact hf
  | step fuel s t _ hstep ih => exact nonzero_step fuel ih hstep

/-! ## What the scan of a clause tells -/

theorem scan_count_ge (assign : Nat → Int) (cl : Clause) :
    ∀ (cnt : Nat) (last : Int), cnt ≤ (scan_clause assign cl cnt last).unassigned_count := by
  induction cl with
  | nil => intro cnt last; simp [scan_clause]
  | cons l rest ih =>
    intro cnt last
    unfold scan_clause
    split
    · exact le_trans (Nat.le_succ cnt) (ih (cnt + 1) l)
    · split
      · exact le_refl _
      · exact ih cnt last

/-- A scan that ends unsatisfied without having counted an unassigned literal
has seen only assigned literals that are not true. -/
theorem scan_conflict (assign : Nat → Int) (cl : Clause) :
    ∀ (cnt : Nat) (last : Int), (scan_clause assign cl cnt last).satisfied = false →
      (scan_clause assign cl cnt last).unassigned_count = cnt →
      ∀ l ∈ cl, assign l.natAbs ≠ 0 ∧ ¬ lit_true assign l := by
  induction cl with
  | nil => intro cnt last _ _ l hl; cases hl
  | cons a rest ih =>
    intro cnt last hs hc l hl
    unfold scan_clause at hs hc
    by_cases h0 : assign a.natAbs = 0
    · simp only [h0, if_true] at hs hc
      have := scan_count_ge assign rest (cnt + 1) a
      omega
    · simp only [h0, if_false] at hs hc
      by_cases ht : (assign a.natAbs = 1 ∧ a > 0) ∨ (assign a.natAbs = -1 ∧ a < 0)
      · simp only [ht, if_true] at hs
        cases hs
      · simp only [ht, if_false] at hs hc
        rcases List.mem_cons.mp hl with rfl | hl
        · exact ⟨h0, ht⟩
        · exact ih cnt last hs hc l hl

/-- An assigned literal that is not true is false, when the literal is not `0`
and the assignment holds only `0`, `1` and `-1`. -/
theorem lit_false_of_not_true (assign : Nat → Int) (l : Int) (hr : AssignRange assign)
    (hl : l ≠ 0) (ha : assign l.natAbs ≠ 0) (hn : ¬ lit_true assign l) : lit_false assign l := by
  unfold lit_true at hn
  unfold lit_false
  rcases hr l.natAbs with h | h | h
  · exact absurd h ha
  · left
    refine ⟨h, ?_⟩
    rcases lt_trichotomy l 0 with h1 | h1 | h1
    · exact h1
    · exact absurd h1 hl
    · exact absurd (Or.inl ⟨h, h1⟩) hn
  · right
    refine ⟨h, ?_⟩
    rcases lt_trichotomy l 0 with h1 | h1 | h1
    · exact absurd (Or.inr ⟨h, h1⟩) hn
    · exact absurd h1 hl
    · exact h1

theorem propagate_watchers_conflict (ws : List Nat) :
    ∀ (s t : SATSolver) (ci : Nat), propagate_watchers s ws = (t, some ci) →
      ci ∈ ws ∧ ∀ l ∈ t.formula.getD ci [], t.assign l.natAbs ≠ 0 ∧ ¬ lit_true t.assign l := by
  induction ws with
  | nil => intro s t ci h; simp [propagate_watchers] at h
  | cons k rest ih =>
    intro s t ci h
    unfold propagate_watchers at h
    simp only at h
    have lift : ∀ u : SATSolver, propagate_watchers u rest = (t, some ci) →
        ci ∈ k :: rest ∧ ∀ l ∈ t.formula.getD ci [],
          t.assign l.natAbs ≠ 0 ∧ ¬ lit_true t.assign l := by
      intro u hu
      obtain ⟨h1, h2⟩ := ih u t ci hu
      exact ⟨List.mem_cons_of_mem _ h1, h2⟩
    split at h
    · exact lift s h
    · rename_i hsat
      split at h
      · rename_i hcnt
        simp only [Prod.mk.injEq, Option.some.injEq] at h
        obtain ⟨rfl, rfl⟩ := h
        refine ⟨List.mem_cons_self _ _, ?_⟩
        exact scan_conflict s.assign _ 0 0 (by simpa using hsat) hcnt
      · split at h
        · split at h
          · exact lift _ h
          · exact lift s h
        · exact lift s h

theorem propagate_loop_conflict (n : Nat) :
    ∀ (s t : SATSolver) (idx ci : Nat), propagate_loop n s idx = some (t, some ci) →
      (∃ lit, ci ∈ t.watches lit) ∧
        ∀ l ∈ t.formula.getD ci [], t.assign l.natAbs ≠ 0 ∧ ¬ lit_true t.assign l := by
  induction n with
  | zero => intro s t idx ci h; simp [propagate_loop] at h
  | succ n ih =>
    intro s t idx ci h
    unfold propagate_loop at h
    by_cases hlt : idx < s.trail.length
    · simp only [hlt, if_true] at h
      have hg := propagate_watchers_grows (s.watches (-s.trail.getD idx 0)) s
      rcases hw : propagate_watchers s (s.watches (-s.trail.getD idx 0)) with ⟨s1, c⟩
      rw [hw] at h hg
      cases c with
      | some k =>
        simp only [Option.some.injEq, Prod.mk.injEq] at h
        obtain ⟨rfl, rfl⟩ := h
        obtain ⟨h1, h2⟩ := propagate_watchers_conflict _ s s1 k hw
        exact ⟨⟨_, by rw [hg.watches]; exact h1⟩, h2⟩
      | none => exact ih s1 t (idx + 1) ci h
    · simp [hlt] at h

/-! ## C8 -/

/-- C8: in a state reached by `solve` on an input without the literal `0`, a
clause index returned by `propagate` is a valid index into the clause store, and
every literal of that clause is assigned and false. -/
theorem propagate_conflict_is_falsified (f : CNFFormula) (hf : NonzeroLits f) (s : SATSolver)
    (hs : Reachable f s) (fuel : Nat) (t : SATSolver) (ci : Nat)
    (h : propagate fuel s = some (t, some ci)) :
    ci < t.formula.length ∧
      ∀ l ∈ t.formula.getD ci [], ¬ lit_unassigned t.assign l ∧ lit_false t.assign l := by
  have hg := propagate_grows fuel s _ h
  have hinv : SolverInv f t := solver_inv_grows (solver_inv_reachable hs) hg
  have hnz : NonzeroLits t.formula := by
    rw [hg.formula]; exact nonzero_reachable hf hs
  obtain ⟨⟨lit, hlit⟩, hall⟩ := propagate_loop_conflict fuel s t 0 ci h
  refine ⟨hinv.watches_valid lit ci hlit, ?_⟩
  intro l hl
  obtain ⟨h1, h2⟩ := hall l hl
  exact ⟨h1, lit_false_of_not_true t.assign l hinv.range (getD_lits_nonzero _ hnz ci l hl) h1 h2⟩

/-- Witness for C8: the first call of `propagate` on scenario b, `(1), (-1)`,
which returns clause 1. -/
theorem propagate_conflict_is_falsified_witness :
    NonzeroLits scenario_b ∧ Reachable scenario_b (solve_start scenario_b) ∧
    propagate 10 (solve_start scenario_b) =
      some (state_of (propagate 10 (solve_start scenario_b)) (mk_solver []), some 1) ∧
    1 < (state_of (propagate 10 (solve_start scenario_b)) (mk_solver [])).formula.length ∧
    ∀ l ∈ (state_of (propagate 10 (solve_start scenario_b)) (mk_solver [])).formula.getD 1 [],
      ¬ lit_unassigned (state_of (propagate 10 (solve_start scenario_b)) (mk_solver [])).assign l ∧
      lit_false (state_of (propagate 10 (solve_start scenario_b)) (mk_solver [])).assign l :=
  ⟨by decide, Reachable.start, pair_of_value _ _ _ (by decide!),
    propagate_conflict_is_falsified scenario_b (by decide) _ Reachable.start 10 _ 1
      (pair_of_value _ _ _ (by decide!))⟩

/-! ## The bootstrap of `solve` -/

theorem watch_literal_keep (w : Int → List Nat) (lit : Int) (ci : Nat) (l : Int) (k : Nat)
    (h : k ∈ w l) : k ∈ watch_literal w lit ci l := by
  unfold watch_literal
  split
  · exact List.mem_append_left _ h
  · exact h

theorem watch_literal_new (w : Int → List Nat) (lit : Int) (ci : Nat) :
    ci ∈ watch_literal w lit ci lit := by
  simp [watch_literal]

theorem init_watches_from_keep (rest : CNFFormula) :
    ∀ (w : Int → List Nat) (i : Nat) (l : Int) (k : Nat), k ∈ w l →
      k ∈ init_watches_from w i rest l := by
  induction rest with
  | nil => intro w i l k h; simpa [init_watches_from] using h
  | cons cl rest ih =>
    intro w i l k h
    match cl with
    | [] => simpa [init_watches_from] using ih w (i + 1) l k h
    | [a] =>
      simp only [init_watches_from]
      exact ih _ (i + 1) l k (watch_literal_keep _ _ _ _ _ (watch_literal_keep _ _ _ _ _ h))
    | a :: b :: tl =>
      simp only [init_watches_from]
      exact ih _ (i + 1) l k (watch_literal_keep _ _ _ _ _ (watch_literal_keep _ _ _ _ _ h))

theorem init_watches_from_unit (rest : CNFFormula) :
    ∀ (w : Int → List Nat) (i j : Nat) (a : Int), rest.getD j [] = [a] →
      i + j ∈ init_watches_from w i rest a := by
  induction rest with
  | nil => intro w i j a h; simp at h
  | cons cl rest ih =>
    intro w i j a h
    cases j with
    | zero =>
      simp only [List.getD_cons_zero] at h
      subst h
      simp only [init_watches_from, Nat.add_zero]
      exact init_watches_from_keep rest _ (i + 1) a i (watch_literal_new _ _ _)
    | succ j =>
      simp only [List.getD_cons_succ] at h
      have := ih
      have hidx : i + (j + 1) = (i + 1) + j := by omega
      rw [hidx]
      match cl with
      | [] => simpa [init_watches_from] using ih w (i + 1) j a h
      | [b] => simp only [init_watches_from]; exact ih _ (i + 1) j a h
      | b :: c :: tl => simp only [init_watches_from]; exact ih _ (i + 1) j a h

/-- A unit clause `(a)` at index `k` of the input is in the watch list of `a`. -/
theorem init_watches_unit (f : CNFFormula) (k : Nat) (a : Int) (h : f.getD k [] = [a]) :
    k ∈ init_watches f a := by
  have := init_watches_from_unit f (fun _ => []) 0 k a h
  simpa [init_watches] using this

theorem trail_sound_assign_lit (s : SATSolver) (lit : Int) (ci : Int) (hs : TrailSound s)
    (h0 : s.assign lit.natAbs = 0) : TrailSound (assign_lit s lit ci) := by
  refine ⟨?_, ?_⟩
  · intro t ht
    simp only [assign_lit, List.mem_append, List.mem_singleton] at ht ⊢
    rcases ht with ht | rfl
    · have hv := hs.trail_true t ht
      have hne : t.natAbs ≠ lit.natAbs := by
        intro e
        rw [e, h0] at hv
        exact assign_lit_value t hv.symm
      rw [Function.update_noteq hne]; exact hv
    · simp
  · intro v hv
    simp only [assign_lit] at hv ⊢
    by_cases e : v = lit.natAbs
    · exact ⟨lit, by simp, e.symm⟩
    · rw [Function.update_noteq e] at hv
      obtain ⟨t, ht, htv⟩ := hs.on_trail v hv
      exact ⟨t, List.mem_append_left _ ht, htv⟩

theorem solve_units_sound (rest : CNFFormula) :
    ∀ (s : SATSolver) (ci : Nat), TrailSound s → TrailSound (solve_units s ci rest) := by
  induction rest with
  | nil => intro s ci h; exact h
  | cons cl rest ih =>
    intro s ci h
    match cl with
    | [] => simpa [solve_units] using ih s (ci + 1) h
    | [lit] =>
      unfold solve_units
      split
      · rename_i h0
        exact ih _ _ (trail_sound_assign_lit s lit ci h h0)
      · exact ih s (ci + 1) h
    | a :: b :: tl => simpa [solve_units] using ih s (ci + 1) h

theorem solve_units_assigns (rest : CNFFormula) :
    ∀ (s : SATSolver) (ci : Nat) (l : Int), [l] ∈ rest →
      (solve_units s ci rest).assign l.natAbs ≠ 0 := by
  induction rest with
  | nil => intro s ci l h; cases h
  | cons cl rest ih =>
    intro s ci l h
    rcases List.mem_cons.mp h with rfl | h
    · unfold solve_units
      split
      · rename_i h0
        have hg := solve_units_grows rest (assign_lit s l ci) (ci + 1)
        have hv : (assign_lit s l ci).assign l.natAbs ≠ 0 := by
          simp only [assign_lit, Function.update_same]
          exact assign_lit_value l
        rw [hg.keep _ hv]; exact hv
      · rename_i h0
        have hg := solve_units_grows rest s (ci + 1)
        rw [hg.keep _ h0]; exact h0
    · rename_i h2
      match cl with
      | [] => simpa [solve_units] using ih s (ci + 1) l h
      | [lit] =>
        unfold solve_units
        split
        · exact ih _ _ l h
        · exact ih _ _ l h
      | a :: b :: tl => simpa [solve_units] using ih s (ci + 1) l h

theorem trail_sound_start (f : CNFFormula) : TrailSound (solve_start f) :=
  solve_units_sound f (mk_solver f) 0
    ⟨fun t ht => absurd ht (List.not_mem_nil t), fun v hv => absurd rfl hv⟩

/-! ## A falsified unit clause is found by `propagate` -/

theorem trigger_grows {s u : SATSolver} {t : Int} {k : Nat} (h : Trigger s t k)
    (hg : Grows s u) : Trigger u t k := by
  refine ⟨by rw [hg.formula]; exact h.clause, by rw [hg.watches]; exact h.watched, ?_⟩
  have hv : s.assign t.natAbs ≠ 0 := by rw [h.value]; exact assign_lit_value t
  rw [hg.keep _ hv]; exact h.value

theorem scan_trigger {s : SATSolver} {t : Int} {k : Nat} (h : Trigger s t k) :
    (scan_clause s.assign (s.formula.getD k []) 0 0).satisfied = false ∧
      (scan_clause s.assign (s.formula.getD k []) 0 0).unassigned_count = 0 := by
  rw [h.clause]
  have hv := h.value
  simp only [scan_clause, Int.natAbs_neg]
  by_cases hpos : t > 0
  · simp only [hpos, if_true] at hv
    have h1 : ¬ (-t > 0) := by omega
    simp [hv, h1]
  · simp only [hpos, if_false] at hv
    have h1 : ¬ (-t < 0) := by omega
    simp [hv, h1]

theorem trigger_watchers (t : Int) (k : Nat) (ws : List Nat) :
    ∀ s : SATSolver, Trigger s t k → k ∈ ws → (propagate_watchers s ws).2 ≠ none := by
  induction ws with
  | nil => intro s _ hk; cases hk
  | cons c rest ih =>
    intro s ht hk
    by_cases hc : c = k
    · subst hc
      obtain ⟨h1, h2⟩ := scan_trigger ht
      unfold propagate_watchers
      simp only [h1, h2, Bool.false_eq_true, if_false, if_true]
      exact Option.some_ne_none c
    · have hk1 : k ∈ rest := by
        rcases List.mem_cons.mp hk with h | h
        · exact absurd h.symm hc
        · exact h
      unfold propagate_watchers
      simp only
      split
      · exact ih s ht hk1
      · split
        · simp
        · split
          · split
            · rename_i h0
              exact ih _ (trigger_grows ht (assign_lit_grows s _ _ h0)) hk1
            · exact ih s ht hk1
          · exact ih s ht hk1

theorem trigger_loop (t : Int) (k p : Nat) (n : Nat) :
    ∀ (s : SATSolver) (idx : Nat) (r : SATSolver × Option Nat),
      propagate_loop n s idx = some r → Trigger s t k → idx ≤ p → p < s.trail.length →
      s.trail.getD p 0 = t → r.2 ≠ none := by
  induction n with
  | zero => intro s idx r h; simp [propagate_loop] at h
  | succ n ih =>
    intro s idx r h ht hidx hp hget
    unfold propagate_loop at h
    have hlt : idx < s.trail.length := by omega
    simp only [hlt, if_true] at h
    have hg := propagate_watchers_grows (s.watches (-s.trail.getD idx 0)) s
    rcases hw : propagate_watchers s (s.watches (-s.trail.getD idx 0)) with ⟨s1, c⟩
    rw [hw] at h hg
    cases c with
    | some ci =>
      simp only [Option.some.injEq] at h
      subst h; simp
    | none =>
      simp only at h hg
      by_cases he : idx = p
      · subst he
        have := trigger_watchers t k (s.watches (-s.trail.getD idx 0)) s ht
          (by rw [hget]; exact ht.watched)
        rw [hw] at this
        exact absurd rfl this
      · obtain ⟨ext, hext⟩ := hg.trail
        refine ih s1 (idx + 1) r h (trigger_grows ht hg) (by omega) ?_ ?_
        · rw [hext, List.length_append]; omega
        · rw [hext, List.getD_append _ _ _ _ hp]; exact hget

/-! ## `propagate` returns -/

theorem countP_update (v : Nat) (p q : Nat → Bool) (hpq : ∀ x, x ≠ v → p x = q x)
    (hp : p v = true) (hq : q v = false) (l : List Nat) :
    l.countP p = l.countP q + l.count v := by
  induction l with
  | nil => simp
  | cons a rest ih =>
    by_cases e : a = v
    · subst e
      simp [List.countP_cons, hp, hq, ih]
      omega
    · have hne : (a == v) = false := by simpa using e
      simp [List.countP_cons, List.count_cons, hpq a e, ih, hne]
      omega

theorem unassigned_assign_lit (s : SATSolver) (lit : Int) (ci : Int)
    (h0 : s.assign lit.natAbs = 0) (hb : lit.natAbs ≤ s.num_vars) :
    unassigned_count (assign_lit s lit ci) + 1 = unassigned_count s := by
  unfold unassigned_count
  have hcount : (List.range (s.num_vars + 1)).count lit.natAbs = 1 :=
    List.count_eq_one_of_mem (List.nodup_range _) (List.mem_range.mpr (by omega))
  have := countP_update lit.natAbs (fun v => decide (s.assign v = 0))
    (fun v => decide ((assign_lit s lit ci).assign v = 0))
    (by
      intro x hx
      simp only [assign_lit, Function.update_noteq hx])
    (by simpa using h0)
    (by
      simp only [assign_lit, Function.update_same, decide_eq_false_iff_not]
      exact assign_lit_value lit)
    (List.range (s.num_vars + 1))
  rw [this, hcount]
  rfl

theorem scan_last_or (assign : Nat → Int) (cl : Clause) :
    ∀ (cnt : Nat) (last : Int), (scan_clause assign cl cnt last).last_unassigned = last ∨
      (scan_clause assign cl cnt last).last_unassigned ∈ cl := by
  induction cl with
  | nil => intro cnt last; left; rfl
  | cons l rest ih =>
    intro cnt last
    unfold scan_clause
    split
    · rcases ih (cnt + 1) l with h | h
      · right; rw [h]; exact List.mem_cons_self _ _
      · right; exact List.mem_cons_of_mem _ h
    · split
      · left; rfl
      · rcases ih cnt last with h | h
        · exact Or.inl h
        · exact Or.inr (List.mem_cons_of_mem _ h)

theorem scan_last_mem (assign : Nat → Int) (cl : Clause) :
    ∀ (cnt : Nat) (last : Int), cnt < (scan_clause assign cl cnt last).unassigned_count →
      (scan_clause assign cl cnt last).last_unassigned ∈ cl := by
  induction cl with
  | nil => intro cnt last h; simp [scan_clause] at h
  | cons l rest ih =>
    intro cnt last h
    unfold scan_clause at h ⊢
    split
    · rcases scan_last_or assign rest (cnt + 1) l with h1 | h1
      · rw [h1]; exact List.mem_cons_self _ _
      · exact List.mem_cons_of_mem _ h1
    · rename_i h0
      simp only [h0, if_false] at h
      split
      · rename_i ht
        simp only [ht, if_true] at h
        omega
      · rename_i ht
        simp only [ht, if_false] at h
        exact List.mem_cons_of_mem _ (ih cnt last h)

theorem getD_lits_bounded (f : CNFFormula) (n : Nat) (h : LitsBounded f n) (k : Nat) :
    ∀ l ∈ f.getD k [], l.natAbs ≤ n := by
  intro l hl
  by_cases hk : k < f.length
  · rw [List.getD_eq_getElem _ _ hk] at hl
    exact h _ (List.getElem_mem hk) l hl
  · rw [List.getD_eq_default _ _ (by omega)] at hl
    cases hl

/-- The loop over the watchers keeps `trail.size()` plus the number of
unassigned variables. -/
theorem propagate_watchers_measure (ws : List Nat) :
    ∀ s : SATSolver, LitsBounded s.formula s.num_vars →
      (propagate_watchers s ws).1.trail.length + unassigned_count (propagate_watchers s ws).1 =
        s.trail.length + unassigned_count s := by
  induction ws with
  | nil => intro s _; rfl
  | cons ci rest ih =>
    intro s hb
    unfold propagate_watchers
    simp only
    split
    · exact ih s hb
    · split
      · rfl
      · split
        · rename_i h1
          split
          · rename_i h0
            have hmem := scan_last_mem s.assign (s.formula.getD ci []) 0 0 (by omega)
            have hbd := getD_lits_bounded _ _ hb ci _ hmem
            have hg := assign_lit_grows s (scan_clause s.assign (s.formula.getD ci []) 0 0).last_unassigned
              ci h0
            have := ih (assign_lit s (scan_clause s.assign (s.formula.getD ci []) 0 0).last_unassigned ci)
              (by rw [hg.formula, hg.num_vars]; exact hb)
            rw [this]
            have hu := unassigned_assign_lit s _ (ci : Int) h0 hbd
            simp only [assign_lit, List.length_append, List.length_singleton] at hu ⊢
            omega
          · exact ih s hb
        · exact ih s hb

/-- `propagate` returns when the fuel exceeds the number of unassigned
variables plus the part of the trail still to process. -/
theorem propagate_loop_terminates (n : Nat) :
    ∀ (s : SATSolver) (idx : Nat), LitsBounded s.formula s.num_vars → idx ≤ s.trail.length →
      unassigned_count s + (s.trail.length - idx) < n → ∃ r, propagate_loop n s idx = some r := by
  induction n with
  | zero => intro s idx _ _ h; omega
  | succ n ih =>
    intro s idx hb hidx hm
    unfold propagate_loop
    by_cases hlt : idx < s.trail.length
    · simp only [hlt, if_true]
      have hg := propagate_watchers_grows (s.watches (-s.trail.getD idx 0)) s
      have hmeas := propagate_watchers_measure (s.watches (-s.trail.getD idx 0)) s hb
      rcases hw : propagate_watchers s (s.watches (-s.trail.getD idx 0)) with ⟨s1, c⟩
      rw [hw] at hg hmeas
      cases c with
      | some ci => exact ⟨_, rfl⟩
      | none =>
        simp only at hg hmeas ⊢
        obtain ⟨ext, hext⟩ := hg.trail
        have hlen : s.trail.length ≤ s1.trail.length := by
          rw [hext, List.length_append]; omega
        exact ih s1 (idx + 1) (by rw [hg.formula, hg.num_vars]; exact hb) (by omega) (by omega)
    · exact ⟨(s, none), by simp only [hlt, if_false]⟩

/-! ## C6 -/

/-- C6 (amended claim): when the literals of the input have an absolute value
of at most `2147483646` and the input contains the unit clauses `(l)` and
`(-l)`, the constructor yields its object, the first call of `propagate`
reports a conflict while `trail_lim` is empty, and `SATSolver(f).solve()`
returns `false` in its first pass, before any decision. -/
theorem solve_disagreeing_units_unsat (f : CNFFormula) (h32 : Int32Literals f) (l : Int)
    (h1 : [l] ∈ f) (h2 : [-l] ∈ f) :
    construct f = some (mk_solver f) ∧
    ∃ fuel s ci, propagate fuel (solve_start f) = some (s, some ci) ∧ s.trail_lim = [] ∧
      solve_loop 1 fuel (solve_start f) = some (false, s) ∧
      construct_solve fuel f = some (false, s) := by
  refine ⟨(construct_some f h32).2, ?_⟩
  have hg0 := solve_start_grows f
  have hsound := trail_sound_start f
  have hassigned : (solve_start f).assign l.natAbs ≠ 0 := solve_units_assigns f (mk_solver f) 0 l h1
  obtain ⟨t, ht, htl⟩ := hsound.on_trail _ hassigned
  have hneg : [-t] ∈ f := by
    rcases Int.natAbs_eq_natAbs_iff.mp htl with e | e
    · rw [e]; exact h2
    · rw [e, neg_neg]; exact h1
  obtain ⟨k, hk, hkf⟩ := List.getElem_of_mem hneg
  have hclause : f.getD k [] = [-t] := by rw [List.getD_eq_getElem _ _ hk]; exact hkf
  have htrig : Trigger (solve_start f) t k :=
    ⟨by rw [hg0.formula]; exact hclause,
      by rw [hg0.watches]; exact init_watches_unit f k (-t) hclause,
      hsound.trail_true t ht⟩
  obtain ⟨p, hp, hpt⟩ := List.getElem_of_mem ht
  have hget : (solve_start f).trail.getD p 0 = t := by
    rw [List.getD_eq_getElem _ _ hp]; exact hpt
  have hb : LitsBounded (solve_start f).formula (solve_start f).num_vars := by
    rw [hg0.formula, hg0.num_vars]; exact count_vars_bound f h32
  obtain ⟨r, hr⟩ := propagate_loop_terminates
    (unassigned_count (solve_start f) + (solve_start f).trail.length + 1) (solve_start f) 0 hb
    (Nat.zero_le _) (by omega)
  obtain ⟨s, c⟩ := r
  have hc := trigger_loop t k p _ (solve_start f) 0 (s, c) hr htrig (Nat.zero_le _) hp hget
  cases c with
  | none => exact absurd rfl hc
  | some ci =>
    have hlim : s.trail_lim = [] := by
      rw [(propagate_loop_grows _ _ 0 _ hr).trail_lim, hg0.trail_lim]; rfl
    have hiter : solve_iter (unassigned_count (solve_start f) + (solve_start f).trail.length + 1)
        (solve_start f) = some (Step.done false s) := by
      unfold solve_iter propagate
      rw [hr]
      simp [hlim]
    refine ⟨_, s, ci, hr, hlim, ?_, ?_⟩
    · simp only [solve_loop, hiter]
    · rw [construct_solve_eq _ f h32]
      unfold solve
      simp only [solve_loop, hiter]

/-- Witness for C6: scenario b of the specification, `(1), (-1)`. -/
theorem solve_disagreeing_units_unsat_witness :
    Int32Literals scenario_b ∧ [1] ∈ scenario_b ∧ [-1] ∈ scenario_b ∧
    construct scenario_b = some (mk_solver scenario_b) ∧
    ∃ fuel s ci, propagate fuel (solve_start scenario_b) = some (s, some ci) ∧
      s.trail_lim = [] ∧ solve_loop 1 fuel (solve_start scenario_b) = some (false, s) ∧
      construct_solve fuel scenario_b = some (false, s) :=
  ⟨by decide, by decide, by decide,
    solve_disagreeing_units_unsat scenario_b (by decide) 1 (by decide) (by decide)⟩

/-- C6 (counterexample to the claim as stated): the input
`(2147483647), (-2147483647)` holds the unit clauses `(v)` and `(-v)` for
`v = 2147483647`.  The constructor computes `num_vars = 2147483647`, and
`num_vars + 1`, the size of its vectors, exceeds the largest `int`: there is no
solver object, and `SATSolver(f).solve()` returns nothing, in particular not
`false`. -/
theorem no_solver_for_largest_variable :
    [2147483647] ∈ int_max_units ∧ [-2147483647] ∈ int_max_units ∧
    count_vars int_max_units = 2147483647 ∧
    vector_size int_max_units = none ∧ construct int_max_units = none ∧
    ∀ fuel, construct_solve fuel int_max_units = none := by
  have hv : vector_size int_max_units = none := by decide!
  have hc : construct int_max_units = none := by
    unfold construct
    rw [hv]
  refine ⟨by decide, by decide, by decide!, hv, hc, ?_⟩
  intro fuel
  unfold construct_solve
  rw [hc]

/-! ## The choice of `pick_branch_var` -/

/-- What the first loop of `pick_branch_var` returns over the variables `vars`:
either no variable beat `best_score` and `best` is returned, or the first
unassigned variable of largest activity in `vars`. -/
theorem pick_best_first_max (assign : Nat → Int) (activity : Nat → Int) :
    ∀ (vars : List Nat) (best : Nat) (best_score : Int),
      (pick_best assign activity vars best best_score = best ∧
        ∀ v ∈ vars, assign v = 0 → activity v ≤ best_score) ∨
      (assign (pick_best assign activity vars best best_score) = 0 ∧
        best_score < activity (pick_best assign activity vars best best_score) ∧
        (∀ v ∈ vars, assign v = 0 →
          activity v ≤ activity (pick_best assign activity vars best best_score)) ∧
        ∃ pre post, vars = pre ++ pick_best assign activity vars best best_score :: post ∧
          ∀ v ∈ pre, assign v = 0 →
            activity v < activity (pick_best assign activity vars best best_score)) := by
  intro vars
  induction vars with
  | nil => intro best sc; left; exact ⟨rfl, fun v hv => absurd hv (List.not_mem_nil v)⟩
  | cons x rest ih =>
    intro best sc
    unfold pick_best
    by_cases hx : assign x = 0 ∧ activity x > sc
    · simp only [hx, and_self, if_true]
      right
      rcases ih x (activity x) with ⟨hr, hall⟩ | ⟨h0, hgt, hall, pre, post, hsplit, hpre⟩
      · rw [hr]
        refine ⟨hx.1, hx.2, ?_, [], rest, rfl, fun v hv => absurd hv (List.not_mem_nil v)⟩
        intro v hv hv0
        rcases List.mem_cons.mp hv with rfl | hv1
        · exact le_refl _
        · exact hall v hv1 hv0
      · refine ⟨h0, lt_trans hx.2 hgt, ?_, x :: pre, post, by rw [List.cons_append, ← hsplit], ?_⟩
        · intro v hv hv0
          rcases List.mem_cons.mp hv with rfl | hv1
          · exact le_of_lt hgt
          · exact hall v hv1 hv0
        · intro v hv hv0
          rcases List.mem_cons.mp hv with rfl | hv1
          · exact hgt
          · exact hpre v hv1 hv0
    · simp only [hx, if_false]
      have hxle : assign x = 0 → activity x ≤ sc := by
        intro h0
        by_contra hc
        exact hx ⟨h0, lt_of_not_le hc⟩
      rcases ih best sc with ⟨hr, hall⟩ | ⟨h0, hgt, hall, pre, post, hsplit, hpre⟩
      · left
        refine ⟨hr, ?_⟩
        intro v hv hv0
        rcases List.mem_cons.mp hv with rfl | hv1
        · exact hxle hv0
        · exact hall v hv1 hv0
      · right
        refine ⟨h0, hgt, ?_, x :: pre, post, by rw [List.cons_append, ← hsplit], ?_⟩
        · intro v hv hv0
          rcases List.mem_cons.mp hv with rfl | hv1
          · exact le_trans (hxle hv0) (le_of_lt hgt)
          · exact hall v hv1 hv0
        · intro v hv hv0
          rcases List.mem_cons.mp hv with rfl | hv1
          · exact lt_of_le_of_lt (hxle hv0) hgt
          · exact hpre v hv1 hv0

/-- The variables `1 .. n` in the order of the loops of `pick_branch_var`. -/
theorem mem_vars_iff (n v : Nat) : v ∈ (List.range n).map (· + 1) ↔ 1 ≤ v ∧ v ≤ n := by
  constructor
  · intro h
    obtain ⟨y, hy, rfl⟩ := List.mem_map.mp h
    have := List.mem_range.mp hy
    omega
  · intro h
    exact List.mem_map.mpr ⟨v - 1, List.mem_range.mpr (by omega), by omega⟩

theorem vars_increasing (n : Nat) : ((List.range n).map (· + 1)).Pairwise (· < ·) := by
  rw [List.pairwise_map]
  exact (List.pairwise_lt_range n).imp (fun h => by omega)

/-- C11: in a state whose activities are not negative, `pick_branch_var` returns
`0` exactly when every variable in `1 .. num_vars` is assigned; otherwise it
returns an unassigned variable of `1 .. num_vars` whose activity is the largest
among the unassigned ones, and the smallest index among those of that
activity. -/
theorem pick_branch_var_max_activity (s : SATSolver)
    (hact : ∀ v, 1 ≤ v → v ≤ s.num_vars → 0 ≤ s.activity v) :
    (pick_branch_var s = 0 ↔ ∀ v, 1 ≤ v → v ≤ s.num_vars → s.assign v ≠ 0) ∧
    (pick_branch_var s ≠ 0 →
      1 ≤ pick_branch_var s ∧ pick_branch_var s ≤ s.num_vars ∧
      s.assign (pick_branch_var s) = 0 ∧
      ∀ v, 1 ≤ v → v ≤ s.num_vars → s.assign v = 0 →
        s.activity v ≤ s.activity (pick_branch_var s) ∧
        (s.activity v = s.activity (pick_branch_var s) → pick_branch_var s ≤ v)) := by
  have key := pick_best_first_max s.assign s.activity ((List.range s.num_vars).map (· + 1)) 0 (-1)
  have hdef : pick_branch_var s =
      if pick_best s.assign s.activity ((List.range s.num_vars).map (· + 1)) 0 (-1) ≠ 0 then
        pick_best s.assign s.activity ((List.range s.num_vars).map (· + 1)) 0 (-1)
      else (List.find? (fun v => decide (s.assign v = 0))
        ((List.range s.num_vars).map (· + 1))).getD 0 := rfl
  generalize pick_best s.assign s.activity ((List.range s.num_vars).map (· + 1)) 0 (-1) = r
    at key hdef
  rcases key with ⟨hr, hall⟩ | ⟨h0, hgt, hall, pre, post, hsplit, hpre⟩
  · have hassigned : ∀ v, 1 ≤ v → v ≤ s.num_vars → s.assign v ≠ 0 := by
      intro v h1 h2 hv0
      have := hall v ((mem_vars_iff _ _).mpr ⟨h1, h2⟩) hv0
      have := hact v h1 h2
      omega
    have hfind : List.find? (fun v => decide (s.assign v = 0))
        ((List.range s.num_vars).map (· + 1)) = none := by
      apply List.find?_eq_none.mpr
      intro v hv
      have := (mem_vars_iff _ _).mp hv
      simpa using hassigned v this.1 this.2
    have hz : pick_branch_var s = 0 := by
      rw [hdef]
      simp only [hr, ne_eq, not_true_eq_false, if_false, hfind, Option.getD_none]
    exact ⟨⟨fun _ => hassigned, fun _ => hz⟩, fun h => absurd hz h⟩
  · have hmem : r ∈ (List.range s.num_vars).map (· + 1) := by
      rw [hsplit]; exact List.mem_append_right _ (List.mem_cons_self _ _)
    have hb := (mem_vars_iff _ _).mp hmem
    have hne : r ≠ 0 := by omega
    have hp : pick_branch_var s = r := by
      rw [hdef]
      simp only [ne_eq, hne, not_false_eq_true, if_true]
    rw [hp]
    refine ⟨⟨fun h => absurd h hne, fun h => absurd h0 (h _ hb.1 hb.2)⟩, fun _ => ?_⟩
    refine ⟨hb.1, hb.2, h0, ?_⟩
    intro v h1 h2 hv0
    have hv : v ∈ (List.range s.num_vars).map (· + 1) := (mem_vars_iff _ _).mpr ⟨h1, h2⟩
    refine ⟨hall v hv hv0, ?_⟩
    intro heq
    have hsorted := vars_increasing s.num_vars
    rw [hsplit] at hv hsorted
    rcases List.mem_append.mp hv with hin | hin
    · have := hpre v hin hv0
      omega
    · rcases List.mem_cons.mp hin with rfl | hin1
      · exact le_refl _
      · have := (List.pairwise_cons.mp (List.pairwise_append.mp hsorted).2.1).1 v hin1
        omega

theorem pick_branch_var_max_activity_witness :
    (∀ v, 1 ≤ v → v ≤ lc_s5.num_vars → 0 ≤ lc_s5.activity v) ∧
    pick_branch_var lc_s5 = 4 ∧ lc_s5.assign 4 = 0 ∧
    ∀ v, 1 ≤ v → v ≤ lc_s5.num_vars → lc_s5.assign v = 0 →
      lc_s5.activity v ≤ lc_s5.activity (pick_branch_var lc_s5) ∧
      (lc_s5.activity v = lc_s5.activity (pick_branch_var lc_s5) → pick_branch_var lc_s5 ≤ v) := by
  have hn : lc_s5.num_vars = 4 := by decide!
  have hact : ∀ v, 1 ≤ v → v ≤ lc_s5.num_vars → 0 ≤ lc_s5.activity v := by
    intro v h1 h2
    rw [hn] at h2
    interval_cases v <;> decide!
  have hp : pick_branch_var lc_s5 = 4 := by decide!
  have h := pick_branch_var_max_activity lc_s5 hact
  exact ⟨hact, hp, by decide!, (h.2 (by rw [hp]; decide)).2.2.2⟩

/-! ## `backjump` -/

theorem dropWhile_agree {α : Type} (p q : α → Bool) :
    ∀ l : List α, (∀ x ∈ l, p x = q x) → l.dropWhile p = l.dropWhile q := by
  intro l
  induction l with
  | nil => intro _; rfl
  | cons a rest ih =>
    intro h
    have ha := h a (List.mem_cons_self _ _)
    have hr := ih (fun x hx => h x (List.mem_cons_of_mem _ hx))
    simp only [List.dropWhile_cons, ha, hr]

theorem takeWhile_agree {α : Type} (p q : α → Bool) :
    ∀ l : List α, (∀ x ∈ l, p x = q x) → l.takeWhile p = l.takeWhile q := by
  intro l
  induction l with
  | nil => intro _; rfl
  | cons a rest ih =>
    intro h
    have ha := h a (List.mem_cons_self _ _)
    have hr := ih (fun x hx => h x (List.mem_cons_of_mem _ hx))
    simp only [List.takeWhile_cons, ha, hr]

/-- The first loop of `backjump` on a trail without a repeated variable: it
removes the entries above the target level from the back up to the first entry
that is not above it, clears their variables and leaves the others alone. -/
theorem backjump_pop_spec (t : Int) :
    ∀ (rev : List Int) (asg lev rea : Nat → Int), (rev.map Int.natAbs).Nodup →
      (backjump_pop t rev asg lev rea).2.2.2 = rev.dropWhile (fun l => decide (t < lev l.natAbs)) ∧
      (∀ l ∈ rev.takeWhile (fun l => decide (t < lev l.natAbs)),
        (backjump_pop t rev asg lev rea).1 l.natAbs = 0 ∧
        (backjump_pop t rev asg lev rea).2.1 l.natAbs = -1 ∧
        (backjump_pop t rev asg lev rea).2.2.1 l.natAbs = -1) ∧
      (∀ v, (∀ l ∈ rev.takeWhile (fun l => decide (t < lev l.natAbs)), l.natAbs ≠ v) →
        (backjump_pop t rev asg lev rea).1 v = asg v ∧
        (backjump_pop t rev asg lev rea).2.1 v = lev v ∧
        (backjump_pop t rev asg lev rea).2.2.1 v = rea v) := by
  intro rev
  induction rev with
  | nil =>
    intro asg lev rea _
    simp [backjump_pop]
  | cons lit rest ih =>
    intro asg lev rea hnd
    have hnd' := List.nodup_cons.mp (by simpa only [List.map_cons] using hnd)
    have hnotin : ∀ x ∈ rest, x.natAbs ≠ lit.natAbs := by
      intro x hx heq
      exact hnd'.1 (List.mem_map.mpr ⟨x, hx, heq⟩)
    unfold backjump_pop
    by_cases h : lev lit.natAbs ≤ t
    · have hp : decide (t < lev lit.natAbs) = false := by simp; omega
      simp only [h, if_true, List.dropWhile_cons, hp, List.takeWhile_cons]
      simp
    · have hp : decide (t < lev lit.natAbs) = true := by simp; omega
      have hagree : ∀ x ∈ rest,
          (fun l : Int => decide (t < lev l.natAbs)) x =
          (fun l : Int => decide (t < (Function.update lev lit.natAbs (-1)) l.natAbs)) x := by
        intro x hx
        simp only [Function.update_noteq (hnotin x hx)]
      obtain ⟨ih1, ih2, ih3⟩ := ih (Function.update asg lit.natAbs 0)
        (Function.update lev lit.natAbs (-1)) (Function.update rea lit.natAbs (-1)) hnd'.2
      rw [← dropWhile_agree _ _ rest hagree] at ih1
      rw [← takeWhile_agree _ _ rest hagree] at ih2 ih3
      simp only [h, if_false, List.dropWhile_cons, hp, List.takeWhile_cons, if_true]
      refine ⟨ih1, ?_, ?_⟩
      · intro l hl
        rcases List.mem_cons.mp hl with rfl | hl1
        · have := ih3 l.natAbs (fun x hx => hnotin x (List.takeWhile_subset _ hx))
          simpa using this
        · exact ih2 l hl1
      · intro v hv
        have hvl : lit.natAbs ≠ v := hv lit (List.mem_cons_self _ _)
        have := ih3 v (fun x hx => hv x (List.mem_cons_of_mem _ hx))
        simpa [Function.update_noteq (Ne.symm hvl)] using this

theorem dropWhile_eq_filter {α : Type} (p : α → Bool) :
    ∀ l : List α, l.Pairwise (fun a b => p a = false → p b = false) →
      l.dropWhile p = l.filter (fun x => !p x) := by
  intro l
  induction l with
  | nil => intro _; rfl
  | cons a rest ih =>
    intro h
    obtain ⟨ha, hrest⟩ := List.pairwise_cons.mp h
    by_cases hp : p a = true
    · simp only [List.dropWhile_cons, hp, if_true, List.filter_cons, Bool.not_true,
        Bool.false_eq_true, if_false]
      exact ih hrest
    · have hp' : p a = false := by simpa using hp
      have hall : ∀ x ∈ rest, (!p x) = true := by
        intro x hx
        simp [ha x hx hp']
      simp only [List.dropWhile_cons, hp', Bool.false_eq_true, if_false, List.filter_cons,
        Bool.not_false, if_true, List.filter_eq_self.mpr hall]

/-- What `backjump(t)` leaves, for `t ≥ 0`, of a trail with non-decreasing
levels that holds no variable twice: the entries of level at most `t`, a prefix
of the old trail; the variable of every removed entry is cleared and every other
variable keeps its value, level and reason. -/
theorem backjump_postcondition (s : SATSolver) (t : Int) (ht : 0 ≤ t)
    (hmono : LevelsMonotone s) (hnd : TrailDistinct s) :
    (backjump s t).trail = s.trail.filter (fun l => decide (s.level l.natAbs ≤ t)) ∧
    (backjump s t).trail <+: s.trail ∧
    (∀ l ∈ s.trail, t < s.level l.natAbs →
      (backjump s t).assign l.natAbs = 0 ∧ (backjump s t).level l.natAbs = -1 ∧
      (backjump s t).reason l.natAbs = -1) ∧
    (∀ v, (∀ l ∈ s.trail, l.natAbs = v → s.level v ≤ t) →
      (backjump s t).assign v = s.assign v ∧ (backjump s t).level v = s.level v ∧
      (backjump s t).reason v = s.reason v) ∧
    (backjump s t).trail_lim.length = min s.trail_lim.length t.toNat := by
  have hndr : (s.trail.reverse.map Int.natAbs).Nodup := by
    rw [List.map_reverse]; exact List.nodup_reverse.mpr hnd
  obtain ⟨h1, h2, h3⟩ := backjump_pop_spec t s.trail.reverse s.assign s.level s.reason hndr
  have hpw : s.trail.reverse.Pairwise (fun a b =>
      (fun l : Int => decide (t < s.level l.natAbs)) a = false →
      (fun l : Int => decide (t < s.level l.natAbs)) b = false) := by
    rw [List.pairwise_reverse]
    refine List.Pairwise.imp ?_ hmono
    intro a b hab hb
    simp only [decide_eq_false_iff_not, not_lt] at hb ⊢
    omega
  have hdrop := dropWhile_eq_filter _ _ hpw
  have htrail : (backjump s t).trail =
      s.trail.filter (fun l => decide (s.level l.natAbs ≤ t)) := by
    show (backjump_pop t s.trail.reverse s.assign s.level s.reason).2.2.2.reverse = _
    rw [h1, hdrop, List.filter_reverse, List.reverse_reverse]
    apply List.filter_congr
    intro x _
    by_cases hx : s.level x.natAbs ≤ t
    · have : ¬ t < s.level x.natAbs := by omega
      simp [hx, this]
    · have : t < s.level x.natAbs := by omega
      simp [hx, this]
  have hsplit := List.takeWhile_append_dropWhile
    (fun l : Int => decide (t < s.level l.natAbs)) s.trail.reverse
  refine ⟨htrail, ?_, ?_, ?_, ?_⟩
  · show (backjump_pop t s.trail.reverse s.assign s.level s.reason).2.2.2.reverse <+: s.trail
    rw [h1]
    have := List.reverse_prefix.mpr
      (List.dropWhile_suffix (fun l : Int => decide (t < s.level l.natAbs))
        (l := s.trail.reverse))
    simpa using this
  · intro l hl hlev
    have hlr : l ∈ s.trail.reverse := List.mem_reverse.mpr hl
    rw [← hsplit] at hlr
    rcases List.mem_append.mp hlr with hin | hin
    · exact h2 l hin
    · rw [hdrop] at hin
      have := (List.mem_filter.mp hin).2
      simp at this
      omega
  · intro v hv
    apply h3 v
    intro l hl hlv
    have hmem : l ∈ s.trail := List.mem_reverse.mp (List.takeWhile_subset _ hl)
    have hp := List.mem_takeWhile_imp hl
    have := hv l hmem hlv
    simp only [decide_eq_true_eq] at hp
    rw [hlv] at hp
    omega
  · show (s.trail_lim.take t.toNat).length = _
    rw [List.length_take, Nat.min_comm]

/-! ## The DIMACS reader -/

theorem read_digits_length :
    ∀ (cs : List Char) (acc n : Nat),
      (CNFParser.read_digits cs acc n).2.2.length + (CNFParser.read_digits cs acc n).2.1
        = cs.length + n := by
  intro cs
  induction cs with
  | nil => intro acc n; simp [CNFParser.read_digits]
  | cons c rest ih =>
    intro acc n
    unfold CNFParser.read_digits
    by_cases hc : c.isDigit = true
    · simp only [hc, if_true]
      rw [ih]
      simp only [List.length_cons]
      omega
    · simp only [hc, Bool.false_eq_true, if_false, List.length_cons]

theorem read_sign_length (cs : List Char) : (CNFParser.read_sign cs).2.length ≤ cs.length := by
  unfold CNFParser.read_sign
  split <;> simp

/-- A successful extraction consumes at least one character. -/
theorem read_int_shorter (cs : List Char) (v : Int) (rest : List Char)
    (h : CNFParser.read_int cs = some (v, rest)) : rest.length < cs.length := by
  have hdrop : (cs.dropWhile CNFParser.is_space).length ≤ cs.length :=
    (List.dropWhile_suffix CNFParser.is_space).sublist.length_le
  have hle := read_sign_length (cs.dropWhile CNFParser.is_space)
  have hlen := read_digits_length (CNFParser.read_sign (cs.dropWhile CNFParser.is_space)).2 0 0
  unfold CNFParser.read_int at h
  dsimp only at h
  by_cases hn : (CNFParser.read_digits
      (CNFParser.read_sign (cs.dropWhile CNFParser.is_space)).2 0 0).2.1 = 0
  · rw [if_pos hn] at h; cases h
  · rw [if_neg hn] at h
    split_ifs at h
    all_goals
      simp only [Option.some.injEq, Prod.mk.injEq] at h
      rw [← h.2]
      omega

theorem parse_lines_cons (fuel : Nat) (line : List Char) (rest : List (List Char))
    (formula : CNFFormula) :
    CNFParser.parse_lines fuel (line :: rest) formula =
      if line.isEmpty || line.head? = some 'c' || line.head? = some 'p' then
        CNFParser.parse_lines fuel rest formula
      else
        match CNFParser.read_clause fuel line [] with
        | none => none
        | some clause =>
          if !clause.isEmpty then CNFParser.parse_lines fuel rest (formula ++ [clause])
          else CNFParser.parse_lines fuel rest formula := rfl

theorem parse_lines_nil (fuel : Nat) (formula : CNFFormula) :
    CNFParser.parse_lines fuel [] formula = some formula := rfl

/-- The clauses already collected are a prefix of the result. -/
theorem parse_lines_collected (fuel : Nat) :
    ∀ (ls : List (List Char)) (formula : CNFFormula),
      CNFParser.parse_lines fuel ls formula =
        (CNFParser.parse_lines fuel ls []).map (fun g => formula ++ g) := by
  intro ls
  induction ls with
  | nil => intro formula; simp [parse_lines_nil]
  | cons line rest ih =>
    intro formula
    rw [parse_lines_cons, parse_lines_cons]
    by_cases hc : (line.isEmpty || line.head? = some 'c' || line.head? = some 'p') = true
    · rw [if_pos hc, if_pos hc]
      exact ih formula
    · rw [if_neg hc, if_neg hc]
      cases hrc : CNFParser.read_clause fuel line [] with
      | none => rfl
      | some clause =>
        dsimp only
        by_cases hne : (!clause.isEmpty) = true
        · rw [if_pos hne, if_pos hne, ih (formula ++ [clause]), ih ([] ++ [clause])]
          cases CNFParser.parse_lines fuel rest [] with
          | none => rfl
          | some g => simp
        · rw [if_neg hne, if_neg hne]
          exact ih formula

/-- A line followed by other lines contributes what it contributes alone. -/
theorem parse_lines_head (fuel : Nat) (line : List Char) (rest : List (List Char))
    (cs : CNFFormula) (h : CNFParser.parse_lines fuel [line] [] = some cs) :
    CNFParser.parse_lines fuel (line :: rest) [] =
      (CNFParser.parse_lines fuel rest []).map (fun g => cs ++ g) := by
  rw [parse_lines_cons] at h ⊢
  by_cases hc : (line.isEmpty || line.head? = some 'c' || line.head? = some 'p') = true
  · rw [if_pos hc] at h ⊢
    rw [parse_lines_nil] at h
    cases Option.some.inj h
    cases CNFParser.parse_lines fuel rest [] <;> simp
  · rw [if_neg hc] at h ⊢
    cases hrc : CNFParser.read_clause fuel line [] with
    | none => rw [hrc] at h; cases h
    | some clause =>
      rw [hrc] at h
      dsimp only at h ⊢
      by_cases hne : (!clause.isEmpty) = true
      · rw [if_pos hne] at h ⊢
        rw [parse_lines_nil] at h
        cases Option.some.inj h
        rw [parse_lines_collected]
      · rw [if_neg hne] at h ⊢
        rw [parse_lines_nil] at h
        cases Option.some.inj h
        cases CNFParser.parse_lines fuel rest [] <;> simp

theorem get_lines_length :
    ∀ (cs cur : List Char), ∀ line ∈ CNFParser.get_lines cur cs,
      line.length ≤ cur.length + cs.length := by
  intro cs
  induction cs with
  | nil =>
    intro cur line hl
    unfold CNFParser.get_lines at hl
    split at hl
    · cases hl
    · rw [List.mem_singleton.mp hl]; simp
  | cons c rest ih =>
    intro cur line hl
    unfold CNFParser.get_lines at hl
    split at hl
    · rcases List.mem_cons.mp hl with rfl | h1
      · simp
      · have := ih [] line h1
        simp only [List.length_nil, List.length_cons] at this ⊢
        omega
    · have := ih (cur ++ [c]) line hl
      simp only [List.length_append, List.length_singleton, List.length_cons,
        List.length_nil] at this ⊢
      omega

/-- C13 (counterexample to the claim as stated): the two lines `1 2` and `3 0`
yield the two clauses `(1 2)` and `(3)`, not the single clause `(1 2 3)`. -/
theorem parse_two_lines_two_clauses :
    two_line_clause = ['1', ' ', '2', '\n', '3', ' ', '0', '\n'] ∧
    CNFParser.parse 10 two_line_clause = some [[1, 2], [3]] ∧
    CNFParser.parse 10 two_line_clause ≠ some [[1, 2, 3]] := by
  refine ⟨by decide!, by decide!, by decide!⟩

/-! ## The passes of the loop of `solve`, case by case -/

/-- A pass that hands over to a next pass is a conflict pass above level 0 or a
decision pass. -/
theorem solve_iter_next_cases (fuel : Nat) (s t : SATSolver)
    (h : solve_iter fuel s = some (Step.next t)) :
    (∃ s1 ci s2 learned, propagate fuel s = some (s1, some ci) ∧ s1.trail_lim ≠ [] ∧
      analyze_conflict fuel s1 ci = some (s2, learned) ∧
      t = backjump (add_learned_clause s2 learned)
        (backjump_target (add_learned_clause s2 learned) learned)) ∨
    (∃ s1, propagate fuel s = some (s1, none) ∧ pick_branch_var s1 ≠ 0 ∧
      t = assign_lit { s1 with trail_lim := s1.trail_lim ++ [s1.trail.length] }
        (pick_branch_var s1 : Int) (-1)) := by
  unfold solve_iter at h
  cases hp : propagate fuel s with
  | none => rw [hp] at h; cases h
  | some r =>
    obtain ⟨s1, c⟩ := r
    rw [hp] at h
    cases c with
    | some ci =>
      left
      simp only at h
      split at h
      · cases h
      · rename_i hne
        cases ha : analyze_conflict fuel s1 ci with
        | none => rw [ha] at h; cases h
        | some r2 =>
          obtain ⟨s2, learned⟩ := r2
          rw [ha] at h
          simp only [Option.some.injEq, Step.next.injEq] at h
          refine ⟨s1, ci, s2, learned, rfl, ?_, ha, h.symm⟩
          intro he
          apply hne
          rw [he]; rfl
    | none =>
      right
      simp only at h
      split at h
      · cases h
      · rename_i hv
        simp only [Option.some.injEq, Step.next.injEq] at h
        exact ⟨s1, rfl, hv, h.symm⟩

/-! ## Which watch lists hold a clause -/

theorem watch_literal_count (w : Int → List Nat) (a : Int) (i : Nat) (lit : Int) (k : Nat) :
    (watch_literal w a i lit).count k =
      (w lit).count k + (if k = i then [a].count lit else 0) := by
  unfold watch_literal
  by_cases h1 : lit = a
  · by_cases h2 : k = i
    · subst h1; subst h2
      simp
    · have h3 : ¬ i = k := fun h => h2 h.symm
      subst h1
      simp [h2, List.count_cons, h3]
  · have h4 : ¬ a = lit := fun h => h1 h.symm
    simp [h1, List.count_cons, h4]

theorem watch_two_count (w : Int → List Nat) (cl : Clause) (i : Nat) (lit : Int) (k : Nat) :
    ((match cl with
      | [] => w
      | [a] => watch_literal (watch_literal w a i) a i
      | a :: b :: _ => watch_literal (watch_literal w a i) b i) lit).count k =
      (w lit).count k + (if k = i then (watched_lits cl).count lit else 0) := by
  match cl with
  | [] => simp [watched_lits]
  | [a] =>
    simp only [watch_literal_count, watched_lits]
    by_cases h : k = i
    · simp only [h, if_true, List.count_cons, List.count_nil]; omega
    · simp [h]
  | a :: b :: rest =>
    simp only [watch_literal_count, watched_lits]
    by_cases h : k = i
    · simp only [h, if_true, List.count_cons, List.count_nil]; omega
    · simp [h]

/-- After `init_watches` from clause index `i` on, every clause index is in the
watch lists as often as before, plus once for each of its watched literals. -/
theorem init_watches_from_count (rest : CNFFormula) :
    ∀ (w : Int → List Nat) (i : Nat) (lit : Int) (k : Nat),
      (init_watches_from w i rest lit).count k =
        (w lit).count k +
          (if i ≤ k then (watched_lits (rest.getD (k - i) [])).count lit else 0) := by
  induction rest with
  | nil => intro w i lit k; simp [init_watches_from, watched_lits]
  | cons cl rest ih =>
    intro w i lit k
    have hstep : init_watches_from w i (cl :: rest) =
        init_watches_from (match cl with
          | [] => w
          | [a] => watch_literal (watch_literal w a i) a i
          | a :: b :: _ => watch_literal (watch_literal w a i) b i) (i + 1) rest := by
      match cl with
      | [] => rfl
      | [a] => rfl
      | a :: b :: r => rfl
    rw [hstep, ih, watch_two_count]
    by_cases h1 : k = i
    · subst h1
      simp
    · by_cases h2 : i ≤ k
      · have h3 : i + 1 ≤ k := by omega
        have h4 : k - i = (k - (i + 1)) + 1 := by omega
        simp only [h1, if_false, h2, h3, if_true, h4, List.getD_cons_succ]
        omega
      · have h3 : ¬ i + 1 ≤ k := by omega
        simp [h1, h2, h3]

theorem watch_exact_start (f : CNFFormula) : WatchExact (solve_start f) := by
  intro lit k
  have hg := solve_start_grows f
  rw [hg.watches, hg.formula]
  show (init_watches_from (fun _ => []) 0 f lit).count k = _
  rw [init_watches_from_count]
  simp [mk_solver]

theorem watch_exact_add_learned (s : SATSolver) (cl : List Int) (h : WatchExact s) :
    WatchExact (add_learned_clause s cl) := by
  intro lit k
  have hw : (add_learned_clause s cl).watches lit =
      (match cl with
        | [] => s.watches
        | [a] => watch_literal (watch_literal s.watches a s.formula.length) a s.formula.length
        | a :: b :: _ =>
          watch_literal (watch_literal s.watches a s.formula.length) b s.formula.length) lit := by
    unfold add_learned_clause
    match cl with
    | [] => rfl
    | [a] => rfl
    | a :: b :: r => rfl
  have hf : (add_learned_clause s cl).formula = s.formula ++ [cl] := rfl
  rw [hw, hf]
  refine (watch_two_count s.watches cl s.formula.length lit k).trans ?_
  rw [h lit k]
  by_cases h1 : k < s.formula.length
  · have h2 : ¬ k = s.formula.length := by omega
    rw [List.getD_append _ _ _ _ h1]
    simp [h2]
  · rw [List.getD_eq_default _ _ (by omega), List.getD_append_right _ _ _ _ (by omega)]
    by_cases h2 : k = s.formula.length
    · subst h2
      simp [watched_lits]
    · have h3 : k - s.formula.length = (k - s.formula.length - 1) + 1 := by omega
      rw [h3]
      simp [h2, watched_lits]

theorem watch_exact_step {s t : SATSolver} (fuel : Nat) (h : WatchExact s)
    (hstep : solve_iter fuel s = some (Step.next t)) : WatchExact t := by
  rcases solve_iter_next_cases fuel s t hstep with
    ⟨s1, ci, s2, learned, hp, _, ha, rfl⟩ | ⟨s1, hp, _, rfl⟩
  · have hg := propagate_grows fuel s _ hp
    obtain ⟨_, hf, _, _, _, _, _, _, hw⟩ := analyze_conflict_fields fuel s1 s2 ci learned ha
    have h2 : WatchExact s2 := by
      intro lit k
      rw [hw, hf, hg.watches, hg.formula]
      exact h lit k
    exact watch_exact_add_learned s2 learned h2
  · have hg := propagate_grows fuel s _ hp
    intro lit k
    show (s1.watches lit).count k = (watched_lits (s1.formula.getD k [])).count lit
    rw [hg.watches, hg.formula]
    exact h lit k

theorem watch_exact_reachable {f : CNFFormula} {s : SATSolver} (h : Reachable f s) :
    WatchExact s := by
  induction h with
  | start => exact watch_exact_start f
  | step fuel s t _ hstep ih => exact watch_exact_step fuel ih hstep

/-- C18 (amended claim): at every test of the loop of `solve`, a clause of the
store with two or more literals is in the watch lists of its first two literals
and in no other list: once in the list of each when they differ, twice in the
list of the one literal when the clause repeats its first literal in second
place. -/
theorem watches_are_first_two (f : CNFFormula) (s : SATSolver) (hs : Reachable f s)
    (k : Nat) (a b : Int) (rest : Clause) (hk : s.formula.getD k [] = a :: b :: rest) :
    (∀ lit, k ∈ s.watches lit ↔ lit = a ∨ lit = b) ∧
    (a ≠ b → (s.watches a).count k = 1 ∧ (s.watches b).count k = 1) ∧
    (a = b → (s.watches a).count k = 2) := by
  have hw := watch_exact_reachable hs
  have hc : ∀ lit, (s.watches lit).count k = ([a, b] : List Int).count lit := by
    intro lit
    rw [hw lit k, hk]
    rfl
  refine ⟨?_, ?_, ?_⟩
  · intro lit
    rw [← List.count_pos_iff, hc lit, List.count_pos_iff]
    simp
  · intro hab
    have hba : ¬ b = a := fun h => hab h.symm
    rw [hc a, hc b]
    simp [List.count_cons, hab, hba]
  · intro hab
    rw [hc a, hab]
    simp [List.count_cons]

theorem watches_are_first_two_witness :
    lc_s5.formula.getD 3 [] = [3, 2, 1] ∧
    (∀ lit, 3 ∈ lc_s5.watches lit ↔ lit = 3 ∨ lit = 2) ∧
    ((3 : Int) ≠ 2 → (lc_s5.watches 3).count 3 = 1 ∧ (lc_s5.watches 2).count 3 = 1) :=
  have h := watches_are_first_two late_conflict lc_s5
    (Reachable.step 10 lc_s2 lc_s5 lc_reach_s2 (step_of_is_next _ _ (by decide!)))
    3 3 2 [1] (by decide!)
  ⟨by decide!, h.1, h.2.1⟩

/-- C18 (counterexample to the claim as stated): on the input `(1 1)` the clause
has two literals, and at the first test of the loop of `solve` it is in the
watch list of the literal `1` only, so not in the lists of two distinct
literals. -/
theorem watches_repeated_literal :
    Reachable repeated_literal (solve_start repeated_literal) ∧
    (solve_start repeated_literal).formula.getD 0 [] = [1, 1] ∧
    ∀ a b, 0 ∈ (solve_start repeated_literal).watches a →
      0 ∈ (solve_start repeated_literal).watches b → a = b := by
  have hw := watch_exact_start repeated_literal
  have hf : (solve_start repeated_literal).formula.getD 0 [] = [1, 1] := by decide!
  have hone : ∀ a, 0 ∈ (solve_start repeated_literal).watches a → a = 1 := by
    intro a ha
    have hpos := List.count_pos_iff.mpr ha
    rw [hw a 0, hf] at hpos
    have hmem : a ∈ watched_lits [1, 1] := List.count_pos_iff.mp hpos
    simpa [watched_lits] using hmem
  exact ⟨Reachable.start, hf, fun a b ha hb => (hone a ha).trans (hone b hb).symm⟩

/-! ## Induction over the assignments made by `propagate` -/

/-- A property of the state that every assignment of a unit clause's literal
keeps, is kept by the loop over a watch list. -/
theorem propagate_watchers_induct (P : SATSolver → Prop)
    (hstep : ∀ (s : SATSolver) (ci : Nat), P s →
      (scan_clause s.assign (s.formula.getD ci []) 0 0).satisfied = false →
      (scan_clause s.assign (s.formula.getD ci []) 0 0).unassigned_count = 1 →
      s.assign (scan_clause s.assign (s.formula.getD ci []) 0 0).last_unassigned.natAbs = 0 →
      P (assign_lit s (scan_clause s.assign (s.formula.getD ci []) 0 0).last_unassigned ci)) :
    ∀ (ws : List Nat) (s : SATSolver), P s → P (propagate_watchers s ws).1 := by
  intro ws
  induction ws with
  | nil => intro s hs; exact hs
  | cons ci rest ih =>
    intro s hs
    unfold propagate_watchers
    simp only
    split
    · exact ih s hs
    · rename_i hsat
      split
      · exact hs
      · split
        · rename_i hone
          split
          · rename_i h0
            exact ih _ (hstep s ci hs (by simpa using hsat) hone h0)
          · exact ih s hs
        · exact ih s hs

theorem propagate_loop_induct (P : SATSolver → Prop)
    (hstep : ∀ (s : SATSolver) (ci : Nat), P s →
      (scan_clause s.assign (s.formula.getD ci []) 0 0).satisfied = false →
      (scan_clause s.assign (s.formula.getD ci []) 0 0).unassigned_count = 1 →
      s.assign (scan_clause s.assign (s.formula.getD ci []) 0 0).last_unassigned.natAbs = 0 →
      P (assign_lit s (scan_clause s.assign (s.formula.getD ci []) 0 0).last_unassigned ci))
    (n : Nat) :
    ∀ (s : SATSolver) (idx : Nat) (r : SATSolver × Option Nat), P s →
      propagate_loop n s idx = some r → P r.1 := by
  induction n with
  | zero => intro s idx r _ h; simp [propagate_loop] at h
  | succ n ih =>
    intro s idx r hs h
    unfold propagate_loop at h
    by_cases hlt : idx < s.trail.length
    · simp only [hlt, if_true] at h
      have hg := propagate_watchers_induct P hstep (s.watches (-s.trail.getD idx 0)) s hs
      rcases hw : propagate_watchers s (s.watches (-s.trail.getD idx 0)) with ⟨s1, c⟩
      rw [hw] at h hg
      cases c with
      | some ci =>
        simp only [Option.some.injEq] at h
        subst h; exact hg
      | none => exact ih s1 (idx + 1) r hg h
    · simp only [hlt, if_false, Option.some.injEq] at h
      subst h; exact hs

/-- The bootstrap loop of `solve` keeps what every assignment of an unassigned
literal at level 0 keeps. -/
theorem solve_units_induct (P : SATSolver → Prop)
    (hstep : ∀ (s : SATSolver) (lit : Int) (ci : Nat), P s → s.assign lit.natAbs = 0 →
      P (assign_lit s lit ci)) (rest : CNFFormula) :
    ∀ (s : SATSolver) (ci : Nat), P s → P (solve_units s ci rest) := by
  induction rest with
  | nil => intro s ci hs; exact hs
  | cons cl rest ih =>
    intro s ci hs
    match cl with
    | [] => exact ih s (ci + 1) hs
    | [lit] =>
      unfold solve_units
      split
      · rename_i h0
        exact ih _ (ci + 1) (hstep s lit ci hs h0)
      · exact ih s (ci + 1) hs
    | a :: b :: r => exact ih s (ci + 1) hs

/-! ## What a scan that finds a unit clause has seen -/

/-- A scan that ends unsatisfied without having counted an unassigned literal
leaves `last_unassigned` as it was. -/
theorem scan_last_same (assign : Nat → Int) (cl : Clause) :
    ∀ (cnt : Nat) (last : Int), (scan_clause assign cl cnt last).satisfied = false →
      (scan_clause assign cl cnt last).unassigned_count = cnt →
      (scan_clause assign cl cnt last).last_unassigned = last := by
  induction cl with
  | nil => intro cnt last _ _; rfl
  | cons a rest ih =>
    intro cnt last hs hc
    unfold scan_clause at hs hc ⊢
    by_cases h0 : assign a.natAbs = 0
    · simp only [h0, if_true] at hs hc
      have := scan_count_ge assign rest (cnt + 1) a
      omega
    · simp only [h0, if_false] at hs hc ⊢
      by_cases ht : (assign a.natAbs = 1 ∧ a > 0) ∨ (assign a.natAbs = -1 ∧ a < 0)
      · simp only [ht, if_true] at hs
        cases hs
      · simp only [ht, if_false] at hs hc ⊢
        exact ih cnt last hs hc

/-- A scan that ends unsatisfied with one unassigned literal counted: the
clause is `last_unassigned`, which is unassigned, among literals that are
assigned and not true. -/
theorem scan_unit (assign : Nat → Int) (cl : Clause) :
    ∀ (cnt : Nat) (last : Int), (scan_clause assign cl cnt last).satisfied = false →
      (scan_clause assign cl cnt last).unassigned_count = cnt + 1 →
      ∃ pre post, cl = pre ++ (scan_clause assign cl cnt last).last_unassigned :: post ∧
        assign (scan_clause assign cl cnt last).last_unassigned.natAbs = 0 ∧
        ∀ m ∈ pre ++ post, assign m.natAbs ≠ 0 ∧ ¬ lit_true assign m := by
  induction cl with
  | nil => intro cnt last _ hc; simp [scan_clause] at hc
  | cons a rest ih =>
    intro cnt last hs hc
    unfold scan_clause at hs hc ⊢
    by_cases h0 : assign a.natAbs = 0
    · simp only [h0, if_true] at hs hc ⊢
      have hlast := scan_last_same assign rest (cnt + 1) a hs hc
      have hall := scan_conflict assign rest (cnt + 1) a hs hc
      rw [hlast]
      exact ⟨[], rest, rfl, h0, fun m hm => hall m (by simpa using hm)⟩
    · simp only [h0, if_false] at hs hc ⊢
      by_cases ht : (assign a.natAbs = 1 ∧ a > 0) ∨ (assign a.natAbs = -1 ∧ a < 0)
      · simp only [ht, if_true] at hs
        cases hs
      · simp only [ht, if_false] at hs hc ⊢
        obtain ⟨pre, post, hsplit, hu, hall⟩ := ih cnt last hs hc
        refine ⟨a :: pre, post, by rw [List.cons_append, ← hsplit], hu, ?_⟩
        intro m hm
        rcases List.mem_append.mp hm with h1 | h1
        · rcases List.mem_cons.mp h1 with rfl | h2
          · exact ⟨h0, ht⟩
          · exact hall m (List.mem_append_left _ h2)
        · exact hall m (List.mem_append_right _ h1)

/-! ## The trail invariant -/

theorem trail_inv_start (f : CNFFormula) : TrailInv (mk_solver f) := by
  refine ⟨?_, ?_, ?_, ?_, ?_, ?_, ?_, ?_⟩ <;> simp [mk_solver]

/-- Assigning an unassigned literal keeps the trail invariant, both with a
reason clause at the current level and as the decision of a new level, whose
marker is the length of the trail. -/
theorem trail_inv_push (s : SATSolver) (lit : Int) (ci : Int) (lim : List Nat)
    (h : TrailInv s) (h0 : s.assign lit.natAbs = 0)
    (hlim : (lim = s.trail_lim ∧ ci ≠ -1) ∨ lim = s.trail_lim ++ [s.trail.length]) :
    TrailInv (assign_lit { s with trail_lim := lim } lit ci) := by
  have hvar : ∀ l ∈ s.trail, l.natAbs ≠ lit.natAbs := by
    intro l hl heq
    have := h.trail_true l hl
    rw [heq, h0] at this
    exact assign_lit_value l this.symm
  have hget : ∀ i, i < s.trail.length →
      (s.trail ++ [lit]).getD i 0 = s.trail.getD i 0 ∧ s.trail.getD i 0 ∈ s.trail := by
    intro i hi
    refine ⟨List.getD_append _ _ _ _ hi, ?_⟩
    rw [List.getD_eq_getElem _ _ hi]
    exact List.getElem_mem _
  have hlast : (s.trail ++ [lit]).getD s.trail.length 0 = lit := by
    rw [List.getD_append_right _ _ _ _ (le_refl _)]
    simp
  have hlimall : ∀ m ∈ s.trail_lim, decide (m ≤ s.trail.length) = true := by
    intro m hm
    have := h.lim_lt m hm
    simp; omega
  refine ⟨?_, ?_, ?_, ?_, ?_, ?_, ?_, ?_⟩
  · show ((s.trail ++ [lit]).map Int.natAbs).Nodup
    rw [List.map_append, List.nodup_append]
    refine ⟨h.distinct, by simp, ?_⟩
    intro x hx hx1
    obtain ⟨l, hl, rfl⟩ := List.mem_map.mp hx
    simp only [List.map_cons, List.map_nil, List.mem_singleton] at hx1
    exact hvar l hl hx1
  · intro l hl
    show Function.update s.assign lit.natAbs (if lit > 0 then 1 else -1) l.natAbs = _
    rcases List.mem_append.mp hl with h1 | h1
    · rw [Function.update_noteq (hvar l h1)]
      exact h.trail_true l h1
    · rw [List.mem_singleton.mp h1, Function.update_same]
  · intro v hv
    by_cases e : v = lit.natAbs
    · exact ⟨lit, List.mem_append_right _ (List.mem_singleton.mpr rfl), e.symm⟩
    · have hv1 : s.assign v ≠ 0 := by
        have : Function.update s.assign lit.natAbs (if lit > 0 then 1 else -1) v ≠ 0 := hv
        rwa [Function.update_noteq e] at this
      obtain ⟨l, hl, hlv⟩ := h.on_trail v hv1
      exact ⟨l, List.mem_append_left _ hl, hlv⟩
  · intro i hi
    show Function.update s.level lit.natAbs (lim.length : Int) ((s.trail ++ [lit]).getD i 0).natAbs
      = ((lim.filter (fun m => decide (m ≤ i))).length : Int)
    have hi1 : i < s.trail.length + 1 := by
      have : i < (s.trail ++ [lit]).length := hi
      simpa using this
    by_cases hlt : i < s.trail.length
    · obtain ⟨hg1, hg2⟩ := hget i hlt
      rw [hg1, Function.update_noteq (hvar _ hg2), h.levels i hlt]
      rcases hlim with ⟨rfl, _⟩ | rfl
      · rfl
      · rw [List.filter_append]
        have : ¬ s.trail.length ≤ i := by omega
        simp [this]
    · have hie : i = s.trail.length := by omega
      subst hie
      rw [hlast, Function.update_same]
      rcases hlim with ⟨rfl, _⟩ | rfl
      · rw [List.filter_eq_self.mpr hlimall]
      · rw [List.filter_append, List.filter_eq_self.mpr hlimall]
        simp
  · show lim.Pairwise (· < ·)
    rcases hlim with ⟨rfl, _⟩ | rfl
    · exact h.lim_sorted
    · rw [List.pairwise_append]
      refine ⟨h.lim_sorted, List.pairwise_singleton _ _, ?_⟩
      intro a ha b hb
      rw [List.mem_singleton.mp hb]
      exact h.lim_lt a ha
  · intro m hm
    show m < (s.trail ++ [lit]).length
    have hm1 : m ∈ lim := hm
    rw [List.length_append, List.length_singleton]
    rcases hlim with ⟨rfl, _⟩ | rfl
    · have := h.lim_lt m hm1
      omega
    · rcases List.mem_append.mp hm1 with h1 | h1
      · have := h.lim_lt m h1
        omega
      · rw [List.mem_singleton.mp h1]
        omega
  · intro i hi hr
    show i ∈ lim
    have hi1 : i < s.trail.length + 1 := by
      have : i < (s.trail ++ [lit]).length := hi
      simpa using this
    have hr1 : Function.update s.reason lit.natAbs ci ((s.trail ++ [lit]).getD i 0).natAbs = -1 := hr
    by_cases hlt : i < s.trail.length
    · obtain ⟨hg1, hg2⟩ := hget i hlt
      rw [hg1, Function.update_noteq (hvar _ hg2)] at hr1
      have := h.decisions i hlt hr1
      rcases hlim with ⟨rfl, _⟩ | rfl
      · exact this
      · exact List.mem_append_left _ this
    · have hie : i = s.trail.length := by omega
      subst hie
      rw [hlast, Function.update_same] at hr1
      rcases hlim with ⟨rfl, hne⟩ | rfl
      · exact absurd hr1 hne
      · exact List.mem_append_right _ (List.mem_singleton.mpr rfl)
  · intro v hv
    have hv1 : Function.update s.assign lit.natAbs (if lit > 0 then 1 else -1) v = 0 := hv
    have e : v ≠ lit.natAbs := by
      intro e
      rw [e, Function.update_same] at hv1
      exact assign_lit_value lit hv1
    rw [Function.update_noteq e] at hv1
    show Function.update s.level lit.natAbs (lim.length : Int) v = -1 ∧
      Function.update s.reason lit.natAbs ci v = -1
    rw [Function.update_noteq e, Function.update_noteq e]
    exact h.cleared v hv1

theorem trail_inv_assign_lit (s : SATSolver) (lit : Int) (ci : Nat) (h : TrailInv s)
    (h0 : s.assign lit.natAbs = 0) : TrailInv (assign_lit s lit ci) :=
  trail_inv_push s lit ci s.trail_lim h h0 (Or.inl ⟨rfl, by omega⟩)

theorem trail_inv_decision (s : SATSolver) (v : Nat) (h : TrailInv s) (h0 : s.assign v = 0) :
    TrailInv (assign_lit { s with trail_lim := s.trail_lim ++ [s.trail.length] } (v : Int) (-1)) :=
  trail_inv_push s v (-1) _ h (by simpa using h0) (Or.inr rfl)

/-! ## The trail invariant and `backjump` -/

theorem filter_le_take (lim : List Nat) (hs : lim.Pairwise (· < ·)) :
    ∀ (n i : Nat), (lim.filter (fun m => decide (m ≤ i))).length ≤ n →
      (lim.take n).filter (fun m => decide (m ≤ i)) = lim.filter (fun m => decide (m ≤ i)) := by
  induction lim with
  | nil => intro n i _; simp
  | cons x rest ih =>
    intro n i hlen
    obtain ⟨hx, hrest⟩ := List.pairwise_cons.mp hs
    by_cases hxi : x ≤ i
    · cases n with
      | zero => simp [List.filter_cons, hxi] at hlen
      | succ k =>
        have hlen1 : (rest.filter (fun m => decide (m ≤ i))).length ≤ k := by
          simp only [List.filter_cons, hxi, decide_True, if_true, List.length_cons] at hlen
          omega
        simp only [List.take_succ_cons, List.filter_cons, hxi, decide_True, if_true]
        rw [ih hrest k i hlen1]
    · have hnone : ∀ l : List Nat, (∀ m ∈ l, m ∈ rest) →
          l.filter (fun m => decide (m ≤ i)) = [] := by
        intro l hl
        apply List.filter_eq_nil_iff.mpr
        intro m hm
        have := hx m (hl m hm)
        simp; omega
      cases n with
      | zero => simp [List.filter_cons, hxi, hnone rest (fun m hm => hm)]
      | succ k =>
        simp only [List.take_succ_cons, List.filter_cons, hxi, decide_False,
          Bool.false_eq_true, if_false]
        rw [hnone rest (fun m hm => hm), hnone (rest.take k) (fun m hm => List.mem_of_mem_take hm)]

theorem filter_le_of_mem_take (lim : List Nat) (hs : lim.Pairwise (· < ·)) :
    ∀ (n m : Nat), m ∈ lim.take n → (lim.filter (fun x => decide (x ≤ m))).length ≤ n := by
  induction lim with
  | nil => intro n m hm; simp at hm
  | cons x rest ih =>
    intro n m hm
    obtain ⟨hx, hrest⟩ := List.pairwise_cons.mp hs
    cases n with
    | zero => simp at hm
    | succ k =>
      rw [List.take_succ_cons] at hm
      rcases List.mem_cons.mp hm with rfl | hm1
      · have hnone : rest.filter (fun x => decide (x ≤ m)) = [] := by
          apply List.filter_eq_nil_iff.mpr
          intro y hy
          have := hx y hy
          simp; omega
        simp [List.filter_cons, hnone]
      · have := ih hrest k m hm1
        have hle : ((x :: rest).filter (fun y => decide (y ≤ m))).length ≤
            (rest.filter (fun y => decide (y ≤ m))).length + 1 := by
          rw [List.filter_cons]
          split <;> simp
        omega

theorem filter_le_mono (lim : List Nat) (i j : Nat) (hij : i ≤ j) :
    (lim.filter (fun m => decide (m ≤ i))).length ≤
      (lim.filter (fun m => decide (m ≤ j))).length := by
  induction lim with
  | nil => simp
  | cons x rest ih =>
    by_cases h1 : x ≤ i
    · have h2 : x ≤ j := by omega
      simp only [List.filter_cons, h1, h2, decide_True, if_true, List.length_cons]
      omega
    · by_cases h2 : x ≤ j
      · simp only [List.filter_cons, h1, h2, decide_True, decide_False, if_true,
          Bool.false_eq_true, if_false, List.length_cons]
        omega
      · simp only [List.filter_cons, h1, h2, decide_False, Bool.false_eq_true, if_false]
        exact ih

/-- Under the trail invariant the levels do not decrease along the trail. -/
theorem trail_inv_monotone (s : SATSolver) (h : TrailInv s) : LevelsMonotone s := by
  unfold LevelsMonotone
  rw [List.pairwise_iff_getElem]
  intro i j hi hj hij
  have h1 := h.levels i hi
  have h2 := h.levels j hj
  rw [List.getD_eq_getElem _ _ hi] at h1
  rw [List.getD_eq_getElem _ _ hj] at h2
  rw [h1, h2]
  have := filter_le_mono s.trail_lim i j (by omega)
  exact_mod_cast this

/-- What `backjump` does to a trail with non-decreasing levels and without a
repeated variable: it cuts off a tail of entries above the target level, clears
their variables, and leaves every other variable alone. -/
theorem backjump_effect (s : SATSolver) (t : Int) (hnd : TrailDistinct s)
    (hmono : LevelsMonotone s) :
    ∃ removed, s.trail = (backjump s t).trail ++ removed ∧
      (∀ l ∈ (backjump s t).trail, s.level l.natAbs ≤ t) ∧
      (∀ l ∈ removed, t < s.level l.natAbs) ∧
      (∀ l ∈ removed, (backjump s t).assign l.natAbs = 0 ∧
        (backjump s t).level l.natAbs = -1 ∧ (backjump s t).reason l.natAbs = -1) ∧
      (∀ v, (∀ l ∈ removed, l.natAbs ≠ v) →
        (backjump s t).assign v = s.assign v ∧ (backjump s t).level v = s.level v ∧
        (backjump s t).reason v = s.reason v) := by
  have hndr : (s.trail.reverse.map Int.natAbs).Nodup := by
    rw [List.map_reverse]; exact List.nodup_reverse.mpr hnd
  obtain ⟨h1, h2, h3⟩ := backjump_pop_spec t s.trail.reverse s.assign s.level s.reason hndr
  have hpw : s.trail.reverse.Pairwise (fun a b =>
      (fun l : Int => decide (t < s.level l.natAbs)) a = false →
      (fun l : Int => decide (t < s.level l.natAbs)) b = false) := by
    rw [List.pairwise_reverse]
    refine List.Pairwise.imp ?_ hmono
    intro a b hab hb
    simp only [decide_eq_false_iff_not, not_lt] at hb ⊢
    omega
  have hdrop := dropWhile_eq_filter _ _ hpw
  have htrail : (backjump s t).trail =
      (s.trail.reverse.dropWhile (fun l : Int => decide (t < s.level l.natAbs))).reverse := by
    show (backjump_pop t s.trail.reverse s.assign s.level s.reason).2.2.2.reverse = _
    rw [h1]
  refine ⟨(s.trail.reverse.takeWhile (fun l : Int => decide (t < s.level l.natAbs))).reverse,
    ?_, ?_, ?_, ?_, ?_⟩
  · rw [htrail, ← List.reverse_append, List.takeWhile_append_dropWhile, List.reverse_reverse]
  · intro l hl
    rw [htrail, List.mem_reverse, hdrop] at hl
    have := (List.mem_filter.mp hl).2
    simp at this
    exact this
  · intro l hl
    have := List.mem_takeWhile_imp (List.mem_reverse.mp hl)
    simpa using this
  · intro l hl
    exact h2 l (List.mem_reverse.mp hl)
  · intro v hv
    exact h3 v (fun l hl => hv l (List.mem_reverse.mpr hl))

/-- `backjump` to a target level `≥ 0` keeps the trail invariant. -/
theorem trail_inv_backjump (s : SATSolver) (t : Int) (ht : 0 ≤ t) (h : TrailInv s) :
    TrailInv (backjump s t) := by
  obtain ⟨removed, hsplit, hkept, hrem, hclear, hsame⟩ :=
    backjump_effect s t h.distinct (trail_inv_monotone s h)
  have hlim : (backjump s t).trail_lim = s.trail_lim.take t.toNat := rfl
  have hnd := h.distinct
  rw [hsplit, List.map_append, List.nodup_append] at hnd
  obtain ⟨hnd1, _, hdisj⟩ := hnd
  have hkeepvar : ∀ l ∈ (backjump s t).trail, ∀ r ∈ removed, r.natAbs ≠ l.natAbs := by
    intro l hl r hr heq
    exact hdisj (List.mem_map.mpr ⟨l, hl, rfl⟩) (List.mem_map.mpr ⟨r, hr, heq⟩)
  have hlen : (backjump s t).trail.length ≤ s.trail.length := by
    rw [hsplit, List.length_append]; omega
  have hget : ∀ i, i < (backjump s t).trail.length →
      s.trail.getD i 0 = (backjump s t).trail.getD i 0 ∧
      (backjump s t).trail.getD i 0 ∈ (backjump s t).trail := by
    intro i hi
    refine ⟨?_, ?_⟩
    · rw [hsplit, List.getD_append _ _ _ _ hi]
    · rw [List.getD_eq_getElem _ _ hi]
      exact List.getElem_mem _
  have hlevel_le : ∀ i, i < (backjump s t).trail.length →
      (s.trail_lim.filter (fun m => decide (m ≤ i))).length ≤ t.toNat := by
    intro i hi
    obtain ⟨hg1, hg2⟩ := hget i hi
    have h1 := h.levels i (by omega)
    rw [hg1] at h1
    have h2 := hkept _ hg2
    rw [h1] at h2
    omega
  have hpos : ∀ i, i < s.trail.length → s.level (s.trail.getD i 0).natAbs ≤ t →
      i < (backjump s t).trail.length := by
    intro i hi hle
    by_contra hge
    have hge1 : (backjump s t).trail.length ≤ i := by omega
    have hi2 : i - (backjump s t).trail.length < removed.length := by
      have : s.trail.length = (backjump s t).trail.length + removed.length := by
        rw [hsplit, List.length_append]
      omega
    have hmem : s.trail.getD i 0 ∈ removed := by
      rw [hsplit, List.getD_append_right _ _ _ _ hge1, List.getD_eq_getElem _ _ hi2]
      exact List.getElem_mem _
    have := hrem _ hmem
    omega
  refine ⟨hnd1, ?_, ?_, ?_, ?_, ?_, ?_, ?_⟩
  · intro l hl
    rw [(hsame l.natAbs (hkeepvar l hl)).1]
    exact h.trail_true l (by rw [hsplit]; exact List.mem_append_left _ hl)
  · intro v hv
    have hnot : ∀ r ∈ removed, r.natAbs ≠ v := by
      intro r hr heq
      apply hv
      rw [← heq]
      exact (hclear r hr).1
    rw [(hsame v hnot).1] at hv
    obtain ⟨l, hl, hlv⟩ := h.on_trail v hv
    rw [hsplit] at hl
    rcases List.mem_append.mp hl with h1 | h1
    · exact ⟨l, h1, hlv⟩
    · exact absurd hlv (hnot l h1)
  · intro i hi
    obtain ⟨hg1, hg2⟩ := hget i hi
    rw [(hsame _ (hkeepvar _ hg2)).2.1, ← hg1, h.levels i (by omega), hlim,
      filter_le_take s.trail_lim h.lim_sorted t.toNat i (hlevel_le i hi)]
  · rw [hlim]
    exact List.Pairwise.sublist (List.take_sublist _ _) h.lim_sorted
  · intro m hm
    rw [hlim] at hm
    have hm1 : m < s.trail.length := h.lim_lt m (List.mem_of_mem_take hm)
    apply hpos m hm1
    rw [h.levels m hm1]
    have := filter_le_of_mem_take s.trail_lim h.lim_sorted t.toNat m hm
    omega
  · intro i hi hr
    obtain ⟨hg1, hg2⟩ := hget i hi
    rw [(hsame _ (hkeepvar _ hg2)).2.2, ← hg1] at hr
    have hmem := h.decisions i (by omega) hr
    have hfil : i ∈ s.trail_lim.filter (fun m => decide (m ≤ i)) :=
      List.mem_filter.mpr ⟨hmem, by simp⟩
    rw [← filter_le_take s.trail_lim h.lim_sorted t.toNat i (hlevel_le i hi)] at hfil
    rw [hlim]
    exact (List.mem_filter.mp hfil).1
  · intro v hv
    by_cases hex : ∃ r ∈ removed, r.natAbs = v
    · obtain ⟨r, hr, rfl⟩ := hex
      exact (hclear r hr).2
    · have hnot : ∀ r ∈ removed, r.natAbs ≠ v := fun r hr heq => hex ⟨r, hr, heq⟩
      obtain ⟨e1, e2, e3⟩ := hsame v hnot
      rw [e1] at hv
      rw [e2, e3]
      exact h.cleared v hv

/-! ## The trail invariant holds at every test of the loop -/

theorem trail_inv_of_fields (s t : SATSolver) (h : TrailInv s) (e1 : t.assign = s.assign)
    (e2 : t.level = s.level) (e3 : t.reason = s.reason) (e4 : t.trail = s.trail)
    (e5 : t.trail_lim = s.trail_lim) : TrailInv t := by
  refine ⟨?_, ?_, ?_, ?_, ?_, ?_, ?_, ?_⟩
  · rw [e4]; exact h.distinct
  · rw [e4, e1]; exact h.trail_true
  · rw [e4, e1]; exact h.on_trail
  · rw [e4, e2, e5]; exact h.levels
  · rw [e5]; exact h.lim_sorted
  · rw [e4, e5]; exact h.lim_lt
  · rw [e4, e3, e5]; exact h.decisions
  · rw [e1, e2, e3]; exact h.cleared

/-- A variable returned by `pick_branch_var` is unassigned. -/
theorem pick_branch_var_unassigned (s : SATSolver) (h : pick_branch_var s ≠ 0) :
    s.assign (pick_branch_var s) = 0 := by
  have key := pick_best_first_max s.assign s.activity ((List.range s.num_vars).map (· + 1)) 0 (-1)
  have hdef : pick_branch_var s =
      if pick_best s.assign s.activity ((List.range s.num_vars).map (· + 1)) 0 (-1) ≠ 0 then
        pick_best s.assign s.activity ((List.range s.num_vars).map (· + 1)) 0 (-1)
      else (List.find? (fun v => decide (s.assign v = 0))
        ((List.range s.num_vars).map (· + 1))).getD 0 := rfl
  generalize pick_best s.assign s.activity ((List.range s.num_vars).map (· + 1)) 0 (-1) = r
    at key hdef
  by_cases hr : r = 0
  · rw [hdef] at h ⊢
    simp only [hr, ne_eq, not_true_eq_false, if_false] at h ⊢
    cases hf : List.find? (fun v => decide (s.assign v = 0))
        ((List.range s.num_vars).map (· + 1)) with
    | none => rw [hf] at h; exact absurd rfl h
    | some x =>
      have := List.find?_some hf
      simpa using this
  · rcases key with ⟨hb, _⟩ | ⟨h0, _⟩
    · exact absurd hb hr
    · rw [hdef]
      simp only [ne_eq, hr, not_false_eq_true, if_true]
      exact h0

theorem trail_inv_solve_start (f : CNFFormula) : TrailInv (solve_start f) :=
  solve_units_induct TrailInv
    (fun s lit ci hs h0 => trail_inv_assign_lit s lit ci hs h0) f (mk_solver f) 0
    (trail_inv_start f)

/-- `propagate` keeps the trail invariant. -/
theorem trail_inv_propagate (fuel : Nat) (s : SATSolver) (r : SATSolver × Option Nat)
    (h : TrailInv s) (hp : propagate fuel s = some r) : TrailInv r.1 :=
  propagate_loop_induct TrailInv
    (fun s ci hs _ _ h0 => trail_inv_assign_lit s _ ci hs h0) fuel s 0 r h hp

theorem backjump_target_nonneg (s : SATSolver) (learned : List Int) :
    0 ≤ backjump_target s learned :=
  le_max_left _ _

theorem trail_inv_step {s t : SATSolver} (fuel : Nat) (h : TrailInv s)
    (hstep : solve_iter fuel s = some (Step.next t)) : TrailInv t := by
  rcases solve_iter_next_cases fuel s t hstep with
    ⟨s1, ci, s2, learned, hp, _, ha, rfl⟩ | ⟨s1, hp, hv, rfl⟩
  · have h1 : TrailInv s1 := trail_inv_propagate fuel s _ h hp
    obtain ⟨_, _, _, e1, e2, e3, e4, e5, _⟩ := analyze_conflict_fields fuel s1 s2 ci learned ha
    have h3 : TrailInv (add_learned_clause s2 learned) :=
      trail_inv_of_fields s1 _ h1 e1 e2 e3 e4 e5
    exact trail_inv_backjump _ _ (backjump_target_nonneg _ _) h3
  · have h1 : TrailInv s1 := trail_inv_propagate fuel s _ h hp
    exact trail_inv_decision s1 _ h1 (pick_branch_var_unassigned s1 hv)

theorem trail_inv_reachable {f : CNFFormula} {s : SATSolver} (h : Reachable f s) :
    TrailInv s := by
  induction h with
  | start => exact trail_inv_solve_start f
  | step fuel s t _ hstep ih => exact trail_inv_step fuel ih hstep

/-- C16: at every test of the loop of `solve`, and in the state `propagate`
returns from there, the level of the variable at trail position `i` is the
number of entries of `trail_lim` that are `≤ i`; the levels do not decrease
along the trail and no variable is twice on it.  (The states after `backjump`
and after the `assign_lit` of a decision are tests of the loop.) -/
theorem trail_levels_count_markers (f : CNFFormula) (s : SATSolver) (hs : Reachable f s) :
    ((∀ i, i < s.trail.length → s.level (s.trail.getD i 0).natAbs =
        ((s.trail_lim.filter (fun m => decide (m ≤ i))).length : Int)) ∧
      LevelsMonotone s ∧ TrailDistinct s) ∧
    ∀ fuel s1 c, propagate fuel s = some (s1, c) →
      (∀ i, i < s1.trail.length → s1.level (s1.trail.getD i 0).natAbs =
        ((s1.trail_lim.filter (fun m => decide (m ≤ i))).length : Int)) ∧
      LevelsMonotone s1 ∧ TrailDistinct s1 := by
  have h := trail_inv_reachable hs
  refine ⟨⟨h.levels, trail_inv_monotone s h, h.distinct⟩, ?_⟩
  intro fuel s1 c hp
  have h1 : TrailInv s1 := trail_inv_propagate fuel s _ h hp
  exact ⟨h1.levels, trail_inv_monotone s1 h1, h1.distinct⟩

theorem trail_levels_count_markers_witness :
    Reachable late_conflict lc_s2 ∧ lc_s2.trail = [1, 2, 3, 4] ∧ lc_s2.trail_lim = [0, 3] ∧
    (∀ i, i < lc_s2.trail.length → lc_s2.level (lc_s2.trail.getD i 0).natAbs =
      ((lc_s2.trail_lim.filter (fun m => decide (m ≤ i))).length : Int)) ∧
    LevelsMonotone lc_s2 ∧ TrailDistinct lc_s2 :=
  have h := trail_levels_count_markers late_conflict lc_s2 lc_reach_s2
  ⟨lc_reach_s2, by decide!, by decide!, h.1.1, h.1.2.1, h.1.2.2⟩

/-! ## The reason invariant -/

theorem lit_true_congr (a b : Nat → Int) (l : Int) (h : b l.natAbs = a l.natAbs) :
    lit_true b l ↔ lit_true a l := by
  unfold lit_true; rw [h]

theorem lit_false_congr (a b : Nat → Int) (l : Int) (h : b l.natAbs = a l.natAbs) :
    lit_false b l ↔ lit_false a l := by
  unfold lit_false; rw [h]

theorem lit_false_assigned (a : Nat → Int) (l : Int) (h : lit_false a l) : a l.natAbs ≠ 0 := by
  rcases h with ⟨h1, _⟩ | ⟨h1, _⟩ <;> rw [h1] <;> decide

/-- The literal that `assign_lit` has just assigned is true, when it is not `0`. -/
theorem lit_true_assign_lit (s : SATSolver) (lit : Int) (ci : Int) (lim : List Nat)
    (hl : lit ≠ 0) : lit_true (assign_lit { s with trail_lim := lim } lit ci).assign lit := by
  show lit_true (Function.update s.assign lit.natAbs (if lit > 0 then 1 else -1)) lit
  unfold lit_true
  rw [Function.update_same]
  rcases lt_trichotomy lit 0 with h | h | h
  · right
    have : ¬ lit > 0 := by omega
    simp [this, h]
  · exact absurd h hl
  · left
    simp [h]

/-- Assigning an unassigned literal keeps the reason invariant, when the
literal is a decision (reason `-1`) or the one unassigned literal of its reason
clause, all other literals of which are false. -/
theorem reason_inv_push (s : SATSolver) (lit : Int) (ci : Int) (lim : List Nat)
    (ht : TrailInv s) (h : ReasonInv s) (h0 : s.assign lit.natAbs = 0)
    (hci : ci = -1 ∨ ∃ k : Nat, ci = (k : Int) ∧ lit ≠ 0 ∧
      ∃ pre post, s.formula.getD k [] = pre ++ lit :: post ∧
        ∀ m ∈ pre ++ post, lit_false s.assign m) :
    ReasonInv (assign_lit { s with trail_lim := lim } lit ci) := by
  have hasg : ∀ v, v ≠ lit.natAbs →
      (assign_lit { s with trail_lim := lim } lit ci).assign v = s.assign v := by
    intro v hv
    show Function.update s.assign lit.natAbs _ v = _
    rw [Function.update_noteq hv]
  have hfalse : ∀ m, lit_false s.assign m →
      lit_false (assign_lit { s with trail_lim := lim } lit ci).assign m := by
    intro m hm
    have hne : m.natAbs ≠ lit.natAbs := by
      intro e
      exact lit_false_assigned _ _ hm (e ▸ h0)
    exact (lit_false_congr _ _ m (hasg _ hne)).mpr hm
  have hgetD : ∀ i, i < s.trail.length → (s.trail ++ [lit]).getD i 0 = s.trail.getD i 0 :=
    fun i hi => List.getD_append _ _ _ _ hi
  intro v hv hr
  by_cases e : v = lit.natAbs
  · have hr1 : (assign_lit { s with trail_lim := lim } lit ci).reason v = ci := by
      show Function.update s.reason lit.natAbs ci v = ci
      rw [e, Function.update_same]
    rcases hci with hci | ⟨k, hk, hlit, pre, post, hcl, hothers⟩
    · exact absurd (hr1.trans hci) hr
    · rw [hr1, hk]
      refine ⟨Int.ofNat_nonneg k, pre, lit, post, ?_, e.symm, lit_true_assign_lit s lit _ lim hlit, ?_⟩
      · simpa using hcl
      · intro m hm
        refine ⟨hfalse m (hothers m hm), ?_⟩
        obtain ⟨l, hl, hlm⟩ := ht.on_trail m.natAbs (lit_false_assigned _ _ (hothers m hm))
        obtain ⟨i, hi, hil⟩ := List.mem_iff_getElem.mp hl
        refine ⟨i, s.trail.length, hi, ?_, ?_, ?_⟩
        · show s.trail.length < (s.trail ++ [lit]).length
          simp
        · show ((s.trail ++ [lit]).getD i 0).natAbs = m.natAbs
          rw [hgetD i hi, List.getD_eq_getElem _ _ hi, hil, hlm]
        · show ((s.trail ++ [lit]).getD s.trail.length 0).natAbs = v
          rw [List.getD_append_right _ _ _ _ (le_refl _), e]
          simp
  · have hv1 : s.assign v ≠ 0 := by rw [← hasg v e]; exact hv
    have hr1 : (assign_lit { s with trail_lim := lim } lit ci).reason v = s.reason v := by
      show Function.update s.reason lit.natAbs ci v = _
      rw [Function.update_noteq e]
    rw [hr1] at hr ⊢
    obtain ⟨hpos, pre, l, post, hcl, hlv, hlt, hothers⟩ := h v hv1 hr
    refine ⟨hpos, pre, l, post, hcl, hlv, ?_, ?_⟩
    · exact (lit_true_congr _ _ l (hasg _ (by rw [hlv]; exact e))).mpr hlt
    · intro m hm
      obtain ⟨hmf, i, j, hij, hj, hi1, hj1⟩ := hothers m hm
      refine ⟨hfalse m hmf, i, j, hij, ?_, ?_, ?_⟩
      · show j < (s.trail ++ [lit]).length
        rw [List.length_append]; omega
      · show ((s.trail ++ [lit]).getD i 0).natAbs = m.natAbs
        rw [hgetD i (by omega)]; exact hi1
      · show ((s.trail ++ [lit]).getD j 0).natAbs = v
        rw [hgetD j hj]; exact hj1

/-- `backjump` keeps the reason invariant: a variable that stays assigned keeps
its reason clause, whose other variables are earlier on the trail and so stay
assigned as well. -/
theorem reason_inv_backjump (s : SATSolver) (t : Int) (ht : TrailInv s) (h : ReasonInv s) :
    ReasonInv (backjump s t) := by
  obtain ⟨removed, hsplit, _, _, hclear, hsame⟩ :=
    backjump_effect s t ht.distinct (trail_inv_monotone s ht)
  have hnd := ht.distinct
  rw [hsplit, List.map_append, List.nodup_append] at hnd
  obtain ⟨_, _, hdisj⟩ := hnd
  have hlen : s.trail.length = (backjump s t).trail.length + removed.length := by
    rw [hsplit, List.length_append]
  have hformula : (backjump s t).formula = s.formula := rfl
  intro v hv hr
  have hnot : ∀ r ∈ removed, r.natAbs ≠ v := by
    intro r hr heq
    apply hv
    rw [← heq]
    exact (hclear r hr).1
  obtain ⟨e1, _, e3⟩ := hsame v hnot
  rw [e1] at hv
  rw [e3] at hr ⊢
  obtain ⟨hpos, pre, l, post, hcl, hlv, hlt, hothers⟩ := h v hv hr
  rw [hformula]
  refine ⟨hpos, pre, l, post, hcl, hlv, ?_, ?_⟩
  · exact (lit_true_congr _ _ l (by rw [hlv]; exact e1)).mpr hlt
  · intro m hm
    obtain ⟨hmf, i, j, hij, hj, hi1, hj1⟩ := hothers m hm
    have hjk : j < (backjump s t).trail.length := by
      by_contra hge
      have hge1 : (backjump s t).trail.length ≤ j := by omega
      have hj2 : j - (backjump s t).trail.length < removed.length := by omega
      have hmem : s.trail.getD j 0 ∈ removed := by
        rw [hsplit, List.getD_append_right _ _ _ _ hge1, List.getD_eq_getElem _ _ hj2]
        exact List.getElem_mem _
      exact hnot _ hmem hj1
    have hgi : s.trail.getD i 0 = (backjump s t).trail.getD i 0 := by
      rw [hsplit, List.getD_append _ _ _ _ (by omega)]
    have hgj : s.trail.getD j 0 = (backjump s t).trail.getD j 0 := by
      rw [hsplit, List.getD_append _ _ _ _ hjk]
    have himem : (backjump s t).trail.getD i 0 ∈ (backjump s t).trail := by
      rw [List.getD_eq_getElem _ _ (by omega)]
      exact List.getElem_mem _
    have hmnot : ∀ r ∈ removed, r.natAbs ≠ m.natAbs := by
      intro r hr heq
      apply hdisj (List.mem_map.mpr ⟨_, himem, rfl⟩) (List.mem_map.mpr ⟨r, hr, ?_⟩)
      rw [heq, ← hi1, hgi]
    refine ⟨(lit_false_congr _ _ m (hsame _ hmnot).1).mpr hmf, i, j, hij, hjk, ?_, ?_⟩
    · rw [← hgi]; exact hi1
    · rw [← hgj]; exact hj1

theorem reason_inv_of_fields (s t : SATSolver) (h : ReasonInv s) (e1 : t.assign = s.assign)
    (e3 : t.reason = s.reason) (e4 : t.trail = s.trail)
    (hf : ∃ ext, t.formula = s.formula ++ ext) : ReasonInv t := by
  intro v hv hr
  rw [e1] at hv
  rw [e3] at hr
  obtain ⟨hpos, pre, l, post, hcl, hlv, hlt, hothers⟩ := h v hv hr
  rw [e1, e3, e4]
  refine ⟨hpos, pre, l, post, ?_, hlv, hlt, hothers⟩
  obtain ⟨ext, hext⟩ := hf
  have hk : (s.reason v).toNat < s.formula.length := by
    by_contra hge
    rw [List.getD_eq_default _ _ (by omega)] at hcl
    cases pre <;> cases hcl
  rw [hext, List.getD_append _ _ _ _ hk]
  exact hcl

/-! ## The invariants of the implication graph hold at every test of the loop -/

theorem assign_lit_range (s : SATSolver) (lit : Int) (ci : Int) (lim : List Nat)
    (h : AssignRange s.assign) :
    AssignRange (assign_lit { s with trail_lim := lim } lit ci).assign := by
  intro v
  by_cases e : v = lit.natAbs
  · subst e
    show _ ∨ _ ∨ _
    simp only [assign_lit, Function.update_same]
    split <;> simp
  · show _ ∨ _ ∨ _
    simp only [assign_lit, Function.update_noteq e]
    exact h v

/-- An assignment made by `propagate` keeps the invariants of the implication
graph. -/
theorem graph_inv_unit (s : SATSolver) (ci : Nat) (h : GraphInv s)
    (hsat : (scan_clause s.assign (s.formula.getD ci []) 0 0).satisfied = false)
    (hone : (scan_clause s.assign (s.formula.getD ci []) 0 0).unassigned_count = 1)
    (h0 : s.assign (scan_clause s.assign (s.formula.getD ci []) 0 0).last_unassigned.natAbs = 0) :
    GraphInv (assign_lit s (scan_clause s.assign (s.formula.getD ci []) 0 0).last_unassigned ci) := by
  obtain ⟨pre, post, hcl, _, hall⟩ := scan_unit s.assign (s.formula.getD ci []) 0 0 hsat hone
  have hnz := getD_lits_nonzero s.formula h.nonzero ci
  have hlit : (scan_clause s.assign (s.formula.getD ci []) 0 0).last_unassigned ≠ 0 := by
    apply hnz
    have hin : (scan_clause s.assign (s.formula.getD ci []) 0 0).last_unassigned ∈
        pre ++ (scan_clause s.assign (s.formula.getD ci []) 0 0).last_unassigned :: post :=
      List.mem_append_right _ (List.mem_cons_self _ _)
    rw [← hcl] at hin
    exact hin
  refine ⟨trail_inv_assign_lit s _ ci h.trail h0, ?_, assign_lit_range s _ _ s.trail_lim h.range,
    h.nonzero, ?_⟩
  swap
  · intro l hl
    rcases List.mem_append.mp hl with h1 | h1
    · exact h.trail_nonzero l h1
    · rw [List.mem_singleton.mp h1]; exact hlit
  apply reason_inv_push s _ ci s.trail_lim h.trail h.reason h0
  right
  refine ⟨ci, rfl, hlit, pre, post, hcl, ?_⟩
  intro m hm
  have hmem : m ∈ s.formula.getD ci [] := by
    have hin : m ∈
        pre ++ (scan_clause s.assign (s.formula.getD ci []) 0 0).last_unassigned :: post := by
      rcases List.mem_append.mp hm with h1 | h1
      · exact List.mem_append_left _ h1
      · exact List.mem_append_right _ (List.mem_cons_of_mem _ h1)
    rw [← hcl] at hin
    exact hin
  exact lit_false_of_not_true s.assign m h.range (hnz m hmem) (hall m hm).1 (hall m hm).2

theorem graph_inv_propagate (fuel : Nat) (s : SATSolver) (r : SATSolver × Option Nat)
    (h : GraphInv s) (hp : propagate fuel s = some r) : GraphInv r.1 :=
  propagate_loop_induct GraphInv
    (fun s ci hs hsat hone h0 => graph_inv_unit s ci hs hsat hone h0) fuel s 0 r h hp

theorem graph_inv_mk_solver (f : CNFFormula) (hf : NonzeroLits f) : GraphInv (mk_solver f) := by
  refine ⟨trail_inv_start f, ?_, fun _ => Or.inl rfl, hf, fun l hl => absurd hl (List.not_mem_nil l)⟩
  intro v hv
  exact absurd rfl hv

/-- The bootstrap loop of `solve` keeps the invariants of the implication graph:
`done` are the clauses it has passed. -/
theorem graph_inv_solve_units (f : CNFFormula) (rest : CNFFormula) :
    ∀ (done : CNFFormula) (s : SATSolver), f = done ++ rest → s.formula = f → GraphInv s →
      GraphInv (solve_units s done.length rest) := by
  induction rest with
  | nil => intro done s _ _ hs; exact hs
  | cons cl rest ih =>
    intro done s hsplit hform hs
    have hnext : f = (done ++ [cl]) ++ rest := by rw [hsplit]; simp
    have hlen : (done ++ [cl]).length = done.length + 1 := by simp
    match cl with
    | [] =>
      have := ih (done ++ [[]]) s hnext hform hs
      rw [hlen] at this
      exact this
    | [lit] =>
      unfold solve_units
      split
      · rename_i h0
        have hget : s.formula.getD done.length [] = [] ++ lit :: [] := by
          rw [hform, hsplit, List.getD_append_right _ _ _ _ (le_refl _)]
          simp
        have hlit : lit ≠ 0 := by
          apply getD_lits_nonzero s.formula hs.nonzero done.length
          rw [hget]; simp
        have hs1 : GraphInv (assign_lit s lit done.length) := by
          refine ⟨trail_inv_assign_lit s lit _ hs.trail h0, ?_,
            assign_lit_range s lit _ s.trail_lim hs.range, hs.nonzero, ?_⟩
          swap
          · intro l hl
            rcases List.mem_append.mp hl with h1 | h1
            · exact hs.trail_nonzero l h1
            · rw [List.mem_singleton.mp h1]; exact hlit
          apply reason_inv_push s lit _ s.trail_lim hs.trail hs.reason h0
          right
          exact ⟨done.length, rfl, hlit, [], [], hget, fun m hm => by simp at hm⟩
        have := ih (done ++ [[lit]]) (assign_lit s lit done.length) hnext hform hs1
        rw [hlen] at this
        exact this
      · have := ih (done ++ [[lit]]) s hnext hform hs
        rw [hlen] at this
        exact this
    | a :: b :: r =>
      have := ih (done ++ [a :: b :: r]) s hnext hform hs
      rw [hlen] at this
      exact this

theorem graph_inv_solve_start (f : CNFFormula) (hf : NonzeroLits f) : GraphInv (solve_start f) :=
  graph_inv_solve_units f f [] (mk_solver f) rfl rfl (graph_inv_mk_solver f hf)

theorem graph_inv_step {s t : SATSolver} (fuel : Nat) (h : GraphInv s)
    (hstep : solve_iter fuel s = some (Step.next t)) : GraphInv t := by
  have hnz : NonzeroLits t.formula := nonzero_step fuel h.nonzero hstep
  rcases solve_iter_next_cases fuel s t hstep with
    ⟨s1, ci, s2, learned, hp, _, ha, rfl⟩ | ⟨s1, hp, hv, rfl⟩
  · have h1 : GraphInv s1 := graph_inv_propagate fuel s _ h hp
    obtain ⟨_, e0, _, e1, e2, e3, e4, e5, _⟩ := analyze_conflict_fields fuel s1 s2 ci learned ha
    have ht3 : TrailInv (add_learned_clause s2 learned) :=
      trail_inv_of_fields s1 _ h1.trail e1 e2 e3 e4 e5
    have hr3 : ReasonInv (add_learned_clause s2 learned) :=
      reason_inv_of_fields s1 _ h1.reason e1 e3 e4
        ⟨[learned], by show s2.formula ++ [learned] = _; rw [e0]⟩
    refine ⟨trail_inv_backjump _ _ (backjump_target_nonneg _ _) ht3,
      reason_inv_backjump _ _ ht3 hr3, ?_, hnz, ?_⟩
    · apply backjump_pop_range
      show AssignRange s2.assign
      rw [e1]; exact h1.range
    · intro l hl
      obtain ⟨removed, hsplit, _⟩ := backjump_effect (add_learned_clause s2 learned)
        (backjump_target (add_learned_clause s2 learned) learned) ht3.distinct
        (trail_inv_monotone _ ht3)
      apply h1.trail_nonzero l
      rw [← e4]
      show l ∈ (add_learned_clause s2 learned).trail
      rw [hsplit]
      exact List.mem_append_left _ hl
  · have h1 : GraphInv s1 := graph_inv_propagate fuel s _ h hp
    have h0 := pick_branch_var_unassigned s1 hv
    refine ⟨trail_inv_decision s1 _ h1.trail h0, ?_, assign_lit_range s1 _ _ _ h1.range, hnz,
      ?_⟩
    · exact reason_inv_push s1 _ (-1) _ h1.trail h1.reason (by simpa using h0) (Or.inl rfl)
    · intro l hl
      rcases List.mem_append.mp hl with h2 | h2
      · exact h1.trail_nonzero l h2
      · rw [List.mem_singleton.mp h2]
        exact_mod_cast hv

theorem graph_inv_reachable {f : CNFFormula} {s : SATSolver} (hf : NonzeroLits f)
    (h : Reachable f s) : GraphInv s := by
  induction h with
  | start => exact graph_inv_solve_start f hf
  | step fuel s t _ hstep ih => exact graph_inv_step fuel ih hstep

/-- C17: on an input without the literal `0`, at every test of the loop of
`solve`: when the reason of an assigned variable `v` is not `-1`, it is the
index of a clause of the store that consists of one true literal, which is over
`v`, and of literals that are false and whose variables are at earlier positions
of the trail than `v`. -/
theorem reason_clause_implies (f : CNFFormula) (hf : NonzeroLits f) (s : SATSolver)
    (hs : Reachable f s) (v : Nat) (hv : s.assign v ≠ 0) (hr : s.reason v ≠ -1) :
    0 ≤ s.reason v ∧ (s.reason v).toNat < s.formula.length ∧
    ∃ pre l post, s.formula.getD (s.reason v).toNat [] = pre ++ l :: post ∧
      l.natAbs = v ∧ lit_true s.assign l ∧
      ∀ m ∈ pre ++ post, ¬ lit_true s.assign m ∧ lit_false s.assign m ∧
        Before s.trail m.natAbs v := by
  obtain ⟨hpos, pre, l, post, hcl, hlv, hlt, hothers⟩ := (graph_inv_reachable hf hs).reason v hv hr
  refine ⟨hpos, ?_, pre, l, post, hcl, hlv, hlt, ?_⟩
  · by_contra hge
    rw [List.getD_eq_default _ _ (by omega)] at hcl
    cases pre <;> cases hcl
  · intro m hm
    obtain ⟨hmf, hb⟩ := hothers m hm
    refine ⟨?_, hmf, hb⟩
    intro hmt
    unfold lit_true at hmt
    unfold lit_false at hmf
    omega

theorem reason_clause_implies_witness :
    NonzeroLits late_conflict ∧ Reachable late_conflict lc_s2 ∧
    lc_s2.trail = [1, 2, 3, 4] ∧ lc_s2.assign 3 ≠ 0 ∧ lc_s2.reason 3 = 2 ∧
    lc_s2.formula.getD 2 [] = [-2, 3] ∧
    ∃ pre l post, lc_s2.formula.getD (lc_s2.reason 3).toNat [] = pre ++ l :: post ∧
      l.natAbs = 3 ∧ lit_true lc_s2.assign l ∧
      ∀ m ∈ pre ++ post, ¬ lit_true lc_s2.assign m ∧ lit_false lc_s2.assign m ∧
        Before lc_s2.trail m.natAbs 3 :=
  have h := reason_clause_implies late_conflict (by decide) lc_s2 lc_reach_s2 3
    (by decide!) (by decide!)
  ⟨by decide, lc_reach_s2, by decide!, by decide!, by decide!, by decide!, h.2.2⟩

/-! ## The conflict pass of `solve` -/

/-- C14 (amended claim): on an input without the literal `0`, in a pass of the
loop of `solve` whose `propagate` reports a conflict above level 0 and whose
`analyze_conflict` returns a clause: the pass appends that clause to the store
and undoes the trail, and assigns nothing before the next call of `propagate`.
The trail handed on is a prefix of the trail at the conflict, a variable that is
still assigned has the value, level and reason it had, and no variable has the
index of the new clause as its reason. -/
theorem conflict_pass_assigns_nothing (f : CNFFormula) (hf : NonzeroLits f) (s : SATSolver)
    (hs : Reachable f s) (fuel : Nat) (s1 : SATSolver) (ci : Nat)
    (hp : propagate fuel s = some (s1, some ci)) (t : SATSolver)
    (hstep : solve_iter fuel s = some (Step.next t)) :
    ∃ learned, t.formula = s1.formula ++ [learned] ∧ t.trail <+: s1.trail ∧
      (∀ v, t.assign v ≠ 0 →
        t.assign v = s1.assign v ∧ t.level v = s1.level v ∧ t.reason v = s1.reason v) ∧
      ∀ v, t.reason v ≠ (s1.formula.length : Int) := by
  have hg1 : GraphInv s1 := graph_inv_propagate fuel s _ (graph_inv_reachable hf hs) hp
  have hgt : GraphInv t := graph_inv_step fuel (graph_inv_reachable hf hs) hstep
  rcases solve_iter_next_cases fuel s t hstep with
    ⟨s1', ci', s2, learned, hp', _, ha, rfl⟩ | ⟨s1', hp', _, _⟩
  · rw [hp] at hp'
    simp only [Option.some.injEq, Prod.mk.injEq] at hp'
    obtain ⟨rfl, _⟩ := hp'
    obtain ⟨_, e0, _, e1, e2, e3, e4, e5, _⟩ := analyze_conflict_fields fuel s1 s2 ci' learned ha
    have ht3 : TrailInv (add_learned_clause s2 learned) :=
      trail_inv_of_fields s1 _ hg1.trail e1 e2 e3 e4 e5
    obtain ⟨removed, hsplit, _, _, hclear, hsame⟩ :=
      backjump_effect (add_learned_clause s2 learned)
        (backjump_target (add_learned_clause s2 learned) learned) ht3.distinct
        (trail_inv_monotone _ ht3)
    have hkeep : ∀ v, (backjump (add_learned_clause s2 learned)
          (backjump_target (add_learned_clause s2 learned) learned)).assign v ≠ 0 →
        (backjump (add_learned_clause s2 learned)
          (backjump_target (add_learned_clause s2 learned) learned)).assign v = s1.assign v ∧
        (backjump (add_learned_clause s2 learned)
          (backjump_target (add_learned_clause s2 learned) learned)).level v = s1.level v ∧
        (backjump (add_learned_clause s2 learned)
          (backjump_target (add_learned_clause s2 learned) learned)).reason v = s1.reason v := by
      intro v hv
      have hnot : ∀ r ∈ removed, r.natAbs ≠ v := by
        intro r hr heq
        apply hv
        rw [← heq]
        exact (hclear r hr).1
      obtain ⟨a1, a2, a3⟩ := hsame v hnot
      refine ⟨a1.trans ?_, a2.trans ?_, a3.trans ?_⟩
      · show s2.assign v = _; rw [e1]
      · show s2.level v = _; rw [e2]
      · show s2.reason v = _; rw [e3]
    refine ⟨learned, by show s2.formula ++ [learned] = _; rw [e0], ?_, hkeep, ?_⟩
    · refine ⟨removed, ?_⟩
      have : (add_learned_clause s2 learned).trail = s1.trail := e4
      rw [← this]
      exact hsplit.symm
    · intro v hcon
      by_cases hv : (backjump (add_learned_clause s2 learned)
          (backjump_target (add_learned_clause s2 learned) learned)).assign v = 0
      · have := (hgt.trail.cleared v hv).2
        rw [this] at hcon
        omega
      · obtain ⟨a1, _, a3⟩ := hkeep v hv
        rw [a3] at hcon
        rw [a1] at hv
        have hne : s1.reason v ≠ -1 := by rw [hcon]; omega
        obtain ⟨_, pre, l, post, hcl, _⟩ := hg1.reason v hv hne
        rw [hcon] at hcl
        simp only [Int.toNat_ofNat] at hcl
        rw [List.getD_eq_default _ _ (le_refl _)] at hcl
        cases pre <;> cases hcl
  · rw [hp] at hp'
    simp at hp'

theorem conflict_pass_assigns_nothing_witness :
    NonzeroLits late_conflict ∧ Reachable late_conflict lc_s2 ∧
    propagate 10 lc_s2 = some (lc_s3, some 1) ∧
    solve_iter 10 lc_s2 = some (Step.next lc_s5) ∧
    ∃ learned, lc_s5.formula = lc_s3.formula ++ [learned] ∧ lc_s5.trail <+: lc_s3.trail ∧
      (∀ v, lc_s5.assign v ≠ 0 →
        lc_s5.assign v = lc_s3.assign v ∧ lc_s5.level v = lc_s3.level v ∧
        lc_s5.reason v = lc_s3.reason v) ∧
      ∀ v, lc_s5.reason v ≠ (lc_s3.formula.length : Int) :=
  have hp : propagate 10 lc_s2 = some (lc_s3, some 1) := pair_of_value _ _ _ (by decide!)
  have hstep : solve_iter 10 lc_s2 = some (Step.next lc_s5) := step_of_is_next _ _ (by decide!)
  ⟨by decide, lc_reach_s2, hp, hstep,
    conflict_pass_assigns_nothing late_conflict (by decide) lc_s2 lc_reach_s2 10 lc_s3 1 hp
      lc_s5 hstep⟩

/-- C14 (counterexample to the claim as stated): on `(-1 2), (-1 -2 -3 -4),
(-2 3)` the third pass appends the learned clause `(3 2 1)` as clause 3 and
undoes the trail from `1 2 3 4` to `1 2 3`; in the state it hands to the next
call of `propagate` no literal of `(3 2 1)` has clause 3 as its reason, and the
trail has no entry that was not there at the conflict. -/
theorem no_assignment_after_backjump :
    ∃ s2 s3 s4 s5, Reachable late_conflict s2 ∧
      propagate 10 s2 = some (s3, some 1) ∧ s3.trail_lim.length = 2 ∧
      analyze_conflict 10 s3 1 = some (s4, [3, 2, 1]) ∧
      solve_iter 10 s2 = some (Step.next s5) ∧
      s5.formula.length = 4 ∧ s5.formula.getD 3 [] = [3, 2, 1] ∧
      s3.trail = [1, 2, 3, 4] ∧ s5.trail = [1, 2, 3] ∧
      ∀ l ∈ ([3, 2, 1] : Clause), s5.reason l.natAbs ≠ 3 := by
  refine ⟨lc_s2, lc_s3, lc_s4, lc_s5, lc_reach_s2, pair_of_value _ _ _ (by decide!),
    by decide!, pair_of_value _ _ _ (by decide!), step_of_is_next _ _ (by decide!),
    by decide!, by decide!, by decide!, by decide!, by decide!⟩

/-! ## The marking loop of `analyze_conflict` -/

/-- Induction over the passes of the marking loop: a property of the local
variables that a pass keeps holds when the loop ends, and the stack is then
empty. -/
theorem mark_loop_induct (s : SATSolver) (cl : Int) (P : Analysis → Prop)
    (hskip : ∀ (a : Analysis) (l : Int) (stk : List Int), P a → a.stack = l :: stk →
      a.seen l.natAbs = true → P { a with stack := stk })
    (hmark : ∀ (a : Analysis) (l : Int) (stk : List Int), P a → a.stack = l :: stk →
      ¬ a.seen l.natAbs = true →
      P { seen := Function.update a.seen l.natAbs true
          learned := if s.level l.natAbs = cl then a.learned else a.learned ++ [-l]
          stack :=
            if s.reason l.natAbs ≠ -1 then
              (s.formula.getD (s.reason l.natAbs).toNat []).foldl
                (fun st rl => if rl.natAbs = l.natAbs then st
                  else if !(Function.update a.seen l.natAbs true) rl.natAbs then rl :: st
                  else st) stk
            else stk
          num_levels_in_clause :=
            if s.level l.natAbs = cl then a.num_levels_in_clause + 1
            else a.num_levels_in_clause })
    (n : Nat) :
    ∀ (a r : Analysis), mark_loop s cl n a = some r → P a → P r ∧ r.stack = [] := by
  induction n with
  | zero => intro a r h; simp [mark_loop] at h
  | succ n ih =>
    intro a r h hP
    unfold mark_loop at h
    cases hs : a.stack with
    | nil =>
      simp only [hs, Option.some.injEq] at h
      subst h; exact ⟨hP, hs⟩
    | cons l stk =>
      simp only [hs] at h
      by_cases hseen : a.seen l.natAbs = true
      · simp only [hseen, if_true] at h
        exact ih _ r h (hskip a l stk hP hs hseen)
      · simp only [hseen] at h
        exact ih _ r h (hmark a l stk hP hs hseen)

/-- What the marking loop pushes for the reason clause `cl` of variable `v`:
the stack below stays, and every literal of `cl` over another variable that is
not marked is pushed. -/
theorem push_reason_spec (v : Nat) (seen : Nat → Bool) (cl : Clause) :
    ∀ (stk : List Int),
      (∀ x ∈ stk, x ∈ cl.foldl (fun st rl => if rl.natAbs = v then st
        else if !seen rl.natAbs then rl :: st else st) stk) ∧
      (∀ x ∈ cl, x.natAbs ≠ v → seen x.natAbs ≠ true →
        x ∈ cl.foldl (fun st rl => if rl.natAbs = v then st
          else if !seen rl.natAbs then rl :: st else st) stk) ∧
      (∀ x ∈ cl.foldl (fun st rl => if rl.natAbs = v then st
          else if !seen rl.natAbs then rl :: st else st) stk,
        x ∈ stk ∨ (x ∈ cl ∧ x.natAbs ≠ v)) := by
  induction cl with
  | nil =>
    intro stk
    exact ⟨fun x hx => hx, fun x hx => absurd hx (List.not_mem_nil x), fun x hx => Or.inl hx⟩
  | cons rl rest ih =>
    intro stk
    simp only [List.foldl_cons]
    obtain ⟨i1, i2, i3⟩ := ih (if rl.natAbs = v then stk
      else if !seen rl.natAbs then rl :: stk else stk)
    have hsub : ∀ x ∈ stk, x ∈ (if rl.natAbs = v then stk
        else if !seen rl.natAbs then rl :: stk else stk) := by
      intro x hx
      split
      · exact hx
      · split
        · exact List.mem_cons_of_mem _ hx
        · exact hx
    refine ⟨fun x hx => i1 x (hsub x hx), ?_, ?_⟩
    · intro x hx hxv hxs
      rcases List.mem_cons.mp hx with rfl | hx1
      · apply i1
        have : (!seen x.natAbs) = true := by simpa using hxs
        simp [hxv, this]
      · exact i2 x hx1 hxv hxs
    · intro x hx
      rcases i3 x hx with h | ⟨h1, h2⟩
      · split at h
        · exact Or.inl h
        · rename_i hne
          split at h
          · rcases List.mem_cons.mp h with rfl | h
            · exact Or.inr ⟨List.mem_cons_self _ _, hne⟩
            · exact Or.inl h
          · exact Or.inl h
      · exact Or.inr ⟨List.mem_cons_of_mem _ h1, h2⟩

/-- A literal of the reason clause of `v` over another variable is false. -/
theorem reason_other_false (s : SATSolver) (h : ReasonInv s) (v : Nat) (hv : s.assign v ≠ 0)
    (hr : s.reason v ≠ -1) :
    (∃ rl ∈ s.formula.getD (s.reason v).toNat [], rl.natAbs = v) ∧
    ∀ x ∈ s.formula.getD (s.reason v).toNat [], x.natAbs ≠ v → lit_false s.assign x := by
  obtain ⟨_, pre, l, post, hcl, hlv, _, hothers⟩ := h v hv hr
  rw [hcl]
  refine ⟨⟨l, List.mem_append_right _ (List.mem_cons_self _ _), hlv⟩, ?_⟩
  intro x hx hxv
  rcases List.mem_append.mp hx with h1 | h1
  · exact (hothers x (List.mem_append_left _ h1)).1
  · rcases List.mem_cons.mp h1 with rfl | h2
    · exact absurd hlv hxv
    · exact (hothers x (List.mem_append_right _ h2)).1

theorem lit_true_neg (a : Nat → Int) (l : Int) (h : lit_false a l) : lit_true a (-l) := by
  unfold lit_false at h
  unfold lit_true
  rw [Int.natAbs_neg]
  rcases h with ⟨h1, h2⟩ | ⟨h1, h2⟩
  · left; exact ⟨h1, by omega⟩
  · right; exact ⟨h1, by omega⟩

theorem mark_inv_skip (s : SATSolver) (d : Int) (a : Analysis) (l : Int) (stk : List Int)
    (h : MarkInv s d a) (hs : a.stack = l :: stk) (hseen : a.seen l.natAbs = true) :
    MarkInv s d { a with stack := stk } := by
  refine ⟨?_, h.learned_true, ?_, h.seen_assigned, h.count_one, h.count_two, h.seen_one,
    h.seen_two⟩
  · intro x hx
    exact h.stack_false x (by rw [hs]; exact List.mem_cons_of_mem _ hx)
  · intro v hv hr rl hrl
    rcases h.closure v hv hr rl hrl with h1 | h1
    · exact Or.inl h1
    · rw [hs] at h1
      rcases List.mem_cons.mp h1 with rfl | h2
      · exact Or.inl hseen
      · exact Or.inr h2

theorem mark_inv_mark (s : SATSolver) (hg : ReasonInv s) (d : Int) (a : Analysis) (l : Int)
    (stk : List Int) (h : MarkInv s d a) (hs : a.stack = l :: stk)
    (hseen : ¬ a.seen l.natAbs = true) :
    MarkInv s d
      { seen := Function.update a.seen l.natAbs true
        learned := if s.level l.natAbs = d then a.learned else a.learned ++ [-l]
        stack :=
          if s.reason l.natAbs ≠ -1 then
            (s.formula.getD (s.reason l.natAbs).toNat []).foldl
              (fun st rl => if rl.natAbs = l.natAbs then st
                else if !(Function.update a.seen l.natAbs true) rl.natAbs then rl :: st
                else st) stk
          else stk
        num_levels_in_clause :=
          if s.level l.natAbs = d then a.num_levels_in_clause + 1
          else a.num_levels_in_clause } := by
  have hlf : lit_false s.assign l := h.stack_false l (by rw [hs]; exact List.mem_cons_self _ _)
  have hva : s.assign l.natAbs ≠ 0 := lit_false_assigned _ _ hlf
  have hstk : ∀ x ∈ stk, lit_false s.assign x :=
    fun x hx => h.stack_false x (by rw [hs]; exact List.mem_cons_of_mem _ hx)
  have hold : ∀ u, a.seen u = true → u ≠ l.natAbs := by
    intro u hu e
    exact hseen (e ▸ hu)
  have hseen1 : ∀ u, Function.update a.seen l.natAbs true u = true ↔
      (u = l.natAbs ∨ a.seen u = true) := by
    intro u
    by_cases e : u = l.natAbs
    · subst e; simp
    · rw [Function.update_noteq e]; simp [e]
  refine ⟨?_, ?_, ?_, ?_, ?_, ?_, ?_, ?_⟩
  · -- the new stack holds false literals
    intro x hx
    simp only at hx
    by_cases hr : s.reason l.natAbs ≠ -1
    · rw [if_pos hr] at hx
      rcases (push_reason_spec l.natAbs _ _ stk).2.2 x hx with h1 | ⟨h1, h2⟩
      · exact hstk x h1
      · exact (reason_other_false s hg l.natAbs hva hr).2 x h1 h2
    · rw [if_neg hr] at hx
      exact hstk x hx
  · -- the literals of `learned` are true and below level `d`
    intro x hx
    simp only at hx
    by_cases hlev : s.level l.natAbs = d
    · rw [if_pos hlev] at hx
      exact h.learned_true x hx
    · rw [if_neg hlev] at hx
      rcases List.mem_append.mp hx with h1 | h1
      · exact h.learned_true x h1
      · rw [List.mem_singleton.mp h1]
        exact ⟨lit_true_neg _ _ hlf, by rw [Int.natAbs_neg]; exact hlev⟩
  · -- the reason clauses of marked variables are marked or on the stack
    intro v hv hr rl hrl
    simp only at hv ⊢
    by_cases hrs : Function.update a.seen l.natAbs true rl.natAbs = true
    · exact Or.inl hrs
    · right
      have hrl_ne : rl.natAbs ≠ l.natAbs := by
        intro e
        apply hrs
        rw [e]; simp
      have hrl_unseen : ¬ a.seen rl.natAbs = true := fun hc => hrs ((hseen1 _).mpr (Or.inr hc))
      rcases (hseen1 v).mp hv with e | hv1
      · subst e
        rw [if_pos hr]
        exact (push_reason_spec l.natAbs _ _ stk).2.1 rl hrl hrl_ne hrs
      · rcases h.closure v hv1 hr rl hrl with h1 | h1
        · exact absurd h1 hrl_unseen
        · rw [hs] at h1
          rcases List.mem_cons.mp h1 with rfl | h2
          · exact absurd rfl hrl_ne
          · by_cases hr2 : s.reason l.natAbs ≠ -1
            · rw [if_pos hr2]
              exact (push_reason_spec l.natAbs _ _ stk).1 rl h2
            · rw [if_neg hr2]
              exact h2
  · intro v hv
    rcases (hseen1 v).mp hv with e | hv1
    · rw [e]; exact hva
    · exact h.seen_assigned v hv1
  · intro hn
    simp only at hn ⊢
    by_cases hlev : s.level l.natAbs = d
    · exact ⟨l.natAbs, (hseen1 _).mpr (Or.inl rfl), hlev⟩
    · rw [if_neg hlev] at hn
      obtain ⟨u, hu, hud⟩ := h.count_one hn
      exact ⟨u, (hseen1 _).mpr (Or.inr hu), hud⟩
  · intro hn
    simp only at hn ⊢
    by_cases hlev : s.level l.natAbs = d
    · rw [if_pos hlev] at hn
      obtain ⟨u, hu, hud⟩ := h.count_one (by omega)
      exact ⟨u, l.natAbs, hold u hu, (hseen1 _).mpr (Or.inr hu), (hseen1 _).mpr (Or.inl rfl),
        hud, hlev⟩
    · rw [if_neg hlev] at hn
      obtain ⟨u, w, huw, hu, hw, hud, hwd⟩ := h.count_two hn
      exact ⟨u, w, huw, (hseen1 _).mpr (Or.inr hu), (hseen1 _).mpr (Or.inr hw), hud, hwd⟩
  · intro u hu hud
    simp only at hu ⊢
    by_cases hlev : s.level l.natAbs = d
    · rw [if_pos hlev]; omega
    · rw [if_neg hlev]
      rcases (hseen1 u).mp hu with e | hu1
      · exact absurd (e ▸ hud) hlev
      · exact h.seen_one u hu1 hud
  · intro u w huw hu hw hud hwd
    simp only at hu hw ⊢
    by_cases hlev : s.level l.natAbs = d
    · rw [if_pos hlev]
      rcases (hseen1 u).mp hu with e | hu1
      · rcases (hseen1 w).mp hw with e2 | hw1
        · exact absurd (e.trans e2.symm) huw
        · have := h.seen_one w hw1 hwd
          omega
      · have := h.seen_one u hu1 hud
        omega
    · rw [if_neg hlev]
      rcases (hseen1 u).mp hu with e | hu1
      · exact absurd (e ▸ hud) hlev
      · rcases (hseen1 w).mp hw with e2 | hw1
        · exact absurd (e2 ▸ hwd) hlev
        · exact h.seen_two u w huw hu1 hw1 hud hwd

theorem mark_inv_init (s : SATSolver) (d : Int) (ci : Nat)
    (hfalse : ∀ l ∈ s.formula.getD ci [], lit_false s.assign l) :
    MarkInv s d (analysis_init s ci) := by
  refine ⟨?_, ?_, ?_, ?_, ?_, ?_, ?_, ?_⟩
  · intro l hl
    exact hfalse l (List.mem_reverse.mp hl)
  · intro l hl; cases hl
  · intro v hv; cases hv
  · intro v hv; cases hv
  · intro hn
    have : (analysis_init s ci).num_levels_in_clause = 0 := rfl
    omega
  · intro hn
    have : (analysis_init s ci).num_levels_in_clause = 0 := rfl
    omega
  · intro u hu; cases hu
  · intro u w _ hu; cases hu

/-- When the marking loop ends, its invariant holds and the stack is empty. -/
theorem mark_loop_inv (s : SATSolver) (hg : ReasonInv s) (d : Int) (ci : Nat)
    (hfalse : ∀ l ∈ s.formula.getD ci [], lit_false s.assign l) (n : Nat) (a : Analysis)
    (h : mark_loop s d n (analysis_init s ci) = some a) : MarkInv s d a ∧ a.stack = [] :=
  mark_loop_induct s d (MarkInv s d)
    (fun a l stk hP hs hseen => mark_inv_skip s d a l stk hP hs hseen)
    (fun a l stk hP hs hseen => mark_inv_mark s hg d a l stk hP hs hseen)
    n _ a h (mark_inv_init s d ci hfalse)

/-! ## The pivot of the resolution loop -/

/-- The pivot search returns `0` when no trail entry is marked and at level `d`,
and otherwise the variable of the last such entry. -/
theorem find_pivot_spec (s : SATSolver) (d : Int) (seen : Nat → Bool) :
    (find_pivot s d seen = 0 ∧
      ∀ x ∈ s.trail, ¬ (seen x.natAbs = true ∧ s.level x.natAbs = d)) ∨
    (∃ pre lit post, s.trail = pre ++ lit :: post ∧ find_pivot s d seen = lit.natAbs ∧
      seen lit.natAbs = true ∧ s.level lit.natAbs = d ∧
      ∀ x ∈ post, ¬ (seen x.natAbs = true ∧ s.level x.natAbs = d)) := by
  unfold find_pivot
  cases hf : s.trail.reverse.find?
      (fun lit => seen lit.natAbs && decide (s.level lit.natAbs = d)) with
  | none =>
    left
    refine ⟨rfl, ?_⟩
    intro x hx hp
    have := List.find?_eq_none.mp hf x (List.mem_reverse.mpr hx)
    simp [hp.1, hp.2] at this
  | some lit =>
    right
    obtain ⟨hp, as, bs, hsplit, has⟩ := List.find?_eq_some.mp hf
    simp only [Bool.and_eq_true, decide_eq_true_eq] at hp
    refine ⟨bs.reverse, lit, as.reverse, ?_, rfl, hp.1, hp.2, ?_⟩
    · have := congrArg List.reverse hsplit
      rw [List.reverse_reverse] at this
      rw [this]
      simp
    · intro x hx hpx
      have := has x (List.mem_reverse.mp hx)
      simp [hpx.1, hpx.2] at this

/-- With two marked variables at the current level, the pivot is not `0`, is
marked and at the current level, and has a reason clause: the decision of the
level is the first entry of the level on the trail, not the last marked one. -/
theorem pivot_has_reason (s : SATSolver) (hg : GraphInv s) (seen : Nat → Bool)
    (hassigned : ∀ v, seen v = true → s.assign v ≠ 0) (u w : Nat) (huw : u ≠ w)
    (hu : seen u = true) (hw : seen w = true)
    (hud : s.level u = (s.trail_lim.length : Int))
    (hwd : s.level w = (s.trail_lim.length : Int)) :
    find_pivot s (s.trail_lim.length : Int) seen ≠ 0 ∧
    seen (find_pivot s (s.trail_lim.length : Int) seen) = true ∧
    s.level (find_pivot s (s.trail_lim.length : Int) seen) = (s.trail_lim.length : Int) ∧
    s.reason (find_pivot s (s.trail_lim.length : Int) seen) ≠ -1 := by
  rcases find_pivot_spec s (s.trail_lim.length : Int) seen with
    ⟨_, hnone⟩ | ⟨pre, lit, post, hsplit, hpiv, hseen, hlev, hpost⟩
  · exfalso
    obtain ⟨x, hx, hxu⟩ := hg.trail.on_trail u (hassigned u hu)
    exact hnone x hx ⟨by rw [hxu]; exact hu, by rw [hxu]; exact hud⟩
  · rw [hpiv]
    have hlitmem : lit ∈ s.trail := by
      rw [hsplit]; exact List.mem_append_right _ (List.mem_cons_self _ _)
    refine ⟨?_, hseen, hlev, ?_⟩
    · have := hg.trail_nonzero lit hlitmem
      omega
    · intro hr
      -- the pivot would be the decision of the current level
      have hj : pre.length < s.trail.length := by
        rw [hsplit, List.length_append, List.length_cons]; omega
      have hgetj : s.trail.getD pre.length 0 = lit := by
        rw [hsplit, List.getD_append_right _ _ _ _ (le_refl _)]
        simp
      have hjlim : pre.length ∈ s.trail_lim :=
        hg.trail.decisions pre.length hj (by rw [hgetj]; exact hr)
      -- one of the two marked variables is not the pivot
      have hother : ∃ z, z ≠ lit.natAbs ∧ seen z = true ∧
          s.level z = (s.trail_lim.length : Int) := by
        by_cases e : u = lit.natAbs
        · exact ⟨w, fun e2 => huw (e.trans e2.symm), hw, hwd⟩
        · exact ⟨u, e, hu, hud⟩
      obtain ⟨z, hz, hzs, hzd⟩ := hother
      obtain ⟨x, hx, hxz⟩ := hg.trail.on_trail z (hassigned z hzs)
      rw [hsplit] at hx
      rcases List.mem_append.mp hx with h1 | h1
      · obtain ⟨i, hi, hix⟩ := List.mem_iff_getElem.mp h1
        have hi2 : i < s.trail.length := by omega
        have hgeti : s.trail.getD i 0 = x := by
          rw [hsplit, List.getD_append _ _ _ _ hi, List.getD_eq_getElem _ _ hi, hix]
        have hlevi := hg.trail.levels i hi2
        rw [hgeti, hxz, hzd] at hlevi
        have hlt : (s.trail_lim.filter (fun m => decide (m ≤ i))).length < s.trail_lim.length :=
          List.length_filter_lt_length_iff_exists.mpr
            ⟨pre.length, hjlim, by simp; omega⟩
        omega
      · rcases List.mem_cons.mp h1 with rfl | h2
        · exact hz hxz.symm
        · exact hpost x h2 ⟨by rw [hxz]; exact hzs, by rw [hxz]; exact hzd⟩

/-! ## Fuel: a pass of the loop of `solve` -/

theorem resolve_loop_mono (s : SATSolver) (cl : Int) (n : Nat) :
    ∀ (a r : Analysis), resolve_loop s cl n a = some r →
      ∀ m, n ≤ m → resolve_loop s cl m a = some r := by
  induction n with
  | zero => intro a r h; simp [resolve_loop] at h
  | succ n ih =>
    intro a r h m hm
    obtain ⟨m, rfl⟩ : ∃ k, m = k + 1 := ⟨m - 1, by omega⟩
    unfold resolve_loop at h ⊢
    by_cases hnum : a.num_levels_in_clause > 1
    · simp only [hnum, if_true] at h ⊢
      by_cases hpiv : find_pivot s cl a.seen = 0
      · simpa only [hpiv, if_true] using h
      · simp only [hpiv, if_false] at h ⊢
        exact ih _ r h m (by omega)
    · simpa only [hnum, if_false] using h

theorem analyze_clause_mono (n m : Nat) (s : SATSolver) (ci : Nat) (learned : List Int)
    (h : analyze_clause n s ci = some learned) (hm : n ≤ m) :
    analyze_clause m s ci = some learned := by
  cases hmk : mark_loop s (s.trail_lim.length : Int) n (analysis_init s ci) with
  | none => simp only [analyze_clause, hmk] at h; cases h
  | some a1 =>
    cases hrs : resolve_loop s (s.trail_lim.length : Int) n a1 with
    | none => simp only [analyze_clause, hmk, hrs] at h; cases h
    | some a2 =>
      simp only [analyze_clause, hmk, hrs] at h
      simp only [analyze_clause, mark_loop_mono s _ n _ a1 hmk m hm,
        resolve_loop_mono s _ n a1 a2 hrs m hm]
      exact h

theorem analyze_conflict_mono (n m : Nat) (s : SATSolver) (ci : Nat)
    (r : SATSolver × List Int) (h : analyze_conflict n s ci = some r) (hm : n ≤ m) :
    analyze_conflict m s ci = some r := by
  cases hc : analyze_clause n s ci with
  | none => simp only [analyze_conflict, hc] at h; cases h
  | some learned =>
    simp only [analyze_conflict, hc] at h
    simp only [analyze_conflict, analyze_clause_mono n m s ci learned hc hm]
    exact h

theorem solve_iter_mono (n m : Nat) (s : SATSolver) (r : Step)
    (h : solve_iter n s = some r) (hm : n ≤ m) : solve_iter m s = some r := by
  unfold solve_iter at h ⊢
  cases hp : propagate n s with
  | none => rw [hp] at h; cases h
  | some p =>
    obtain ⟨s1, c⟩ := p
    rw [hp] at h
    rw [propagate_mono n m s _ hp hm]
    cases c with
    | none => exact h
    | some ci =>
      simp only at h ⊢
      by_cases he : s1.trail_lim.isEmpty = true
      · simpa only [he, if_true] using h
      · simp only [he, Bool.false_eq_true, if_false] at h ⊢
        cases ha : analyze_conflict n s1 ci with
        | none => rw [ha] at h; cases h
        | some q =>
          rw [ha] at h
          rw [analyze_conflict_mono n m s1 ci q ha hm]
          exact h

/-- A pass that returns with some fuel returns the same with any fuel with which
it returns. -/
theorem solve_iter_agree (k : Nat) (s : SATSolver) (r : Step) (h : solve_iter k s = some r) :
    ∀ fuel, solve_iter fuel s = none ∨ solve_iter fuel s = some r := by
  intro fuel
  rcases Nat.le_total k fuel with hle | hle
  · exact Or.inr (solve_iter_mono k fuel s r h hle)
  · cases hf : solve_iter fuel s with
    | none => exact Or.inl rfl
    | some r1 =>
      have := solve_iter_mono fuel k s r1 hf hle
      rw [h] at this
      exact Or.inr (by rw [Option.some.inj this])

/-- When the loop of `solve` does not return from a state the run reaches,
`solve` does not return. -/
theorem never_returns_of_reachable (f : CNFFormula) :
    ∀ s, Reachable f s → (∀ iters fuel, solve_loop iters fuel s = none) →
      ∀ fuel, solve fuel f = none := by
  intro s hs
  induction hs with
  | start => intro h fuel; exact h fuel fuel
  | step k s t _ hstep ih =>
    intro ht
    exact ih (solve_loop_stuck_step s t (solve_iter_agree k s _ hstep) ht)

/-! ## The state in which `propagate` reports a conflict -/

/-- In the state in which `propagate` reports a conflict, on an input without
the literal `0`: the invariants of the implication graph hold, and the
conflicting clause is not empty and has only false literals. -/
theorem conflict_state (f : CNFFormula) (hf : NonzeroLits f) (s : SATSolver)
    (hs : Reachable f s) (k : Nat) (s1 : SATSolver) (ci : Nat)
    (hp : propagate k s = some (s1, some ci)) :
    GraphInv s1 ∧ (∀ l ∈ s1.formula.getD ci [], lit_false s1.assign l) ∧
      s1.formula.getD ci [] ≠ [] := by
  have hg1 : GraphInv s1 := graph_inv_propagate k s _ (graph_inv_reachable hf hs) hp
  obtain ⟨⟨lit, hlit⟩, hall⟩ := propagate_loop_conflict k s s1 0 ci hp
  refine ⟨hg1, ?_, ?_⟩
  · intro l hl
    obtain ⟨h1, h2⟩ := hall l hl
    exact lit_false_of_not_true s1.assign l hg1.range
      (getD_lits_nonzero _ hg1.nonzero ci l hl) h1 h2
  · intro he
    have hgr := propagate_grows k s _ hp
    have hw := watch_exact_reachable hs lit ci
    rw [← hgr.watches, ← hgr.formula] at hw
    have hpos := List.count_pos_iff.mpr hlit
    rw [hw, he] at hpos
    simp [watched_lits] at hpos

/-- With two marked variables at the current level when the marking loop has
ended, a pass of the resolution loop changes nothing and the loop never ends. -/
theorem resolve_stuck_of_two (s : SATSolver) (hg : GraphInv s) (a : Analysis)
    (hm : MarkInv s (s.trail_lim.length : Int) a) (hstack : a.stack = []) (u w : Nat)
    (huw : u ≠ w) (hu : a.seen u = true) (hw : a.seen w = true)
    (hud : s.level u = (s.trail_lim.length : Int))
    (hwd : s.level w = (s.trail_lim.length : Int)) :
    1 < a.num_levels_in_clause ∧
    find_pivot s (s.trail_lim.length : Int) a.seen ≠ 0 ∧
    s.reason (find_pivot s (s.trail_lim.length : Int) a.seen) ≠ -1 ∧
    a.seen (find_pivot s (s.trail_lim.length : Int) a.seen) = true ∧
    resolve_reason s (s.trail_lim.length : Int)
      (s.formula.getD (s.reason (find_pivot s (s.trail_lim.length : Int) a.seen)).toNat [])
      { a with
        seen := Function.update a.seen (find_pivot s (s.trail_lim.length : Int) a.seen) false
        num_levels_in_clause := a.num_levels_in_clause - 1 } = a ∧
    resolve_step s (s.trail_lim.length : Int) a
      (find_pivot s (s.trail_lim.length : Int) a.seen) = a ∧
    ∀ fuel, resolve_loop s (s.trail_lim.length : Int) fuel a = none := by
  have hnum : 2 ≤ a.num_levels_in_clause := hm.seen_two u w huw hu hw hud hwd
  obtain ⟨hp0, hps, hpl, hpr⟩ :=
    pivot_has_reason s hg a.seen hm.seen_assigned u w huw hu hw hud hwd
  have hall : ∀ rl ∈ s.formula.getD
      (s.reason (find_pivot s (s.trail_lim.length : Int) a.seen)).toNat [],
      a.seen rl.natAbs = true := by
    intro rl hrl
    rcases hm.closure _ hps hpr rl hrl with h1 | h1
    · exact h1
    · rw [hstack] at h1; cases h1
  have hmem := (reason_other_false s hg.reason _ (hm.seen_assigned _ hps) hpr).1
  have hfix := resolve_step_fix s _ a _ hpr hpl (by omega) hall hmem
  refine ⟨by omega, hp0, hpr, hps, ?_, hfix, resolve_loop_stuck s _ a (by omega) hp0 hfix⟩
  exact resolve_reason_remark s _ _ a hps hpl (by omega) _ hall hmem

theorem sc_reach_s1 : Reachable scenario_c sc_s1 :=
  Reachable.step 10 sc_s0 sc_s1 Reachable.start (step_of_is_next _ _ (by decide!))

theorem sc_mark : mark_loop sc_s2 (sc_s2.trail_lim.length : Int) 10 (analysis_init sc_s2 3)
    = some sc_a1 := by
  have h1 : (sc_s2.trail_lim.length : Int) = 1 := by decide!
  rw [h1]
  have h2 : (mark_loop sc_s2 1 10 (analysis_init sc_s2 3)).isSome = true := by decide!
  unfold sc_a1
  cases h : mark_loop sc_s2 1 10 (analysis_init sc_s2 3) with
  | none => rw [h] at h2; cases h2
  | some a => rfl

/-! ## C19 -/

/-- C19: on an input without the literal `0`, when `propagate` reports a
conflict above level 0 and the marking loop of `analyze_conflict` has marked two
variables at the current level: the counter is above 1, the pivot of a pass of
the resolution loop is not `0` and has a reason clause, the pass unmarks the
pivot and the scan of its reason clause marks it again and restores the counter,
so the pass leaves the local variables as they were; `analyze_conflict`, the
pass of the loop of `solve`, and `solve` itself never return. -/
theorem resolution_loop_never_ends (f : CNFFormula) (hf : NonzeroLits f) (s : SATSolver)
    (hs : Reachable f s) (k : Nat) (s1 : SATSolver) (ci : Nat)
    (hp : propagate k s = some (s1, some ci)) (hlim : s1.trail_lim ≠ []) (n : Nat)
    (a : Analysis)
    (hmark : mark_loop s1 (s1.trail_lim.length : Int) n (analysis_init s1 ci) = some a)
    (u w : Nat) (huw : u ≠ w) (hu : a.seen u = true) (hw : a.seen w = true)
    (hud : s1.level u = (s1.trail_lim.length : Int))
    (hwd : s1.level w = (s1.trail_lim.length : Int)) :
    1 < a.num_levels_in_clause ∧
    find_pivot s1 (s1.trail_lim.length : Int) a.seen ≠ 0 ∧
    s1.reason (find_pivot s1 (s1.trail_lim.length : Int) a.seen) ≠ -1 ∧
    a.seen (find_pivot s1 (s1.trail_lim.length : Int) a.seen) = true ∧
    resolve_reason s1 (s1.trail_lim.length : Int)
      (s1.formula.getD (s1.reason (find_pivot s1 (s1.trail_lim.length : Int) a.seen)).toNat [])
      { a with
        seen := Function.update a.seen (find_pivot s1 (s1.trail_lim.length : Int) a.seen) false
        num_levels_in_clause := a.num_levels_in_clause - 1 } = a ∧
    resolve_step s1 (s1.trail_lim.length : Int) a
      (find_pivot s1 (s1.trail_lim.length : Int) a.seen) = a ∧
    (∀ fuel, analyze_conflict fuel s1 ci = none) ∧
    (∀ fuel, solve_iter fuel s = none) ∧
    ∀ fuel, solve fuel f = none := by
  obtain ⟨hg1, hfalse, _⟩ := conflict_state f hf s hs k s1 ci hp
  obtain ⟨hm, hstack⟩ := mark_loop_inv s1 hg1.reason _ ci hfalse n a hmark
  obtain ⟨r1, r2, r3, r4, r5, r6, r7⟩ :=
    resolve_stuck_of_two s1 hg1 a hm hstack u w huw hu hw hud hwd
  have hac : ∀ fuel, analyze_conflict fuel s1 ci = none :=
    analyze_conflict_stuck s1 ci n a hmark r7
  have hne : s1.trail_lim.isEmpty = false := by
    cases hl : s1.trail_lim with
    | nil => exact absurd hl hlim
    | cons x xs => rfl
  have hit : ∀ fuel, solve_iter fuel s = none := solve_iter_stuck s s1 k ci hp hne hac
  exact ⟨r1, r2, r3, r4, r5, r6, hac, hit,
    never_returns_of_reachable f s hs (solve_loop_stuck s hit)⟩

theorem resolution_loop_never_ends_witness :
    NonzeroLits scenario_c ∧ Reachable scenario_c sc_s1 ∧
    propagate 10 sc_s1 = some (sc_s2, some 3) ∧ sc_s2.trail_lim ≠ [] ∧
    sc_a1.seen 1 = true ∧ sc_a1.seen 2 = true ∧
    sc_s2.level 1 = (sc_s2.trail_lim.length : Int) ∧
    sc_s2.level 2 = (sc_s2.trail_lim.length : Int) ∧
    find_pivot sc_s2 (sc_s2.trail_lim.length : Int) sc_a1.seen = 2 ∧
    resolve_step sc_s2 (sc_s2.trail_lim.length : Int) sc_a1
      (find_pivot sc_s2 (sc_s2.trail_lim.length : Int) sc_a1.seen) = sc_a1 ∧
    ∀ fuel, solve fuel scenario_c = none :=
  have hp : propagate 10 sc_s1 = some (sc_s2, some 3) := pair_of_value _ _ _ (by decide!)
  have h := resolution_loop_never_ends scenario_c (by decide) sc_s1 sc_reach_s1 10 sc_s2 3 hp
    (by decide!) 10 sc_a1 sc_mark 1 2 (by decide) (by decide!) (by decide!) (by decide!)
    (by decide!)
  ⟨by decide, sc_reach_s1, hp, by decide!, by decide!, by decide!, by decide!, by decide!,
    by decide!, h.2.2.2.2.2.1, h.2.2.2.2.2.2.2.2⟩

/-! ## C20 -/

/-- When `analyze_conflict` returns, the marking loop has left at most one
marked variable at the current level, the resolution loop has done no pass, and
the clause returned is `learned` of the marking loop or, when that is empty, the
negated conflict clause. -/
theorem analyze_clause_cases (s : SATSolver) (hg : GraphInv s) (ci : Nat)
    (hfalse : ∀ l ∈ s.formula.getD ci [], lit_false s.assign l) (n : Nat)
    (learned : List Int) (h : analyze_clause n s ci = some learned) :
    ∃ a, MarkInv s (s.trail_lim.length : Int) a ∧ a.num_levels_in_clause ≤ 1 ∧
      learned = if a.learned.isEmpty then (s.formula.getD ci []).map (fun l => -l)
        else a.learned := by
  cases hmk : mark_loop s (s.trail_lim.length : Int) n (analysis_init s ci) with
  | none => simp only [analyze_clause, hmk] at h; cases h
  | some a1 =>
    obtain ⟨hm, hstack⟩ := mark_loop_inv s hg.reason _ ci hfalse n a1 hmk
    cases hrs : resolve_loop s (s.trail_lim.length : Int) n a1 with
    | none => simp only [analyze_clause, hmk, hrs] at h; cases h
    | some a2 =>
      simp only [analyze_clause, hmk, hrs] at h
      have hnum : a1.num_levels_in_clause ≤ 1 := by
        by_contra hgt
        obtain ⟨u, w, huw, hu, hw, hud, hwd⟩ := hm.count_two (by omega)
        have := (resolve_stuck_of_two s hg a1 hm hstack u w huw hu hw hud hwd).2.2.2.2.2.2 n
        rw [hrs] at this
        cases this
      have h21 : a2 = a1 := by
        cases n with
        | zero => simp [resolve_loop] at hrs
        | succ m =>
          unfold resolve_loop at hrs
          have : ¬ a1.num_levels_in_clause > 1 := by omega
          simp only [this, if_false, Option.some.injEq] at hrs
          exact hrs.symm
      subst h21
      refine ⟨a2, hm, hnum, ?_⟩
      split at h
      · rename_i he
        simp only [Option.some.injEq] at h
        simp [he, ← h]
      · rename_i he
        simp only [Option.some.injEq] at h
        simp [he, ← h]

/-- C20: on an input without the literal `0`, when `propagate` reports a
conflict above level 0 and `analyze_conflict` returns a clause: the clause is not
empty, each of its literals is true under the assignment of that moment, so the
clause is satisfied when it is added, and the negation of none of its literals
is on the trail. -/
theorem learned_literals_are_true (f : CNFFormula) (hf : NonzeroLits f) (s : SATSolver)
    (hs : Reachable f s) (k : Nat) (s1 : SATSolver) (ci : Nat)
    (hp : propagate k s = some (s1, some ci)) (hlim : s1.trail_lim ≠ []) (n : Nat)
    (s2 : SATSolver) (learned : List Int)
    (ha : analyze_conflict n s1 ci = some (s2, learned)) :
    learned ≠ [] ∧ (∀ l ∈ learned, lit_true s1.assign l) ∧ clause_sat s1.assign learned ∧
    ∀ l ∈ learned, -l ∉ s1.trail := by
  obtain ⟨hg1, hfalse, hne⟩ := conflict_state f hf s hs k s1 ci hp
  obtain ⟨hc, _⟩ := analyze_conflict_fields n s1 s2 ci learned ha
  obtain ⟨a, hm, _, hlearned⟩ := analyze_clause_cases s1 hg1 ci hfalse n learned hc
  have hnonempty : learned ≠ [] := by
    rw [hlearned]
    split
    · intro he
      exact hne (List.map_eq_nil_iff.mp he)
    · rename_i h1
      intro he
      apply h1
      rw [he]; rfl
  have htrue : ∀ l ∈ learned, lit_true s1.assign l := by
    intro l hl
    rw [hlearned] at hl
    split at hl
    · obtain ⟨x, hx, rfl⟩ := List.mem_map.mp hl
      exact lit_true_neg _ _ (hfalse x hx)
    · exact (hm.learned_true l hl).1
  refine ⟨hnonempty, htrue, ?_, ?_⟩
  · cases hl : learned with
    | nil => exact absurd hl hnonempty
    | cons x xs =>
      exact ⟨x, List.mem_cons_self _ _, htrue x (by rw [hl]; exact List.mem_cons_self _ _)⟩
  · intro l hl hneg
    have h1 := hg1.trail.trail_true (-l) hneg
    rw [Int.natAbs_neg] at h1
    have h2 := htrue l hl
    unfold lit_true at h2
    rcases h2 with ⟨h3, h4⟩ | ⟨h3, h4⟩
    · have : ¬ (-l > 0) := by omega
      rw [if_neg this, h3] at h1
      omega
    · have : -l > 0 := by omega
      rw [if_pos this, h3] at h1
      omega

theorem learned_literals_are_true_witness :
    NonzeroLits late_conflict ∧ Reachable late_conflict lc_s2 ∧
    propagate 10 lc_s2 = some (lc_s3, some 1) ∧ lc_s3.trail_lim ≠ [] ∧
    analyze_conflict 10 lc_s3 1 = some (lc_s4, [3, 2, 1]) ∧
    (∀ l ∈ ([3, 2, 1] : List Int), lit_true lc_s3.assign l) ∧
    ∀ l ∈ ([3, 2, 1] : List Int), -l ∉ lc_s3.trail :=
  have hp : propagate 10 lc_s2 = some (lc_s3, some 1) := pair_of_value _ _ _ (by decide!)
  have ha : analyze_conflict 10 lc_s3 1 = some (lc_s4, [3, 2, 1]) :=
    pair_of_value _ _ _ (by decide!)
  have h := learned_literals_are_true late_conflict (by decide) lc_s2 lc_reach_s2 10 lc_s3 1
    hp (by decide!) 10 lc_s4 [3, 2, 1] ha
  ⟨by decide, lc_reach_s2, hp, by decide!, ha, h.2.1, h.2.2.2⟩

/-! ## C12 -/

/-- In every state of the solver object between the calls of its member
functions, the trail satisfies the trail invariant. -/
theorem trail_inv_solve_state {f : CNFFormula} {s : SATSolver} (hs : SolveState f s) :
    TrailInv s := by
  cases hs with
  | constructed => exact trail_inv_start f
  | loop_head _ h => exact trail_inv_reachable h
  | propagated fuel s0 _ c h hp => exact trail_inv_propagate fuel s0 _ (trail_inv_reachable h) hp
  | analyzed fuel fuel2 s0 s1 _ ci learned h hp _ ha =>
    have h1 : TrailInv s1 := trail_inv_propagate fuel s0 _ (trail_inv_reachable h) hp
    obtain ⟨_, _, _, e1, e2, e3, e4, e5, _⟩ := analyze_conflict_fields fuel2 s1 _ ci learned ha
    exact trail_inv_of_fields s1 _ h1 e1 e2 e3 e4 e5
  | learned fuel fuel2 s0 s1 s2 ci learned h hp _ ha =>
    have h1 : TrailInv s1 := trail_inv_propagate fuel s0 _ (trail_inv_reachable h) hp
    obtain ⟨_, _, _, e1, e2, e3, e4, e5, _⟩ := analyze_conflict_fields fuel2 s1 s2 ci learned ha
    exact trail_inv_of_fields s1 _ h1 e1 e2 e3 e4 e5

/-- C12: in every state `s` of the solver object between the calls of its
member functions (`SolveState`; the state in which `solve()` calls `backjump`
is one of them) the trail levels do not decrease from head to tail, and for
every target level `t ≥ 0`,
after `backjump(t)` the trail is the old trail restricted to its entries of
level at most `t`, a prefix of the old trail; the variable of every removed
entry has value `0`, level `-1` and reason `-1`; every other variable keeps its
value, level and reason; and `trail_lim` has length `min(old length, t)`. -/
theorem backjump_restricts_trail (f : CNFFormula) (s : SATSolver) (hs : SolveState f s)
    (t : Int) (ht : 0 ≤ t) :
    LevelsMonotone s ∧
    (backjump s t).trail = s.trail.filter (fun l => decide (s.level l.natAbs ≤ t)) ∧
    (backjump s t).trail <+: s.trail ∧
    (∀ l ∈ s.trail, t < s.level l.natAbs →
      (backjump s t).assign l.natAbs = 0 ∧ (backjump s t).level l.natAbs = -1 ∧
      (backjump s t).reason l.natAbs = -1) ∧
    (∀ v, (∀ l ∈ s.trail, l.natAbs = v → s.level v ≤ t) →
      (backjump s t).assign v = s.assign v ∧ (backjump s t).level v = s.level v ∧
      (backjump s t).reason v = s.reason v) ∧
    (backjump s t).trail_lim.length = min s.trail_lim.length t.toNat := by
  have hinv := trail_inv_solve_state hs
  have hmono := trail_inv_monotone s hinv
  exact ⟨hmono, backjump_postcondition s t ht hmono hinv.distinct⟩

/-- Witness for C12: the call of `backjump` in the third pass of `solve()` on
`(-1 2), (-1 -2 -3 -4), (-2 3)`, with the learned clause `(3 2 1)` just added and
the target level `1`: the trail `1 2 3 4` becomes `1 2 3`. -/
theorem backjump_restricts_trail_witness :
    SolveState late_conflict (add_learned_clause lc_s4 [3, 2, 1]) ∧
    backjump_target (add_learned_clause lc_s4 [3, 2, 1]) [3, 2, 1] = 1 ∧
    (add_learned_clause lc_s4 [3, 2, 1]).trail = [1, 2, 3, 4] ∧
    (backjump (add_learned_clause lc_s4 [3, 2, 1]) 1).trail = [1, 2, 3] ∧
    (backjump (add_learned_clause lc_s4 [3, 2, 1]) 1).trail =
      (add_learned_clause lc_s4 [3, 2, 1]).trail.filter
        (fun l => decide ((add_learned_clause lc_s4 [3, 2, 1]).level l.natAbs ≤ 1)) ∧
    (backjump (add_learned_clause lc_s4 [3, 2, 1]) 1).trail_lim.length =
      min (add_learned_clause lc_s4 [3, 2, 1]).trail_lim.length (1 : Int).toNat :=
  have hs : SolveState late_conflict (add_learned_clause lc_s4 [3, 2, 1]) :=
    SolveState.learned 10 10 lc_s2 lc_s3 lc_s4 1 [3, 2, 1] lc_reach_s2
      (pair_of_value _ _ _ (by decide!)) (by decide!) (pair_of_value _ _ _ (by decide!))
  have h := backjump_restricts_trail late_conflict _ hs 1 (by decide)
  ⟨hs, by decide!, by decide!, by decide!, h.2.1, h.2.2.2.2.2⟩

/-! ## The backjump level computed by `solve` -/

theorem extractions_none (n : Nat) (cs : List Char) (h : CNFParser.read_int cs = none) :
    extractions n cs = [] := by
  cases n with
  | zero => rfl
  | succ k => simp only [extractions, h]

theorem extractions_some (n : Nat) (cs : List Char) (v : Int) (rest : List Char)
    (h : CNFParser.read_int cs = some (v, rest)) :
    extractions (n + 1) cs = v :: extractions n rest := by
  simp only [extractions, h]

/-- The inner loop returns `clause` extended by the integers of the rest of the
line before the first `0`. -/
theorem read_clause_spec :
    ∀ (fuel : Nat) (cs : List Char) (clause : Clause) (n : Nat), cs.length < fuel →
      cs.length ≤ n →
      CNFParser.read_clause fuel cs clause =
        some (clause ++ (extractions n cs).takeWhile (fun v => decide (v ≠ 0))) := by
  intro fuel
  induction fuel with
  | zero => intro cs clause n h; omega
  | succ k ih =>
    intro cs clause n h hn
    unfold CNFParser.read_clause
    cases hr : CNFParser.read_int cs with
    | none =>
      rw [extractions_none n cs hr]
      simp
    | some p =>
      obtain ⟨lit, rest⟩ := p
      have hs := read_int_shorter cs lit rest hr
      obtain ⟨m, rfl⟩ : ∃ m, n = m + 1 := ⟨n - 1, by omega⟩
      rw [extractions_some m cs lit rest hr]
      by_cases hz : lit = 0
      · simp only [hz, ne_eq, not_true_eq_false, if_false, List.takeWhile_cons, decide_False,
          Bool.false_eq_true, List.append_nil]
      · simp only [ne_eq, hz, not_false_eq_true, if_true, List.takeWhile_cons, decide_True]
        rw [ih rest (clause ++ [lit]) m (by omega) (by omega)]
        simp

/-- What a line contributes when read alone. -/
theorem parse_line_spec (fuel : Nat) (line : List Char) (hfuel : line.length < fuel) :
    CNFParser.parse_lines fuel [line] [] = some (line_clauses line) := by
  rw [parse_lines_cons]
  unfold line_clauses
  by_cases hc : (line.isEmpty || line.head? = some 'c' || line.head? = some 'p') = true
  · rw [if_pos hc]
    have : line = [] ∨ line.head? = some 'c' ∨ line.head? = some 'p' := by
      simp only [Bool.or_eq_true, decide_eq_true_eq, List.isEmpty_iff] at hc
      tauto
    rw [if_pos this]
    rfl
  · rw [if_neg hc]
    have : ¬ (line = [] ∨ line.head? = some 'c' ∨ line.head? = some 'p') := by
      intro h
      apply hc
      simp only [Bool.or_eq_true, decide_eq_true_eq, List.isEmpty_iff]
      tauto
    rw [if_neg this]
    rw [read_clause_spec fuel line [] line.length hfuel (le_refl _)]
    simp only [List.nil_append]
    unfold line_ints
    by_cases he : (extractions line.length line).takeWhile (fun v => decide (v ≠ 0)) = []
    · rw [if_pos he, he]
      rfl
    · rw [if_neg he]
      have : (!((extractions line.length line).takeWhile
          (fun v => decide (v ≠ 0))).isEmpty) = true := by
        cases hx : (extractions line.length line).takeWhile (fun v => decide (v ≠ 0)) with
        | nil => exact absurd hx he
        | cons a b => rfl
      rw [if_pos this]
      rfl

/-- The result is the concatenation of what the lines contribute. -/
theorem parse_lines_spec (fuel : Nat) :
    ∀ ls : List (List Char), (∀ line ∈ ls, line.length < fuel) →
      CNFParser.parse_lines fuel ls [] = some ((ls.map line_clauses).flatten) := by
  intro ls
  induction ls with
  | nil => intro _; rfl
  | cons line rest ih =>
    intro h
    have hrest := ih (fun l hl => h l (List.mem_cons_of_mem _ hl))
    have hcs := parse_line_spec fuel line (h line (List.mem_cons_self _ _))
    rw [parse_lines_head fuel line rest _ hcs, hrest]
    simp

/-- `std::getline` up to a line break. -/
theorem get_lines_line (l : List Char) :
    ∀ (cur rest : List Char), '\n' ∉ l →
      CNFParser.get_lines cur (l ++ '\n' :: rest) = (cur ++ l) :: CNFParser.get_lines [] rest := by
  induction l with
  | nil =>
    intro cur rest _
    simp [CNFParser.get_lines]
  | cons c l ih =>
    intro cur rest h
    have hc : c ≠ '\n' := fun e => h (by rw [e]; exact List.mem_cons_self _ _)
    have hl : '\n' ∉ l := fun e => h (List.mem_cons_of_mem _ e)
    have hstep : CNFParser.get_lines cur (c :: (l ++ '\n' :: rest)) =
        CNFParser.get_lines (cur ++ [c]) (l ++ '\n' :: rest) := by
      rw [CNFParser.get_lines, if_neg hc]
    rw [List.cons_append, hstep, ih (cur ++ [c]) rest hl]
    simp

/-- `std::getline` on what follows the last line break. -/
theorem get_lines_last (l : List Char) :
    ∀ (cur : List Char), '\n' ∉ l →
      CNFParser.get_lines cur l = if (cur ++ l).isEmpty then [] else [cur ++ l] := by
  induction l with
  | nil =>
    intro cur _
    simp [CNFParser.get_lines]
  | cons c l ih =>
    intro cur h
    have hc : c ≠ '\n' := fun e => h (by rw [e]; exact List.mem_cons_self _ _)
    have hl : '\n' ∉ l := fun e => h (List.mem_cons_of_mem _ e)
    have hstep : CNFParser.get_lines cur (c :: l) = CNFParser.get_lines (cur ++ [c]) l := by
      rw [CNFParser.get_lines, if_neg hc]
    rw [hstep, ih (cur ++ [c]) hl]
    simp

theorem join_lines_cons (l : List Char) (ls : List (List Char)) (last : List Char) :
    join_lines (l :: ls) last = l ++ '\n' :: join_lines ls last := by
  simp [join_lines]

/-- The lines `std::getline` delivers from a text given by its lines. -/
theorem get_lines_join (ls : List (List Char)) (last : List Char)
    (hls : ∀ l ∈ ls, '\n' ∉ l) (hlast : '\n' ∉ last) :
    CNFParser.get_lines [] (join_lines ls last) = ls ++ (if last.isEmpty then [] else [last]) := by
  induction ls with
  | nil =>
    have := get_lines_last last [] hlast
    simpa [join_lines] using this
  | cons l ls ih =>
    rw [join_lines_cons, get_lines_line l [] _ (hls l (List.mem_cons_self _ _)),
      ih (fun x hx => hls x (List.mem_cons_of_mem _ hx))]
    simp

/-- Every text consists of lines ended by a line break and a rest without one. -/
theorem text_is_lines (text : List Char) :
    ∃ ls last, (∀ l ∈ ls, '\n' ∉ l) ∧ '\n' ∉ last ∧ text = join_lines ls last := by
  induction text with
  | nil => exact ⟨[], [], by simp, by simp, rfl⟩
  | cons c cs ih =>
    obtain ⟨ls, last, h1, h2, h3⟩ := ih
    by_cases hc : c = '\n'
    · refine ⟨[] :: ls, last, ?_, h2, ?_⟩
      · intro l hl
        rcases List.mem_cons.mp hl with rfl | hl
        · simp
        · exact h1 l hl
      · rw [join_lines_cons, h3, hc]; rfl
    · cases ls with
      | nil =>
        refine ⟨[], c :: last, by simp, ?_, ?_⟩
        · intro hm
          rcases List.mem_cons.mp hm with e | e
          · exact hc e.symm
          · exact h2 e
        · rw [h3]; simp [join_lines]
      | cons l tl =>
        refine ⟨(c :: l) :: tl, last, ?_, h2, ?_⟩
        · intro x hx
          rcases List.mem_cons.mp hx with rfl | hx
          · intro hm
            rcases List.mem_cons.mp hm with e | e
            · exact hc e.symm
            · exact h1 l (List.mem_cons_self _ _) e
          · exact h1 x (List.mem_cons_of_mem _ hx)
        · rw [h3, join_lines_cons, join_lines_cons]; rfl

theorem line_clauses_nil : line_clauses [] = [] := by
  unfold line_clauses
  simp

/-! ## Reading decimal numerals -/

theorem digit_char_spec (d : Nat) (h : d < 10) :
    (digit_char d).isDigit = true ∧ (digit_char d).toNat - 48 = d ∧
    CNFParser.is_space (digit_char d) = false ∧ digit_char d ≠ '-' ∧ digit_char d ≠ '+' ∧
    digit_char d ≠ '\n' ∧ digit_char d ≠ 'c' ∧ digit_char d ≠ 'p' := by
  interval_cases d <;> decide

theorem decimal_spec :
    ∀ (k n : Nat), n < k →
      (decimal k n).foldl (fun a d => 10 * a + d) 0 = n ∧ (∀ d ∈ decimal k n, d < 10) ∧
      decimal k n ≠ [] := by
  intro k
  induction k with
  | zero => intro n h; omega
  | succ k ih =>
    intro n h
    unfold decimal
    by_cases hn : n < 10
    · rw [if_pos hn]
      refine ⟨by simp, ?_, by simp⟩
      intro d hd
      rw [List.mem_singleton.mp hd]; exact hn
    · rw [if_neg hn]
      obtain ⟨h1, h2, _⟩ := ih (n / 10) (by omega)
      refine ⟨?_, ?_, by simp⟩
      · rw [List.foldl_append, h1]
        simp only [List.foldl_cons, List.foldl_nil]
        omega
      · intro d hd
        rcases List.mem_append.mp hd with h3 | h3
        · exact h2 d h3
        · rw [List.mem_singleton.mp h3]; omega

/-- `read_digits` on the characters of a digit sequence, followed by something
that is not a digit. -/
theorem read_digits_decimal (ds : List Nat) (hds : ∀ d ∈ ds, d < 10) (rest : List Char)
    (hrest : ∀ c, rest.head? = some c → c.isDigit = false) :
    ∀ (acc n : Nat),
      CNFParser.read_digits (ds.map digit_char ++ rest) acc n =
        (ds.foldl (fun a d => 10 * a + d) acc, n + ds.length, rest) := by
  induction ds with
  | nil =>
    intro acc n
    cases rest with
    | nil => rfl
    | cons c cs =>
      have hc := hrest c rfl
      simp [CNFParser.read_digits, hc]
  | cons d ds ih =>
    intro acc n
    obtain ⟨h1, h2, _⟩ := digit_char_spec d (hds d (List.mem_cons_self _ _))
    have hstep : CNFParser.read_digits (digit_char d :: (ds.map digit_char ++ rest)) acc n =
        CNFParser.read_digits (ds.map digit_char ++ rest)
          (10 * acc + ((digit_char d).toNat - 48)) (n + 1) := by
      rw [CNFParser.read_digits, if_pos h1]
    rw [List.map_cons, List.cons_append, hstep, h2,
      ih (fun x hx => hds x (List.mem_cons_of_mem _ hx))]
    simp only [List.foldl_cons, List.length_cons]
    congr 2
    omega

theorem read_sign_digit (c : Char) (cs : List Char) (h1 : c ≠ '-') (h2 : c ≠ '+') :
    CNFParser.read_sign (c :: cs) = (false, c :: cs) := by
  unfold CNFParser.read_sign
  split
  · rename_i r he
    exact absurd (List.cons.inj he).1 h1
  · rename_i r he
    exact absurd (List.cons.inj he).1 h2
  · rfl

/-- The numeral of `n` starts with a digit. -/
theorem numeral_head (n : Nat) :
    ∃ d rest, d < 10 ∧ numeral n = digit_char d :: rest := by
  obtain ⟨_, h2, h3⟩ := decimal_spec (n + 1) n (by omega)
  unfold numeral
  cases hd : decimal (n + 1) n with
  | nil => exact absurd hd h3
  | cons d ds => exact ⟨d, ds.map digit_char, h2 d (by rw [hd]; exact List.mem_cons_self _ _), rfl⟩

/-- One extraction reads back an integer written by `int_text` and followed by a
blank. -/
theorem read_int_text (v : Int) (hv : -2147483648 ≤ v ∧ v ≤ 2147483647) (rest : List Char) :
    CNFParser.read_int (int_text v ++ ' ' :: rest) = some (v, ' ' :: rest) := by
  obtain ⟨h1, h2, h3⟩ := decimal_spec (v.natAbs + 1) v.natAbs (by omega)
  obtain ⟨d, tl, hd, hnum⟩ := numeral_head v.natAbs
  obtain ⟨_, _, c3, c4, c5, _⟩ := digit_char_spec d hd
  have hdig : CNFParser.read_digits (numeral v.natAbs ++ ' ' :: rest) 0 0 =
      (v.natAbs, (decimal (v.natAbs + 1) v.natAbs).length, ' ' :: rest) := by
    unfold numeral
    rw [read_digits_decimal _ h2 (' ' :: rest) (by intro c hc; cases hc; decide) 0 0, h1]
    simp
  have hlen : (decimal (v.natAbs + 1) v.natAbs).length ≠ 0 := by
    intro h
    exact h3 (List.length_eq_zero.mp h)
  unfold CNFParser.read_int
  by_cases hneg : v < 0
  · have htext : int_text v ++ ' ' :: rest = '-' :: (numeral v.natAbs ++ ' ' :: rest) := by
      unfold int_text
      rw [if_pos hneg]; rfl
    have hdrop : (int_text v ++ ' ' :: rest).dropWhile CNFParser.is_space =
        '-' :: (numeral v.natAbs ++ ' ' :: rest) := by
      rw [htext]
      rw [List.dropWhile_cons_of_neg (by decide)]
    have hsign : CNFParser.read_sign ('-' :: (numeral v.natAbs ++ ' ' :: rest)) =
        (true, numeral v.natAbs ++ ' ' :: rest) := rfl
    simp only [hdrop, hsign, hdig, hlen, if_false, if_true]
    have hval : -((v.natAbs : Nat) : Int) = v := by omega
    rw [hval]
    have : ¬ (v < -2147483648 ∨ 2147483647 < v) := by omega
    rw [if_neg this]
  · have htext : int_text v ++ ' ' :: rest = digit_char d :: (tl ++ ' ' :: rest) := by
      unfold int_text
      rw [if_neg hneg, hnum]; rfl
    have hdrop : (int_text v ++ ' ' :: rest).dropWhile CNFParser.is_space =
        numeral v.natAbs ++ ' ' :: rest := by
      rw [htext, List.dropWhile_cons_of_neg (by rw [c3]; decide), hnum]
      rfl
    have hsign : CNFParser.read_sign (numeral v.natAbs ++ ' ' :: rest) =
        (false, numeral v.natAbs ++ ' ' :: rest) := by
      rw [hnum]
      exact read_sign_digit _ _ c4 c5
    simp only [hdrop, hsign, hdig, hlen, if_false, Bool.false_eq_true]
    have hval : ((v.natAbs : Nat) : Int) = v := by omega
    rw [hval]
    have : ¬ (v < -2147483648 ∨ 2147483647 < v) := by omega
    rw [if_neg this]

theorem read_int_blank (cs : List Char) :
    CNFParser.read_int (' ' :: cs) = CNFParser.read_int cs := by
  unfold CNFParser.read_int
  rw [List.dropWhile_cons_of_pos (by decide)]

theorem extractions_blank (n : Nat) (cs : List Char) :
    extractions n (' ' :: cs) = extractions n cs := by
  cases n with
  | zero => rfl
  | succ k => simp only [extractions, read_int_blank]

theorem ints_line_cons (v : Int) (vs : List Int) :
    ints_line (v :: vs) = int_text v ++ ' ' :: ints_line vs := by
  simp [ints_line]

/-- The successive extractions read back the integers written on a line. -/
theorem extractions_ints_line (vs : List Int)
    (hvs : ∀ v ∈ vs, -2147483648 ≤ v ∧ v ≤ 2147483647) :
    ∀ n, vs.length ≤ n → extractions n (ints_line vs) = vs := by
  induction vs with
  | nil =>
    intro n _
    exact extractions_none n [] rfl
  | cons v vs ih =>
    intro n hn
    obtain ⟨m, rfl⟩ : ∃ m, n = m + 1 := ⟨n - 1, by simp at hn; omega⟩
    rw [ints_line_cons, extractions_some m _ v _
      (read_int_text v (hvs v (List.mem_cons_self _ _)) _), extractions_blank,
      ih (fun x hx => hvs x (List.mem_cons_of_mem _ hx)) m (by simp at hn; omega)]

/-- The characters of a written integer are digits or `-`. -/
theorem int_text_chars (v : Int) :
    ∀ c ∈ int_text v, c ≠ '\n' ∧ c ≠ 'c' ∧ c ≠ 'p' := by
  obtain ⟨_, h2, _⟩ := decimal_spec (v.natAbs + 1) v.natAbs (by omega)
  have hnum : ∀ c ∈ numeral v.natAbs, c ≠ '\n' ∧ c ≠ 'c' ∧ c ≠ 'p' := by
    intro c hc
    unfold numeral at hc
    obtain ⟨d, hd, rfl⟩ := List.mem_map.mp hc
    obtain ⟨_, _, _, _, _, c6, c7, c8⟩ := digit_char_spec d (h2 d hd)
    exact ⟨c6, c7, c8⟩
  intro c hc
  unfold int_text at hc
  split at hc
  · rcases List.mem_cons.mp hc with rfl | hc
    · decide
    · exact hnum c hc
  · exact hnum c hc

theorem ints_line_chars (vs : List Int) :
    ∀ c ∈ ints_line vs, c ≠ '\n' ∧ c ≠ 'c' ∧ c ≠ 'p' := by
  induction vs with
  | nil => intro c hc; cases hc
  | cons v vs ih =>
    intro c hc
    rw [ints_line_cons] at hc
    rcases List.mem_append.mp hc with h | h
    · exact int_text_chars v c h
    · rcases List.mem_cons.mp h with rfl | h
      · decide
      · exact ih c h

theorem ints_line_length (vs : List Int) : vs.length ≤ (ints_line vs).length := by
  induction vs with
  | nil => simp
  | cons v vs ih =>
    rw [ints_line_cons]
    simp only [List.length_append, List.length_cons]
    omega

/-- What a line of written integers contributes: the integers before the first
`0`, when there is one. -/
theorem line_clauses_ints_line (vs : List Int)
    (hvs : ∀ v ∈ vs, -2147483648 ≤ v ∧ v ≤ 2147483647) :
    line_clauses (ints_line vs) =
      if vs.takeWhile (fun v => decide (v ≠ 0)) = [] then []
      else [vs.takeWhile (fun v => decide (v ≠ 0))] := by
  have hints : line_ints (ints_line vs) = vs :=
    extractions_ints_line vs hvs _ (ints_line_length vs)
  unfold line_clauses
  rw [hints]
  by_cases he : ints_line vs = []
  · have hv : vs = [] := by
      cases vs with
      | nil => rfl
      | cons v tl =>
        have := ints_line_length (v :: tl)
        rw [he] at this
        simp at this
    subst hv
    simp
  · have hhead : ¬ (ints_line vs = [] ∨ (ints_line vs).head? = some 'c' ∨
        (ints_line vs).head? = some 'p') := by
      cases hl : ints_line vs with
      | nil => exact absurd hl he
      | cons c cs =>
        have hc := ints_line_chars vs c (by rw [hl]; exact List.mem_cons_self _ _)
        intro h
        rcases h with h | h | h
        · cases h
        · simp only [List.head?_cons, Option.some.injEq] at h
          exact hc.2.1 h
        · simp only [List.head?_cons, Option.some.injEq] at h
          exact hc.2.2 h
    rw [if_neg hhead]

/-! ## C13 -/

/-- The result of `CNFParser::parse` on a text given by its lines. -/
theorem parse_join_lines (ls : List (List Char)) (last : List Char)
    (hls : ∀ l ∈ ls, '\n' ∉ l) (hlast : '\n' ∉ last) (fuel : Nat)
    (hfuel : (join_lines ls last).length < fuel) :
    CNFParser.parse fuel (join_lines ls last) =
      some (((ls ++ [last]).map line_clauses).flatten) := by
  have hlen : ∀ line ∈ CNFParser.get_lines [] (join_lines ls last), line.length < fuel := by
    intro line hl
    have := get_lines_length (join_lines ls last) [] line hl
    simp only [List.length_nil] at this
    omega
  have hparse := parse_lines_spec fuel _ hlen
  unfold CNFParser.parse
  rw [hparse, get_lines_join ls last hls hlast]
  by_cases he : last = []
  · subst he
    simp [line_clauses_nil]
  · have : last.isEmpty = false := by
      cases last with
      | nil => exact absurd rfl he
      | cons a b => rfl
    rw [this]
    simp

theorem flatten_filter_nonempty (t : List Int → Clause) (rows : List (List Int)) :
    (rows.map (fun r => if t r = [] then [] else [t r])).flatten =
      (rows.map t).filter (fun c => decide (c ≠ [])) := by
  induction rows with
  | nil => rfl
  | cons r rest ih =>
    rw [List.map_cons, List.flatten_cons, ih, List.map_cons]
    by_cases he : t r = []
    · rw [if_pos he, he]
      simp
    · rw [if_neg he, List.filter_cons_of_pos (by simpa using he)]
      rfl

/-- C13 (amended claim): a text consists of lines `ls`, each ended by a line
break, and a rest `last` without a line break.  With fuel beyond the length of
the text, `CNFParser::parse` returns, and its result is the concatenation, line
by line, of what each of `ls` and `last` contributes: nothing for a line that is
empty or starts with `c` or `p`; otherwise the single clause of the integers of
that line before its first `0` (all of them when the line has no `0`), in the
order of the line, and nothing when there is no such integer.  A clause never
continues on the next line.  In particular, on a text whose lines are written
from rows of 32-bit integers, each in decimal and followed by a blank, the
integers read from a line are those of its row, and the result is the list of
the rows, each cut before its first `0`, without the rows that are empty
then. -/
theorem parse_clause_per_line (text : List Char) (fuel : Nat) (hfuel : text.length < fuel) :
    (∃ ls last, (∀ l ∈ ls, '\n' ∉ l) ∧ '\n' ∉ last ∧ text = join_lines ls last) ∧
    (∀ ls last, (∀ l ∈ ls, '\n' ∉ l) → '\n' ∉ last → text = join_lines ls last →
      CNFParser.parse fuel text = some (((ls ++ [last]).map line_clauses).flatten) ∧
      ∀ line ∈ ls ++ [last],
        (line = [] ∨ line.head? = some 'c' ∨ line.head? = some 'p' → line_clauses line = []) ∧
        (¬ (line = [] ∨ line.head? = some 'c' ∨ line.head? = some 'p') →
          ∀ fuel2, line.length < fuel2 →
            CNFParser.read_clause fuel2 line [] =
              some ((line_ints line).takeWhile (fun v => decide (v ≠ 0))) ∧
            line_clauses line =
              if (line_ints line).takeWhile (fun v => decide (v ≠ 0)) = [] then []
              else [(line_ints line).takeWhile (fun v => decide (v ≠ 0))])) ∧
    ∀ rows : List (List Int),
      (∀ r ∈ rows, ∀ v ∈ r, -2147483648 ≤ v ∧ v ≤ 2147483647) →
      text = join_lines (rows.map ints_line) [] →
      (∀ r ∈ rows, line_ints (ints_line r) = r) ∧
      CNFParser.parse fuel text =
        some ((rows.map (fun r => r.takeWhile (fun v => decide (v ≠ 0)))).filter
          (fun c => decide (c ≠ []))) := by
  refine ⟨text_is_lines text, ?_, ?_⟩
  · intro ls last hls hlast htext
    refine ⟨?_, ?_⟩
    · rw [htext] at hfuel ⊢
      exact parse_join_lines ls last hls hlast fuel hfuel
    · intro line _
      refine ⟨?_, ?_⟩
      · intro h
        unfold line_clauses
        rw [if_pos h]
      · intro h fuel2 hf2
        refine ⟨?_, ?_⟩
        · have := read_clause_spec fuel2 line [] line.length hf2 (le_refl _)
          rw [this]
          rfl
        · unfold line_clauses
          rw [if_neg h]
  · intro rows hrows htext
    refine ⟨fun r hr => extractions_ints_line r (hrows r hr) _ (ints_line_length r), ?_⟩
    have hls : ∀ l ∈ rows.map ints_line, '\n' ∉ l := by
      intro l hl hmem
      obtain ⟨r, _, rfl⟩ := List.mem_map.mp hl
      exact (ints_line_chars r _ hmem).1 rfl
    rw [htext] at hfuel ⊢
    rw [parse_join_lines _ [] hls (by simp) fuel hfuel, List.map_append, List.flatten_append]
    simp only [List.map_cons, List.map_nil, line_clauses_nil, List.flatten_cons,
      List.flatten_nil, List.append_nil, List.map_map]
    rw [← flatten_filter_nonempty]
    congr 2
    apply List.map_congr_left
    intro r hr
    exact line_clauses_ints_line r (hrows r hr)

/-- Witness for C13: a header, a comment, a clause without its `0` and a clause
with an integer after its `0`; and the text written from the rows `1 -2` and
`-3 2 0 1`. -/
theorem parse_clause_per_line_witness :
    small_dimacs.length < 40 ∧
    small_dimacs = join_lines
      ["p cnf 3 2".toList, "c example".toList, "1 -2".toList, "-3 2 0 1".toList] [] ∧
    line_ints "-3 2 0 1".toList = [-3, 2, 0, 1] ∧
    CNFParser.parse 40 small_dimacs = some [[1, -2], [-3, 2]] ∧
    CNFParser.parse 40 small_dimacs =
      some (((["p cnf 3 2".toList, "c example".toList, "1 -2".toList, "-3 2 0 1".toList]
        ++ [[]]).map line_clauses).flatten) ∧
    join_lines ([[1, -2], [-3, 2, 0, 1]].map ints_line) [] = "1 -2 \n-3 2 0 1 \n".toList ∧
    CNFParser.parse 40 (join_lines ([[1, -2], [-3, 2, 0, 1]].map ints_line) []) =
      some [[1, -2], [-3, 2]] :=
  have h := parse_clause_per_line small_dimacs 40 (by decide)
  ⟨by decide, by decide!, by decide!, by decide!,
    (h.2.1 ["p cnf 3 2".toList, "c example".toList, "1 -2".toList, "-3 2 0 1".toList] []
      (by decide!) (by decide!) (by decide!)).1,
    by decide!, by decide!⟩

/-! ## The clauses `analyze_conflict` returns -/

